import Mathlib

/-!
Shallow embedding of the Arduboy2 sprite blit engine (src/Sprites.cpp),
the RLE codec encoder (extras/cabi/cabi.c) and the RLE decoders
(cabi.c `draw_compressed_sprite_ascii`, Arduboy2.cpp `Arduboy2Base::drawCompressed`),
together with theorems settling the frozen claims about them.

Machine-integer conventions: the runtime library targets AVR, where `int` is
16 bits wide.  Signed 16-bit quantities are modelled as `Int` wrapped with
`i16`, unsigned 16-bit quantities with `u16`/explicit `% 65536`, 8-bit
quantities with `% 256` (or `i8` when signed).  `uint8_t` array loads are
modelled by applying `% 256` to an abstract byte source `Nat → Nat`.
C integer division/remainder truncate toward zero; `tdiv8` mirrors that for
the one divisor that occurs (`/ 8`), and `Int.natAbs` mirrors `abs`.
-/

/-- Wrap an integer to signed 16-bit two's complement (AVR `int` / `int16_t`). -/
def i16 (n : Int) : Int := (n + 32768) % 65536 - 32768

/-- Wrap an integer to signed 8-bit two's complement (`int8_t`). -/
def i8 (n : Int) : Int := (n + 128) % 256 - 128

/-- Wrap an integer to unsigned 16-bit, as a natural number (`uint16_t`). -/
def u16 (n : Int) : Nat := (n % 65536).toNat

/-- Wrap an integer to unsigned 8-bit, as a natural number (`uint8_t`). -/
def u8 (n : Int) : Nat := (n % 256).toNat

/-- C truncating division by 8 (`y / 8` on a signed int rounds toward zero). -/
def tdiv8 (y : Int) : Int := if 0 ≤ y then (y.toNat / 8 : Nat) else -((y.natAbs / 8 : Nat))

theorem u16_emod (n : Int) : (u16 n : Int) = n % 65536 := by
  unfold u16; omega

theorem u16_add_int (n : Int) (k : Nat) : (u16 n + k) % 65536 = u16 (n + k) := by
  unfold u16; omega

theorem u16_of_bounds (n : Int) (h1 : 0 ≤ n) (h2 : n < 65536) : (u16 n : Int) = n := by
  unfold u16; omega

theorem i16_bounds (n : Int) : -32768 ≤ i16 n ∧ i16 n < 32768 := by
  unfold i16; omega

theorem i16_of_bounds (n : Int) (h1 : -32768 ≤ n) (h2 : n < 32768) : i16 n = n := by
  unfold i16; omega

theorem i16_congr (a b : Int) (h : a % 65536 = b % 65536) : i16 a = i16 b := by
  unfold i16; omega

/-- Or on naturals with disjoint bit support is addition (used to relate the
C `result |= 1 << i` accumulation to plain sums). -/
theorem land_zero_lor_eq_add (a : Nat) : ∀ b, a &&& b = 0 → a ||| b = a + b := by
  induction a using Nat.binaryRec with
  | z => intro b _; simp
  | f i m ih =>
    intro b h
    induction b using Nat.binaryRec with
    | z => simp
    | f j n _ =>
      rw [Nat.land_bit] at h
      rw [Nat.lor_bit]
      have h2 : (i && j) = false ∧ m &&& n = 0 := by
        cases hv : (i && j) <;> cases i <;> cases j <;>
          simp_all [Nat.bit]
      have := ih n h2.2
      cases i <;> cases j <;> simp_all [Nat.bit] <;> omega

/-- Low/high split of a byte product: `m % 2^(n+1)` in terms of bit 0 and the rest. -/
theorem mod_two_pow_succ_eq (m n : Nat) : m % 2 ^ (n + 1) = m % 2 + 2 * (m / 2 % 2 ^ n) := by
  have hk : (0:Nat) < 2 ^ n := Nat.pos_pow_of_pos n (by omega)
  have h2 : (2:Nat) ^ (n+1) = 2 * 2 ^ n := by ring
  rw [h2]
  conv_lhs => rw [← Nat.div_add_mod m 2]
  rw [Nat.add_comm, Nat.add_mod, Nat.mul_mod_mul_left]
  have h1 : m % 2 % (2 * 2 ^ n) = m % 2 :=
    Nat.mod_eq_of_lt (lt_of_lt_of_le (Nat.mod_lt _ (by omega)) (by omega))
  rw [h1]
  exact Nat.mod_eq_of_lt (by have := Nat.mod_lt (m/2) hk; omega)

/-! ### Bit-stream primitives of the cabi encoder (cabi.c)

`putval v n` is the sequence of bits emitted by cabi's `putval(val, bits)`:
bit `i` of `val` for `i = 0 .. bits-1`, least significant first.  Each listed
bit corresponds to one `putbit` call; the byte-level buffering performed by
`putbit` itself is modelled by `putbitsFlush` below. -/

def putval (val : Nat) : Nat → List Bool
  | 0 => []
  | bits + 1 => (val % 2 = 1) :: putval (val / 2) bits

theorem putval_length (val n : Nat) : (putval val n).length = n := by
  induction n generalizing val with
  | zero => rfl
  | succ n ih => simp [putval, ih]

theorem putval_getD (val : Nat) : ∀ n i, i < n → (putval val n).getD i false = val.testBit i := by
  intro n
  induction n generalizing val with
  | zero => omega
  | succ n ih =>
    intro i hi
    cases i with
    | zero =>
      have hb : val.testBit 0 = decide (val % 2 = 1) := by rw [Nat.testBit_zero]
      rw [hb]; rfl
    | succ i =>
      have : (putval val (n+1)).getD (i+1) false = (putval (val/2) n).getD i false := rfl
      rw [this, ih (val/2) i (by omega), Nat.testBit_succ]

theorem putval_zero_eq_replicate (n : Nat) : putval 0 n = List.replicate n false := by
  induction n with
  | zero => rfl
  | succ n ih => simp [putval, ih, List.replicate]

/-- cabi `putsplen`: the `while ((1 << blen) <= len) blen += 2` search for the
number of bits used to store a span length.  The C loop is bounded because
`2 ^ blen` eventually exceeds `len`; the explicit fuel `len + 1` is always
sufficient (proved in `blenFor_gt`). -/
def blenLoop (len : Nat) : Nat → Nat → Nat
  | 0, blen => blen
  | fuel + 1, blen => if (1 <<< blen) ≤ len then blenLoop len fuel (blen + 2) else blen

def blenFor (len : Nat) : Nat := blenLoop len (len + 1) 1

theorem blenLoop_gt (len : Nat) : ∀ fuel blen, len < 2 ^ (blen + 2 * fuel) →
    len < 2 ^ blenLoop len fuel blen := by
  intro fuel
  induction fuel with
  | zero => intro blen h; simpa [blenLoop] using h
  | succ fuel ih =>
    intro blen h
    by_cases hc : (1 <<< blen) ≤ len
    · have : len < 2 ^ (blen + 2 + 2 * fuel) := by
        have : blen + 2 + 2 * fuel = blen + 2 * (fuel + 1) := by ring
        rw [this]; exact h
      simpa [blenLoop, hc] using ih (blen + 2) this
    · have hc2 : ¬ (2 ^ blen ≤ len) := by rwa [Nat.shiftLeft_eq, one_mul] at hc
      simp only [blenLoop, hc, if_false]
      omega

theorem blenFor_gt (len : Nat) : len < 2 ^ blenFor len := by
  apply blenLoop_gt
  calc len < 2 ^ len := Nat.lt_two_pow len
    _ ≤ 2 ^ (1 + 2 * (len + 1)) := Nat.pow_le_pow_right (by omega) (by omega)

theorem blenLoop_mod_two (len : Nat) : ∀ fuel blen, blenLoop len fuel blen % 2 = blen % 2 := by
  intro fuel
  induction fuel with
  | zero => intro blen; rfl
  | succ fuel ih =>
    intro blen
    by_cases hc : (1 <<< blen) ≤ len <;> simp [blenLoop, hc]
    rw [ih (blen + 2)]; omega

theorem blenFor_odd (len : Nat) : blenFor len % 2 = 1 := blenLoop_mod_two len _ 1

theorem blenLoop_lower (len : Nat) : ∀ fuel blen,
    blenLoop len fuel blen = blen ∨ 2 ^ (blenLoop len fuel blen - 2) ≤ len := by
  intro fuel
  induction fuel with
  | zero => intro blen; left; rfl
  | succ fuel ih =>
    intro blen
    by_cases hc : (1 <<< blen) ≤ len
    · simp only [blenLoop, hc, if_true]
      rcases ih (blen + 2) with h | h
      · right; rw [h]
        rw [Nat.shiftLeft_eq, one_mul] at hc
        simpa using hc
      · right; exact h
    · left; simp [blenLoop, hc]

theorem blenFor_lower (len : Nat) : blenFor len = 1 ∨ 2 ^ (blenFor len - 2) ≤ len :=
  blenLoop_lower len _ 1

/-- The unary prefix length `(blen-1)/2` never exceeds the value being framed:
needed to budget decoder fuel against span length. -/
theorem blenFor_prefix_le (v : Nat) : (blenFor v - 1) / 2 ≤ v := by
  rcases blenFor_lower v with h | h
  · rw [h]; omega
  · have hb := blenFor_odd v
    set b := blenFor v with hbdef
    have h3 : b ≥ 3 ∨ b = 1 := by omega
    rcases h3 with h3 | h3
    · have : b - 2 < 2 ^ (b - 2) := Nat.lt_two_pow (b - 2)
      omega
    · rw [h3]; omega

theorem blenFor_le_of_lt (v k : Nat) (h : v < 2 ^ k) : blenFor v ≤ k + 2 := by
  rcases blenFor_lower v with hl | hl
  · omega
  · by_contra hc
    have h1 : k + 1 ≤ blenFor v - 2 := by omega
    have h2 : 2 ^ (k+1) ≤ 2 ^ (blenFor v - 2) := Nat.pow_le_pow_right (by omega) h1
    have h3 : 2 ^ k ≤ 2 ^ (k+1) := Nat.pow_le_pow_right (by omega) (by omega)
    omega

/-- cabi `putsplen(len)`: `(blen-1)/2` zero bits, a single one bit, then
`len` in `blen` bits LSB-first. -/
def putsplen (len : Nat) : List Bool :=
  putval 0 ((blenFor len - 1) / 2) ++ putval 1 1 ++ putval len (blenFor len)

theorem putsplen_length (len : Nat) :
    (putsplen len).length = (blenFor len - 1) / 2 + 1 + blenFor len := by
  simp [putsplen, putval_length]
  omega

/-! ### Byte packing (cabi `putbit` buffering and final zero padding)

`putbitsFlush byteAcc bitAcc L` runs cabi's `putbit` state machine
(`cs.byte`, `cs.bit`) over the listed bits and finally performs the
`while (cs.bit != 0x1) putbit(0)` zero padding, returning the emitted bytes.
Padding zero bits never set a bit, so flushing emits the accumulator as is. -/

def putbitsFlush (byteAcc bitAcc : Nat) : List Bool → List Nat
  | [] => if bitAcc = 1 then [] else [byteAcc]
  | b :: rest =>
    let byte2 := if b then byteAcc ||| bitAcc else byteAcc
    let bit2 := bitAcc <<< 1
    if bit2 = 256 then byte2 :: putbitsFlush 0 1 rest else putbitsFlush byte2 bit2 rest

/-- Bit `q` of a byte list read in stream order: byte `q / 8`, bit `q % 8`
(the order both decoders traverse bytes). -/
def byteListBit (bytes : List Nat) (q : Nat) : Bool := (bytes.getD (q / 8) 0).testBit (q % 8)

theorem byteListBit_nil (q : Nat) : byteListBit [] q = false := by
  simp [byteListBit]

theorem byteListBit_cons (a : Nat) (rest : List Nat) (q : Nat) :
    byteListBit (a :: rest) q = if q < 8 then a.testBit q else byteListBit rest (q - 8) := by
  unfold byteListBit
  by_cases h : q < 8
  · have h1 : q / 8 = 0 := by omega
    have h2 : q % 8 = q := by omega
    simp [h, h1, h2]
  · have h1 : q / 8 = (q - 8) / 8 + 1 := by omega
    have h2 : q % 8 = (q - 8) % 8 := by omega
    simp [h, h1, h2]

theorem testBit_of_lt_two_pow (x i : Nat) (h : x < 2 ^ i) : x.testBit i = false := by
  rcases Nat.lt_or_ge x (2^i) with _ | h2
  · exact Nat.testBit_lt_two_pow h
  · omega

theorem lor_two_pow_testBit (a k j : Nat) :
    (a ||| 2 ^ k).testBit j = if j = k then true else a.testBit j := by
  rw [Nat.testBit_lor]
  by_cases h : j = k
  · subst h; simp [Nat.testBit_two_pow_self]
  · simp [Nat.testBit_two_pow_of_ne (fun hh => h hh.symm), h]

theorem lor_two_pow_lt (a k : Nat) (h : a < 2 ^ (k+1)) : a ||| 2 ^ k < 2 ^ (k+1) := by
  exact Nat.or_lt_two_pow h (Nat.pow_lt_pow_right (by omega) (by omega))

theorem putbitsFlush_bit (L : List Bool) : ∀ k byteAcc, k < 8 → byteAcc < 2 ^ k →
    ∀ q, byteListBit (putbitsFlush byteAcc (2 ^ k) L) q
      = if q < k then byteAcc.testBit q else L.getD (q - k) false := by
  induction L with
  | nil =>
    intro k byteAcc hk hb q
    by_cases hk0 : k = 0
    · subst hk0
      have hz : byteAcc = 0 := by omega
      subst hz
      simp [putbitsFlush, byteListBit_nil]
    · have h2 : (2:Nat) ^ k ≠ 1 := by
        have : (2:Nat) ^ 1 ≤ 2 ^ k := Nat.pow_le_pow_right (by omega) (by omega)
        omega
      simp only [putbitsFlush, h2, if_false]
      rw [byteListBit_cons]
      by_cases hq : q < 8
      · by_cases hqk : q < k
        · simp [hq, hqk]
        · have hf : byteAcc.testBit q = false := by
            apply testBit_of_lt_two_pow
            calc byteAcc < 2 ^ k := hb
              _ ≤ 2 ^ q := Nat.pow_le_pow_right (by omega) (by omega)
          simp [hq, hqk, hf]
      · have hqk : ¬ q < k := by omega
        simp [hq, hqk, byteListBit_nil]
  | cons b rest ih =>
    intro k byteAcc hk hb q
    have hblt : byteAcc < 2 ^ (k+1) :=
      lt_of_lt_of_le hb (Nat.pow_le_pow_right (by omega) (by omega))
    have hbyte2 : (if b then byteAcc ||| 2 ^ k else byteAcc) < 2 ^ (k+1) := by
      cases b <;> simp [lor_two_pow_lt byteAcc k hblt, hblt]
    have htest : ∀ j, (if b then byteAcc ||| 2 ^ k else byteAcc).testBit j
        = if j = k then b else byteAcc.testBit j := by
      intro j
      by_cases hj : j = k
      · subst hj
        cases b with
        | false => simpa using testBit_of_lt_two_pow byteAcc j hb
        | true => simp [lor_two_pow_testBit]
      · cases b with
        | false => simp [hj]
        | true =>
          rw [if_pos rfl, lor_two_pow_testBit, if_neg hj]
    by_cases hk7 : k = 7
    · subst hk7
      have hflush : (2:Nat) ^ 7 <<< 1 = 256 := by decide
      simp only [putbitsFlush, hflush, if_true]
      rw [byteListBit_cons]
      by_cases hq : q < 8
      · rw [if_pos hq, htest q]
        by_cases hq7 : q = 7
        · subst hq7; simp
        · have hq7' : q < 7 := by omega
          simp [hq7, hq7']
      · have h0 : (2:Nat) ^ 0 = 1 := rfl
        have := ih 0 0 (by omega) (by omega) (q - 8)
        rw [h0] at this
        rw [if_neg hq, this]
        have hqk : ¬ q < 7 := by omega
        have hsub : q - 8 - 0 = (q - 7) - 1 := by omega
        simp only [Nat.not_lt_zero, if_false, hqk]
        rw [hsub]
        have hq7 : q - 7 = (q - 8) + 1 := by omega
        rw [hq7]
        simp
    · have hflush : (2:Nat) ^ k <<< 1 = 2 ^ (k+1) := by
        rw [Nat.shiftLeft_eq]; ring
      have hne : (2:Nat) ^ (k+1) ≠ 256 := by
        have hlt : (2:Nat) ^ (k+1) < 2 ^ 8 := Nat.pow_lt_pow_right (by omega) (by omega)
        norm_num at hlt ⊢
        omega
      simp only [putbitsFlush, hflush, hne, if_false]
      rw [ih (k+1) _ (by omega) hbyte2 q]
      by_cases hq1 : q < k
      · rw [if_pos (by omega : q < k+1), htest q, if_neg (by omega : ¬ q = k), if_pos hq1]
      · by_cases hq2 : q = k
        · subst hq2
          rw [if_pos (by omega : q < q+1), htest q, if_pos rfl, if_neg (by omega : ¬ q < q)]
          simp
        · rw [if_neg (by omega : ¬ q < k+1), if_neg (by omega : ¬ q < k)]
          have : q - k = (q - (k+1)) + 1 := by omega
          rw [this]
          simp

/-! ### Values of bit runs

`valAt B p n` is the number whose LSB-first bits are `B p, B (p+1), ...,
B (p+n-1)`: the value every reader below accumulates from `n` stream bits. -/

def valAt (B : Nat → Bool) (p : Nat) : Nat → Nat
  | 0 => 0
  | n + 1 => (if B p then 1 else 0) + 2 * valAt B (p + 1) n

theorem valAt_eq_of_testBit (B : Nat → Bool) (v : Nat) :
    ∀ n p, (∀ i, i < n → B (p + i) = v.testBit i) → valAt B p n = v % 2 ^ n := by
  intro n
  induction n generalizing v with
  | zero => intro p _; simp [valAt, Nat.mod_one]
  | succ n ih =>
    intro p h
    have h0 : B p = v.testBit 0 := by simpa using h 0 (by omega)
    have hrest : ∀ i, i < n → B (p + 1 + i) = (v / 2).testBit i := by
      intro i hi
      have := h (i + 1) (by omega)
      rw [← Nat.testBit_succ]
      convert this using 2
      omega
    have hv0 : v.testBit 0 = decide (v % 2 = 1) := by rw [Nat.testBit_zero]
    rw [valAt, h0, ih (v / 2) (p + 1) hrest, hv0, mod_two_pow_succ_eq]
    rcases Nat.mod_two_eq_zero_or_one v with hm | hm <;> simp [hm]

theorem valAt_false (B : Nat → Bool) : ∀ n p, (∀ i, i < n → B (p + i) = false) →
    valAt B p n = 0 := by
  intro n p h
  have := valAt_eq_of_testBit B 0 n p (by intro i hi; simpa using h i hi)
  simpa using this

/-! ### The cabi decoder bit reader (cabi.c `CSESSION` / `getval`)

State of the cabi reader used by `draw_compressed_sprite_ascii`: current
byte, the walking bit mask (with `0x100` as the reload sentinel) and the
source position.  `compress_rle` initialises it with `memset` then
`cs.bit = 0x100`. -/

structure CS where
  byte : Nat
  bit : Nat
  src_pos : Nat
deriving DecidableEq, Repr

/-- One bit read, cabi `getval` body for a single loop iteration. -/
def getbitC (src : Nat → Nat) (s : CS) : Nat × CS :=
  let s2 := if s.bit = 256 then { byte := src s.src_pos, bit := 1, src_pos := s.src_pos + 1 } else s
  let v := if s2.byte &&& s2.bit ≠ 0 then 1 else 0
  (v, { s2 with bit := s2.bit <<< 1 })

/-- cabi `getval(bits)`: accumulate `bits` stream bits, LSB first
(`val += (1 << i)`; the host tool computes this in a wide unsigned, so the
accumulation is exact for every bit count the format uses). -/
def getvalC (src : Nat → Nat) : Nat → CS → Nat × CS
  | 0, s => (0, s)
  | n + 1, s =>
    let (b, s1) := getbitC src s
    let (v, s2) := getvalC src n s1
    (b + 2 * v, s2)

/-- The reader state after `p` bits have been consumed from a fresh session. -/
def csAt (src : Nat → Nat) (p : Nat) : CS :=
  if p % 8 = 0 then ⟨if p = 0 then 0 else src (p / 8 - 1), 256, p / 8⟩
  else ⟨src (p / 8), 2 ^ (p % 8), p / 8 + 1⟩

def srcBit (src : Nat → Nat) (q : Nat) : Bool := (src (q / 8)).testBit (q % 8)

theorem and_two_pow_ne_zero (x r : Nat) : (x &&& 2 ^ r ≠ 0) ↔ x.testBit r := by
  rw [Nat.and_two_pow]
  have hp : (0:Nat) < 2 ^ r := Nat.pos_pow_of_pos r (by omega)
  cases h : x.testBit r <;> simp [h]

theorem getbitC_at (src : Nat → Nat) (p : Nat) :
    getbitC src (csAt src p) = ((if srcBit src p then 1 else 0), csAt src (p + 1)) := by
  have hsb : srcBit src p = (src (p / 8)).testBit (p % 8) := rfl
  by_cases h0 : p % 8 = 0
  · have e : csAt src p = ⟨if p = 0 then 0 else src (p / 8 - 1), 256, p / 8⟩ := by
      simp [csAt, h0]
    have hcs : csAt src (p + 1) = ⟨src (p / 8), 2, p / 8 + 1⟩ := by
      have h1 : (p + 1) % 8 = 1 := by omega
      have h2 : (p + 1) / 8 = p / 8 := by omega
      simp [csAt, h1, h2]
    have hv : (src (p / 8) &&& 1 ≠ 0) ↔ ((src (p/8)).testBit 0) := by
      have := and_two_pow_ne_zero (src (p/8)) 0
      simpa using this
    rw [e, hcs, hsb, h0]
    cases htb : (src (p / 8)).testBit 0 with
    | false =>
      have hm := htb
      rw [Nat.testBit_zero] at hm
      simp only [decide_eq_false_iff_not] at hm
      have hz : ¬ (src (p / 8) &&& 1 ≠ 0) := fun hc => by simp [hv.1 hc] at htb
      simp [getbitC, hz]
      omega
    | true =>
      have hm := htb
      rw [Nat.testBit_zero] at hm
      simp only [decide_eq_true_eq] at hm
      have hz : src (p / 8) &&& 1 ≠ 0 := by
        intro hcontra
        have := (not_iff_not.2 hv).1 (by simpa using hcontra)
        simp [htb] at this
      simp [getbitC, hz]
      omega
  · have hr : p % 8 ≥ 1 ∧ p % 8 ≤ 7 := by omega
    have e : csAt src p = ⟨src (p / 8), 2 ^ (p % 8), p / 8 + 1⟩ := by
      simp [csAt, h0]
    have hne : (2:Nat) ^ (p % 8) ≠ 256 := by
      have : (2:Nat) ^ (p % 8) ≤ 2 ^ 7 := Nat.pow_le_pow_right (by omega) (by omega)
      norm_num at this ⊢
      omega
    have hv : (src (p / 8) &&& 2 ^ (p % 8) ≠ 0) ↔ ((src (p/8)).testBit (p % 8)) :=
      and_two_pow_ne_zero _ _
    by_cases h7 : p % 8 = 7
    · have hcs : csAt src (p + 1) = ⟨src (p / 8), 256, p / 8 + 1⟩ := by
        have h1 : (p + 1) % 8 = 0 := by omega
        have h2 : (p + 1) / 8 = p / 8 + 1 := by omega
        have h3 : ¬ (p + 1 = 0) := by omega
        simp [csAt, h1, h2, h3]
      have hsh : (2:Nat) ^ (p % 8) <<< 1 = 256 := by rw [h7]; decide
      rw [e, hcs, hsb]
      cases htb : (src (p / 8)).testBit (p % 8) with
      | false =>
        have hz : ¬ (src (p / 8) &&& 2 ^ (p % 8) ≠ 0) := fun hc => by simp [hv.1 hc] at htb
        simp [getbitC, hne, hz, hsh]
      | true =>
        have hz : src (p / 8) &&& 2 ^ (p % 8) ≠ 0 := by
          intro hcontra
          have := (not_iff_not.2 hv).1 (by simpa using hcontra)
          simp [htb] at this
        simp [getbitC, hne, hz, hsh]
    · have hcs : csAt src (p + 1) = ⟨src (p / 8), 2 ^ (p % 8 + 1), p / 8 + 1⟩ := by
        have h1 : (p + 1) % 8 = p % 8 + 1 := by omega
        have h2 : (p + 1) / 8 = p / 8 := by omega
        have h3 : ¬ ((p + 1) % 8 = 0) := by omega
        simp [csAt, h3, h1, h2]
      have hsh : (2:Nat) ^ (p % 8) <<< 1 = 2 ^ (p % 8 + 1) := by
        rw [Nat.shiftLeft_eq]; ring
      rw [e, hcs, hsb]
      cases htb : (src (p / 8)).testBit (p % 8) with
      | false =>
        have hz : ¬ (src (p / 8) &&& 2 ^ (p % 8) ≠ 0) := fun hc => by simp [hv.1 hc] at htb
        simp [getbitC, hne, hz, hsh]
      | true =>
        have hz : src (p / 8) &&& 2 ^ (p % 8) ≠ 0 := by
          intro hcontra
          have := (not_iff_not.2 hv).1 (by simpa using hcontra)
          simp [htb] at this
        simp [getbitC, hne, hz, hsh]

theorem getvalC_at (src : Nat → Nat) : ∀ n p,
    getvalC src n (csAt src p) = (valAt (srcBit src) p n, csAt src (p + n)) := by
  intro n
  induction n with
  | zero => intro p; simp [getvalC, valAt]
  | succ n ih =>
    intro p
    rw [getvalC, getbitC_at]
    simp only
    rw [ih (p + 1)]
    simp only [valAt]
    have harith : p + 1 + n = p + (n + 1) := by omega
    rw [harith]

/-- The span-length prefix loop of `draw_compressed_sprite_ascii`:
`bl = 1; while (!getval(1)) bl += 2;`.  The C loop is bounded by the first
one bit in the stream; `fuel` is an explicit bound on the zero bits read,
always instantiated generously enough (see `asciiPrefixC_at`). -/
def asciiPrefixC (src : Nat → Nat) : Nat → CS → Nat → Nat × CS
  | 0, cs, bl => (bl, cs)
  | fuel + 1, cs, bl =>
    let (b, cs2) := getbitC src cs
    if b = 0 then asciiPrefixC src fuel cs2 (bl + 2) else (bl, cs2)

theorem asciiPrefixC_at (src : Nat → Nat) : ∀ k fuel p bl,
    k < fuel →
    (∀ i, i < k → srcBit src (p + i) = false) →
    srcBit src (p + k) = true →
    asciiPrefixC src fuel (csAt src p) bl = (bl + 2 * k, csAt src (p + k + 1)) := by
  intro k
  induction k with
  | zero =>
    intro fuel p bl hf _ hone
    match fuel, hf with
    | fuel + 1, _ =>
      rw [asciiPrefixC, getbitC_at]
      simp only
      have h1 : srcBit src p = true := by simpa using hone
      simp [h1]
  | succ k ih =>
    intro fuel p bl hf hz hone
    match fuel, hf with
    | fuel + 1, hf =>
      rw [asciiPrefixC, getbitC_at]
      simp only
      have h0 : srcBit src p = false := by simpa using hz 0 (by omega)
      rw [h0]
      simp only [if_pos rfl, Bool.false_eq_true, if_false]
      have hz2 : ∀ i, i < k → srcBit src (p + 1 + i) = false := by
        intro i hi
        have := hz (i + 1) (by omega)
        convert this using 2
        omega
      have hone2 : srcBit src (p + 1 + k) = true := by
        convert hone using 2
        omega
      rw [ih fuel (p + 1) (bl + 2) (by omega) hz2 hone2]
      have e1 : bl + 2 + 2 * k = bl + 2 * (k + 1) := by omega
      have e2 : p + 1 + k + 1 = p + (k + 1) + 1 := by omega
      simp only [if_pos trivial, e1, e2]

/-! ### The cabi encoder (cabi.c `compress_rle` and helpers)

The pixel source is an abstract byte function; with the default
`reading_order == 0`, `getcol(pos)` reads bit `pos` of the packed
display-order array: byte `pos / 8`, bit `pos % 8`. -/

def getcol (src : Nat → Nat) (pos : Nat) : Bool :=
  (src (pos / 8) &&& (1 <<< (pos % 8))) != 0

theorem getcol_eq_srcBit (src : Nat → Nat) (pos : Nat) : getcol src pos = srcBit src pos := by
  unfold getcol srcBit
  have h : (1:Nat) <<< (pos % 8) = 2 ^ (pos % 8) := by
    rw [Nat.shiftLeft_eq, one_mul]
  rw [h, Nat.and_two_pow]
  have hp : (0:Nat) < 2 ^ (pos % 8) := Nat.pos_pow_of_pos _ (by omega)
  cases htb : (src (pos / 8)).testBit (pos % 8) <;> simp

/-- cabi `find_rlen`'s scan loop: advance while the colour matches and the
end has not been reached.  The C loop is bounded by `plen - pos`, which the
explicit fuel mirrors exactly. -/
def find_rlenFrom (src : Nat → Nat) (col : Bool) (plen : Nat) : Nat → Nat → Nat
  | 0, pos => pos
  | fuel + 1, pos =>
    if getcol src pos = col ∧ pos < plen then find_rlenFrom src col plen fuel (pos + 1) else pos

/-- cabi `find_rlen(pos, plen)`: length of the maximal run of pixels of
colour `getcol(pos)` starting at `pos`. -/
def find_rlen (src : Nat → Nat) (pos plen : Nat) : Nat :=
  find_rlenFrom src (getcol src pos) plen (plen - pos) pos - pos

theorem find_rlenFrom_spec (src : Nat → Nat) (col : Bool) (plen : Nat) :
    ∀ fuel pos, pos ≤ plen → plen - pos ≤ fuel →
    pos ≤ find_rlenFrom src col plen fuel pos ∧
    find_rlenFrom src col plen fuel pos ≤ plen ∧
    (∀ j, pos ≤ j → j < find_rlenFrom src col plen fuel pos → getcol src j = col) ∧
    (find_rlenFrom src col plen fuel pos < plen → getcol src (find_rlenFrom src col plen fuel pos) ≠ col) := by
  intro fuel
  induction fuel with
  | zero =>
    intro pos h1 h2
    have hpe : pos = plen := by omega
    have he : find_rlenFrom src col plen 0 pos = pos := rfl
    rw [he]
    refine ⟨le_refl _, h1, ?_, ?_⟩
    · intro j hj1 hj2; omega
    · intro hlt; omega
  | succ fuel ih =>
    intro pos h1 h2
    by_cases hc : getcol src pos = col ∧ pos < plen
    · have hrec := ih (pos + 1) (by omega) (by omega)
      have he : find_rlenFrom src col plen (fuel + 1) pos = find_rlenFrom src col plen fuel (pos + 1) := by
        rw [find_rlenFrom, if_pos hc]
      rw [he]
      refine ⟨by omega, hrec.2.1, ?_, hrec.2.2.2⟩
      intro j hj1 hj2
      by_cases hj : j = pos
      · subst hj; exact hc.1
      · exact hrec.2.2.1 j (by omega) hj2
    · have he : find_rlenFrom src col plen (fuel + 1) pos = pos := by
        rw [find_rlenFrom, if_neg hc]
      rw [he]
      refine ⟨le_refl _, h1, ?_, ?_⟩
      · intro j hj1 hj2; omega
      · intro hlt
        intro hcol
        exact hc ⟨hcol, hlt⟩

theorem find_rlen_pos (src : Nat → Nat) (pos plen : Nat) (h : pos < plen) :
    1 ≤ find_rlen src pos plen := by
  unfold find_rlen
  have hfuel : plen - pos = (plen - pos - 1) + 1 := by omega
  rw [hfuel, find_rlenFrom, if_pos ⟨rfl, h⟩]
  have := (find_rlenFrom_spec src (getcol src pos) plen (plen - pos - 1) (pos + 1) (by omega) (by omega)).1
  omega

theorem find_rlen_le (src : Nat → Nat) (pos plen : Nat) (h : pos ≤ plen) :
    pos + find_rlen src pos plen ≤ plen := by
  unfold find_rlen
  have := (find_rlenFrom_spec src (getcol src pos) plen (plen - pos) pos h (by omega)).1
  have := (find_rlenFrom_spec src (getcol src pos) plen (plen - pos) pos h (by omega)).2.1
  omega

theorem find_rlen_all (src : Nat → Nat) (pos plen : Nat) (h : pos ≤ plen) :
    ∀ i, i < find_rlen src pos plen → getcol src (pos + i) = getcol src pos := by
  intro i hi
  unfold find_rlen at hi
  have hs := find_rlenFrom_spec src (getcol src pos) plen (plen - pos) pos h (by omega)
  exact hs.2.2.1 (pos + i) (by omega) (by omega)

theorem find_rlen_stop (src : Nat → Nat) (pos plen : Nat) (h : pos ≤ plen)
    (h2 : pos + find_rlen src pos plen < plen) :
    getcol src (pos + find_rlen src pos plen) ≠ getcol src pos := by
  have hs := find_rlenFrom_spec src (getcol src pos) plen (plen - pos) pos h (by omega)
  have h1 := hs.1
  unfold find_rlen
  have harr : pos + (find_rlenFrom src (getcol src pos) plen (plen - pos) pos - pos)
      = find_rlenFrom src (getcol src pos) plen (plen - pos) pos := by omega
  rw [harr]
  apply hs.2.2.2
  unfold find_rlen at h2
  omega

/-- cabi `compress_rle` span loop, emitting `putsplen(rlen - 1)` per span.
Each span advances `pos` by at least one pixel, so `plen - pos` bounds the
iteration count; the explicit fuel mirrors that bound. -/
def compressSpans (src : Nat → Nat) (plen : Nat) : Nat → Nat → List Bool
  | 0, _ => []
  | fuel + 1, pos =>
    if pos < plen then
      putsplen (find_rlen src pos plen - 1) ++
        compressSpans src plen fuel (pos + find_rlen src pos plen)
    else []

/-- cabi `compress_rle(src, w, h)`: header (`w-1`, `h-1`, colour of pixel 0),
the span stream, then zero padding to a byte boundary; returns the emitted
bytes. -/
def compress_rle (src : Nat → Nat) (w h : Nat) : List Nat :=
  putbitsFlush 0 1
    (putval (w - 1) 8 ++ putval (h - 1) 8 ++
     putval (if getcol src 0 then 1 else 0) 1 ++
     compressSpans src (w * h) (w * h) 0)

theorem getD_append_lt (l1 l2 : List Bool) (i : Nat) (h : i < l1.length) :
    (l1 ++ l2).getD i false = l1.getD i false := by
  simp [List.getD, List.getElem?_append, h]

theorem getD_append_ge (l1 l2 : List Bool) (n : Nat) (h : l1.length ≤ n) :
    (l1 ++ l2).getD n false = l2.getD (n - l1.length) false := by
  simp [List.getD, List.getElem?_append_right h]

theorem putsplen_getD_prefix (v i : Nat) (h : i < (blenFor v - 1) / 2) :
    (putsplen v).getD i false = false := by
  unfold putsplen
  rw [List.append_assoc, getD_append_lt _ _ i (by rw [putval_length]; omega)]
  rw [putval_getD 0 _ i (by omega)]
  simp

theorem putsplen_getD_one (v : Nat) :
    (putsplen v).getD ((blenFor v - 1) / 2) false = true := by
  unfold putsplen
  rw [List.append_assoc, getD_append_ge _ _ _ (by rw [putval_length])]
  rw [putval_length]
  have h0 : (blenFor v - 1) / 2 - (blenFor v - 1) / 2 = 0 := by omega
  rw [h0, getD_append_lt _ _ 0 (by rw [putval_length]; omega)]
  rw [putval_getD 1 1 0 (by omega)]
  rfl

theorem putsplen_getD_val (v i : Nat) (h : i < blenFor v) :
    (putsplen v).getD ((blenFor v - 1) / 2 + 1 + i) false = v.testBit i := by
  unfold putsplen
  rw [List.append_assoc, getD_append_ge _ _ _ (by rw [putval_length]; omega)]
  rw [putval_length]
  have h1 : (blenFor v - 1) / 2 + 1 + i - (blenFor v - 1) / 2 = 1 + i := by omega
  rw [h1, getD_append_ge _ _ _ (by rw [putval_length]; omega)]
  rw [putval_length]
  have h2 : 1 + i - 1 = i := by omega
  rw [h2, putval_getD v _ i h]

theorem map_range'_eq_replicate (f : Nat → Bool) (c : Bool) :
    ∀ n s, (∀ i, i < n → f (s + i) = c) → (List.range' s n).map f = List.replicate n c := by
  intro n
  induction n with
  | zero => intro s _; rfl
  | succ n ih =>
    intro s h
    rw [List.range'_succ]
    simp only [List.map_cons, List.replicate_succ]
    have h0 : f s = c := by simpa using h 0 (by omega)
    have hrest : (List.range' (s + 1) n).map f = List.replicate n c := by
      apply ih
      intro i hi
      have := h (i + 1) (by omega)
      convert this using 2
      omega
    rw [h0, hrest]

/-! ### The cabi test decoder `draw_compressed_sprite_ascii` (cabi.c)

The decoder walks a pixel cursor `(x, y)` (column within the printed raster,
raster row), advancing once per decoded pixel: `x++; if (x >= w) { y++;
x = 0; }`. -/

def asciiAdvance (w : Nat) : Nat → Nat × Nat → Nat × Nat
  | 0, c => c
  | n + 1, c => asciiAdvance w n (if c.1 + 1 ≥ w then (0, c.2 + 1) else (c.1 + 1, c.2))

theorem asciiAdvance_spec (w : Nat) (hw : 1 ≤ w) :
    ∀ n x y, x < w →
      (asciiAdvance w n (x, y)).1 < w ∧
      (asciiAdvance w n (x, y)).2 * w + (asciiAdvance w n (x, y)).1 = y * w + x + n := by
  intro n
  induction n with
  | zero => intro x y hx; exact ⟨hx, rfl⟩
  | succ n ih =>
    intro x y hx
    by_cases hwrap : x + 1 ≥ w
    · have hx1 : x + 1 = w := by omega
      have he : asciiAdvance w (n+1) (x, y) = asciiAdvance w n (0, y + 1) := by
        simp [asciiAdvance, hwrap]
      rw [he]
      have := ih 0 (y + 1) (by omega)
      refine ⟨this.1, ?_⟩
      rw [this.2]
      have : (y + 1) * w = y * w + w := by ring
      omega
    · have he : asciiAdvance w (n+1) (x, y) = asciiAdvance w n (x + 1, y) := by
        simp [asciiAdvance, hwrap]
      rw [he]
      have := ih (x + 1) y (by omega)
      refine ⟨this.1, ?_⟩
      rw [this.2]
      omega

/-- The span loop of `draw_compressed_sprite_ascii` (`while (y < h) { ... }`),
collecting the decoded pixel values in stream order.  One unit of fuel is
spent per span; since every span emits at least one pixel, `w * h` fuel is
enough for any stream the encoder produces.  The same fuel bounds the
span-length prefix loop. -/
def asciiLoop (src : Nat → Nat) (w h : Nat) : Nat → CS → Nat → Nat → Nat → List Bool
  | 0, _, _, _, _ => []
  | fuel + 1, cs, col, x, y =>
    if y < h then
      let pr := asciiPrefixC src (fuel + 1) cs 1
      let gv := getvalC src pr.1 pr.2
      let len := gv.1 + 1
      List.replicate len (col != 0) ++
        asciiLoop src w h fuel gv.2 (1 - col)
          (asciiAdvance w len (x, y)).1 (asciiAdvance w len (x, y)).2
    else []

/-- cabi `draw_compressed_sprite_ascii(src)`: read the header, then decode
spans until `h` raster rows of pixels have been produced.  Returns
`(w, h, starting colour, decoded pixel sequence)`. -/
def draw_compressed_sprite_ascii (src : Nat → Nat) (fuel : Nat) : Nat × Nat × Nat × List Bool :=
  let cs0 : CS := ⟨0, 256, 0⟩
  let gw := getvalC src 8 cs0
  let gh := getvalC src 8 gw.2
  let gc := getvalC src 1 gh.2
  (gw.1 + 1, gh.1 + 1, gc.1, asciiLoop src (gw.1 + 1) (gh.1 + 1) fuel gc.2 gc.1 0 0)

theorem asciiLoop_of_done (src : Nat → Nat) (w h : Nat) (fuel : Nat) (cs : CS)
    (col x y : Nat) (hy : ¬ y < h) : asciiLoop src w h fuel cs col x y = [] := by
  cases fuel with
  | zero => rfl
  | succ fuel => rw [asciiLoop, if_neg hy]

/-- Core round-trip induction: decoding the span stream that `compress_rle`
emitted for pixels `pos .. w*h-1` reproduces exactly those pixels, in the
encoder's own pixel order. -/
theorem asciiLoop_decode (srcPix src2 : Nat → Nat) (w h : Nat) (hw : 1 ≤ w) :
    ∀ fuel pos p col x y ef,
      pos = y * w + x → x < w → pos < w * h →
      w * h - pos ≤ fuel → w * h - pos ≤ ef →
      col = (if getcol srcPix pos then 1 else 0) →
      (∀ i, srcBit src2 (p + i) = (compressSpans srcPix (w * h) ef pos).getD i false) →
      asciiLoop src2 w h fuel (csAt src2 p) col x y
        = (List.range' pos (w * h - pos)).map (getcol srcPix) := by
  intro fuel
  induction fuel with
  | zero =>
    intro pos p col x y ef h1 h2 h3 h4
    omega
  | succ fuel ih =>
    intro pos p col x y ef hpos hx hlt hfuel hef hcol hagree
    have hy : y < h := by
      by_contra hy
      push_neg at hy
      have hmul : h * w ≤ y * w := Nat.mul_le_mul_right w hy
      have hcomm : w * h = h * w := Nat.mul_comm w h
      omega
    obtain ⟨ef', rfl⟩ : ∃ e, ef = e + 1 := ⟨ef - 1, by omega⟩
    have hr1 : 1 ≤ find_rlen srcPix pos (w * h) := find_rlen_pos _ _ _ hlt
    have hrle : pos + find_rlen srcPix pos (w * h) ≤ w * h := find_rlen_le _ _ _ (by omega)
    set rlen := find_rlen srcPix pos (w * h) with hrlen
    set v := rlen - 1 with hv
    set k := (blenFor v - 1) / 2 with hk
    have hvlt : v < 2 ^ blenFor v := blenFor_gt v
    have hkv : k ≤ v := blenFor_prefix_le v
    have hdec : compressSpans srcPix (w * h) (ef' + 1) pos
        = putsplen v ++ compressSpans srcPix (w * h) ef' (pos + rlen) := by
      rw [compressSpans, if_pos hlt]
    have hsp_len : (putsplen v).length = k + 1 + blenFor v := putsplen_length v
    have hzeros : ∀ i, i < k → srcBit src2 (p + i) = false := by
      intro i hi
      rw [hagree i, hdec, getD_append_lt _ _ i (by omega)]
      exact putsplen_getD_prefix v i hi
    have hone : srcBit src2 (p + k) = true := by
      rw [hagree k, hdec, getD_append_lt _ _ k (by omega)]
      exact putsplen_getD_one v
    have hpfx := asciiPrefixC_at src2 k (fuel + 1) p 1 (by omega) hzeros hone
    have hbl : 1 + 2 * k = blenFor v := by
      have := blenFor_odd v
      omega
    have hvbits : ∀ i, i < blenFor v → srcBit src2 (p + k + 1 + i) = v.testBit i := by
      intro i hi
      have hag := hagree (k + 1 + i)
      rw [hdec, getD_append_lt _ _ _ (by omega)] at hag
      rw [show p + k + 1 + i = p + (k + 1 + i) by omega, hag]
      exact putsplen_getD_val v i hi
    have hvala : valAt (srcBit src2) (p + k + 1) (blenFor v) = v := by
      rw [valAt_eq_of_testBit (srcBit src2) v (blenFor v) (p + k + 1) (fun i hi => hvbits i hi)]
      exact Nat.mod_eq_of_lt hvlt
    rw [asciiLoop, if_pos hy]
    simp only
    rw [hpfx]
    simp only
    rw [hbl, getvalC_at src2 (blenFor v) (p + k + 1), hvala]
    simp only
    have hlen : v + 1 = rlen := by omega
    rw [hlen]
    have hcolb : (col != 0) = getcol srcPix pos := by
      rw [hcol]; cases getcol srcPix pos <;> simp
    rw [hcolb]
    have hadv := asciiAdvance_spec w hw rlen x y hx
    set x2 := (asciiAdvance w rlen (x, y)).1 with hx2
    set y2 := (asciiAdvance w rlen (x, y)).2 with hy2
    have hsplit : (List.range' pos (w * h - pos)).map (getcol srcPix)
        = (List.range' pos rlen).map (getcol srcPix)
          ++ (List.range' (pos + rlen) (w * h - pos - rlen)).map (getcol srcPix) := by
      rw [← List.map_append]
      congr 1
      have hra := List.range'_append pos rlen (w * h - pos - rlen) 1
      simp only [one_mul] at hra
      rw [hra]
      congr 1
      omega
    have hrep : (List.range' pos rlen).map (getcol srcPix)
        = List.replicate rlen (getcol srcPix pos) := by
      apply map_range'_eq_replicate
      intro i hi
      exact find_rlen_all srcPix pos (w * h) (by omega) i hi
    rw [hsplit, hrep]
    congr 1
    have hpos2 : pos + rlen = y2 * w + x2 := by omega
    by_cases hend : pos + rlen = w * h
    · have hz : w * h - pos - rlen = 0 := by omega
      rw [hz]
      simp only [List.range'_zero, List.map_nil]
      apply asciiLoop_of_done
      intro hy2lt
      have h1 : y2 * w + x2 = w * h := by omega
      have h2 : y2 + 1 ≤ h := by omega
      have h3 : (y2 + 1) * w ≤ h * w := Nat.mul_le_mul_right w h2
      have h4 : (y2 + 1) * w = y2 * w + w := by ring
      have hcomm : w * h = h * w := Nat.mul_comm w h
      omega
    · have hcol2 : getcol srcPix (pos + rlen) ≠ getcol srcPix pos :=
        find_rlen_stop srcPix pos (w * h) (by omega) (by omega)
      have hagree2 : ∀ i, srcBit src2 (p + (k + 1 + blenFor v) + i)
          = (compressSpans srcPix (w * h) ef' (pos + rlen)).getD i false := by
        intro i
        have hag := hagree (k + 1 + blenFor v + i)
        rw [hdec, getD_append_ge _ _ _ (by omega)] at hag
        rw [show p + (k + 1 + blenFor v) + i = p + (k + 1 + blenFor v + i) by omega, hag]
        congr 1
        omega
      have hstate : p + k + 1 + blenFor v = p + (k + 1 + blenFor v) := by omega
      have hsub : w * h - pos - rlen = w * h - (pos + rlen) := by omega
      rw [hstate, hsub]
      apply ih (pos + rlen) (p + (k + 1 + blenFor v)) (1 - col) x2 y2 ef'
      · omega
      · exact hadv.1
      · omega
      · omega
      · omega
      · rw [hcol]
        cases hc : getcol srcPix pos
        · have hc3 : getcol srcPix (pos + rlen) = true := by
            cases hc2 : getcol srcPix (pos + rlen)
            · rw [hc2] at hcol2; rw [hc] at hcol2; simp at hcol2
            · rfl
          rw [hc3]; simp
        · have hc3 : getcol srcPix (pos + rlen) = false := by
            cases hc2 : getcol srcPix (pos + rlen)
            · rfl
            · rw [hc2] at hcol2; rw [hc] at hcol2; simp at hcol2
          rw [hc3]; simp
      · exact hagree2

/-- The byte source seen by a decoder reading the encoder's output. -/
def byteFun (bytes : List Nat) : Nat → Nat := fun i => bytes.getD i 0

theorem srcBit_byteFun (bytes : List Nat) (q : Nat) :
    srcBit (byteFun bytes) q = byteListBit bytes q := rfl

theorem compress_rle_srcBit (src : Nat → Nat) (w h : Nat) (q : Nat) :
    srcBit (byteFun (compress_rle src w h)) q
      = (putval (w - 1) 8 ++ putval (h - 1) 8 ++
         putval (if getcol src 0 then 1 else 0) 1 ++
         compressSpans src (w * h) (w * h) 0).getD q false := by
  rw [srcBit_byteFun]
  unfold compress_rle
  have := putbitsFlush_bit
    (putval (w - 1) 8 ++ putval (h - 1) 8 ++
     putval (if getcol src 0 then 1 else 0) 1 ++
     compressSpans src (w * h) (w * h) 0) 0 0 (by omega) (by norm_num) q
  rw [pow_zero] at this
  rw [this]
  simp


set_option maxHeartbeats 1000000 in
/-- Round trip of the full codec at machine level: decoding the bytes that
`compress_rle` produced recovers the header (width, height, colour of pixel
position 0) and the exact pixel sequence, in the encoder's pixel order
(bit `pos` of the packed display-order array). -/
theorem compress_rle_decode_ascii (src : Nat → Nat) (w h fuel : Nat)
    (hw1 : 1 ≤ w) (hw2 : w ≤ 256) (hh1 : 1 ≤ h) (hh2 : h ≤ 256)
    (hfuel : w * h ≤ fuel) :
    draw_compressed_sprite_ascii (byteFun (compress_rle src w h)) fuel
      = (w, h, (if getcol src 0 then 1 else 0),
         (List.range (w * h)).map (getcol src)) := by
  set src2 := byteFun (compress_rle src w h) with hsrc2
  set c0 : Nat := if getcol src 0 then 1 else 0 with hc0
  have hbits : ∀ q, srcBit src2 q
      = (putval (w - 1) 8 ++ putval (h - 1) 8 ++ putval c0 1 ++
         compressSpans src (w * h) (w * h) 0).getD q false :=
    fun q => compress_rle_srcBit src w h q
  have hlenA : (putval (w - 1) 8).length = 8 := putval_length _ _
  have hlenAB : (putval (w - 1) 8 ++ putval (h - 1) 8).length = 16 := by
    simp [putval_length]
  have hlenABC : (putval (w - 1) 8 ++ putval (h - 1) 8 ++ putval c0 1).length = 17 := by
    simp [putval_length]
  have hwbits : ∀ i, i < 8 → srcBit src2 (0 + i) = (w - 1).testBit i := by
    intro i hi
    rw [Nat.zero_add, hbits i]
    rw [getD_append_lt _ _ i (by omega)]
    rw [getD_append_lt _ _ i (by omega)]
    rw [getD_append_lt _ _ i (by omega)]
    exact putval_getD (w - 1) 8 i hi
  have hw8 : valAt (srcBit src2) 0 8 = w - 1 := by
    rw [valAt_eq_of_testBit (srcBit src2) (w - 1) 8 0 hwbits]
    apply Nat.mod_eq_of_lt
    calc w - 1 < 256 := by omega
      _ = 2 ^ 8 := by norm_num
  have hhbits : ∀ i, i < 8 → srcBit src2 (8 + i) = (h - 1).testBit i := by
    intro i hi
    rw [hbits (8 + i)]
    rw [getD_append_lt _ _ _ (by omega)]
    rw [getD_append_lt _ _ _ (by omega)]
    rw [getD_append_ge _ _ _ (by omega)]
    rw [hlenA]
    have he : 8 + i - 8 = i := by omega
    rw [he]
    exact putval_getD (h - 1) 8 i hi
  have hh8 : valAt (srcBit src2) 8 8 = h - 1 := by
    rw [valAt_eq_of_testBit (srcBit src2) (h - 1) 8 8 hhbits]
    apply Nat.mod_eq_of_lt
    calc h - 1 < 256 := by omega
      _ = 2 ^ 8 := by norm_num
  have hcbits : ∀ i, i < 1 → srcBit src2 (16 + i) = c0.testBit i := by
    intro i hi
    have hi0 : i = 0 := by omega
    subst hi0
    rw [hbits (16 + 0)]
    rw [getD_append_lt _ _ _ (by omega)]
    rw [getD_append_ge _ _ _ (by omega)]
    rw [hlenAB]
    have he : 16 + 0 - 16 = 0 := by omega
    rw [he]
    exact putval_getD c0 1 0 (by omega)
  have hc1 : valAt (srcBit src2) 16 1 = c0 := by
    rw [valAt_eq_of_testBit (srcBit src2) c0 1 16 hcbits]
    apply Nat.mod_eq_of_lt
    have : c0 ≤ 1 := by rw [hc0]; split <;> omega
    omega
  have hspagree : ∀ i, srcBit src2 (17 + i)
      = (compressSpans src (w * h) (w * h) 0).getD i false := by
    intro i
    rw [hbits (17 + i)]
    rw [getD_append_ge _ _ _ (by omega)]
    rw [hlenABC]
    congr 1
    omega
  have hcs0 : (⟨0, 256, 0⟩ : CS) = csAt src2 0 := by simp [csAt]
  unfold draw_compressed_sprite_ascii
  rw [hcs0]
  dsimp only
  rw [getvalC_at src2 8 0, hw8]
  dsimp only
  rw [show (0:Nat) + 8 = 8 from rfl, getvalC_at src2 8 8, hh8]
  dsimp only
  rw [show (8:Nat) + 8 = 16 from rfl, getvalC_at src2 1 16, hc1]
  dsimp only
  have hww : w - 1 + 1 = w := by omega
  have hhh : h - 1 + 1 = h := by omega
  rw [hww, hhh]
  have hmain := asciiLoop_decode src src2 w h hw1 fuel 0 17 c0 0 0 (w * h)
    (by omega) (by omega) (by
      have : 0 < w * h := Nat.mul_pos (by omega) (by omega)
      omega)
    (by omega) (by omega) rfl
    (by intro i; exact hspagree i)
  rw [show (16:Nat) + 1 = 17 from rfl]
  rw [hmain]
  have hr : List.range (w * h) = List.range' 0 (w * h) := List.range_eq_range' (w * h)
  rw [hr]
  simp

/-! ### The drawCompressed bit reader (Arduboy2.cpp `BitStreamReader`)

State: source position, the walking `bitBuffer` mask (8-bit, with 0 as the
reload sentinel) and the current byte.  `readBits` accumulates `bitCount`
bits into a `uint16_t` via `result |= (1 << i)`; on the 16-bit AVR `int`,
`1 << i` contributes nothing for `i >= 16`, modelled by `% 65536`. -/

theorem valAt_testBit (B : Nat → Bool) :
    ∀ n p j, (valAt B p n).testBit j = (decide (j < n) && B (p + j)) := by
  intro n
  induction n with
  | zero => intro p j; simp [valAt]
  | succ n ih =>
    intro p j
    cases j with
    | zero =>
      rw [valAt, Nat.testBit_zero]
      cases hb : B p <;> simp [hb]
    | succ j =>
      rw [valAt, Nat.testBit_succ]
      have hd : ((if B p then 1 else 0) + 2 * valAt B (p + 1) n) / 2 = valAt B (p + 1) n := by
        cases hb : B p <;> simp <;> omega
      rw [hd, ih (p + 1) j]
      have harith : p + 1 + j = p + (j + 1) := by omega
      rw [harith]
      by_cases hj : j < n
      · have hj2 : j + 1 < n + 1 := by omega
        simp [hj, hj2]
      · have hj2 : ¬ (j + 1 < n + 1) := by omega
        simp [hj, hj2]

/-! BitStreamReader of Arduboy2Base::drawCompressed -/

structure BSR where
  sourceIndex : Nat
  bitBuffer : Nat
  byteBuffer : Nat
deriving DecidableEq, Repr

def readBit (src : Nat → Nat) (s : BSR) : Nat × BSR :=
  let s2 := if s.bitBuffer = 0 then
    { sourceIndex := s.sourceIndex + 1, bitBuffer := 1, byteBuffer := src s.sourceIndex % 256 }
    else s
  let b := if s2.byteBuffer &&& s2.bitBuffer ≠ 0 then 1 else 0
  (b, { s2 with bitBuffer := (s2.bitBuffer <<< 1) % 256 })

def readBitsAux (src : Nat → Nat) : Nat → Nat → BSR → Nat × BSR
  | 0, _, s => (0, s)
  | n + 1, i, s =>
    let rb := readBit src s
    let rest := readBitsAux src n (i + 1) rb.2
    ((if rb.1 ≠ 0 then (1 <<< i) % 65536 else 0) ||| rest.1, rest.2)

def readBits (src : Nat → Nat) (s : BSR) (n : Nat) : Nat × BSR := readBitsAux src n 0 s

def bsrAt (src : Nat → Nat) (p : Nat) : BSR :=
  if p % 8 = 0 then ⟨p / 8, 0, if p = 0 then 0 else src (p / 8 - 1) % 256⟩
  else ⟨p / 8 + 1, 2 ^ (p % 8), src (p / 8) % 256⟩

theorem testBit_mod256 (x j : Nat) (h : j < 8) : (x % 256).testBit j = x.testBit j := by
  have h256 : (256:Nat) = 2 ^ 8 := by norm_num
  rw [h256, Nat.testBit_mod_two_pow]
  simp [h]

theorem readBit_at (src : Nat → Nat) (p : Nat) :
    readBit src (bsrAt src p) = ((if srcBit src p then 1 else 0), bsrAt src (p + 1)) := by
  have hsb : srcBit src p = (src (p / 8)).testBit (p % 8) := rfl
  by_cases h0 : p % 8 = 0
  · have e : bsrAt src p = ⟨p / 8, 0, if p = 0 then 0 else src (p / 8 - 1) % 256⟩ := by
      simp [bsrAt, h0]
    have hcs : bsrAt src (p + 1) = ⟨p / 8 + 1, 2, src (p / 8) % 256⟩ := by
      have h1 : (p + 1) % 8 = 1 := by omega
      have h2 : (p + 1) / 8 = p / 8 := by omega
      simp [bsrAt, h1, h2]
    have hv : (src (p / 8) % 256 &&& 1 ≠ 0) ↔ ((src (p / 8)).testBit 0) := by
      have h1 := and_two_pow_ne_zero (src (p / 8) % 256) 0
      rw [testBit_mod256 _ 0 (by omega)] at h1
      simpa using h1
    rw [e, hcs, hsb, h0]
    cases htb : (src (p / 8)).testBit 0 with
    | false =>
      have hz : ¬ (src (p / 8) % 256 &&& 1 ≠ 0) := fun hc => by simp [hv.1 hc] at htb
      rw [Nat.testBit_zero] at htb
      simp only [decide_eq_false_iff_not] at htb
      simp [readBit, hz]
      omega
    | true =>
      have hz : src (p / 8) % 256 &&& 1 ≠ 0 := by
        intro hcontra
        have := (not_iff_not.2 hv).1 (by simpa using hcontra)
        simp [htb] at this
      rw [Nat.testBit_zero] at htb
      simp only [decide_eq_true_eq] at htb
      simp [readBit, hz]
      omega
  · have hr : p % 8 ≥ 1 ∧ p % 8 ≤ 7 := by omega
    have e : bsrAt src p = ⟨p / 8 + 1, 2 ^ (p % 8), src (p / 8) % 256⟩ := by
      simp [bsrAt, h0]
    have hne : (2:Nat) ^ (p % 8) ≠ 0 := by positivity
    have hv : (src (p / 8) % 256 &&& 2 ^ (p % 8) ≠ 0) ↔ ((src (p / 8)).testBit (p % 8)) := by
      have h1 := and_two_pow_ne_zero (src (p / 8) % 256) (p % 8)
      rw [testBit_mod256 _ _ (by omega)] at h1
      exact h1
    by_cases h7 : p % 8 = 7
    · have hcs : bsrAt src (p + 1) = ⟨p / 8 + 1, 0, src (p / 8) % 256⟩ := by
        have h1 : (p + 1) % 8 = 0 := by omega
        have h2 : (p + 1) / 8 = p / 8 + 1 := by omega
        have h3 : ¬ (p + 1 = 0) := by omega
        simp [bsrAt, h1, h2, h3]
      have hsh : ((2:Nat) ^ (p % 8) <<< 1) % 256 = 0 := by rw [h7]; decide
      rw [e, hcs, hsb]
      cases htb : (src (p / 8)).testBit (p % 8) with
      | false =>
        have hz : ¬ (src (p / 8) % 256 &&& 2 ^ (p % 8) ≠ 0) := fun hc => by simp [hv.1 hc] at htb
        simp [readBit, hne, hz, hsh]
      | true =>
        have hz : src (p / 8) % 256 &&& 2 ^ (p % 8) ≠ 0 := by
          intro hcontra
          have := (not_iff_not.2 hv).1 (by simpa using hcontra)
          simp [htb] at this
        simp [readBit, hne, hz, hsh]
    · have hcs : bsrAt src (p + 1) = ⟨p / 8 + 1, 2 ^ (p % 8 + 1), src (p / 8) % 256⟩ := by
        have h1 : (p + 1) % 8 = p % 8 + 1 := by omega
        have h2 : (p + 1) / 8 = p / 8 := by omega
        have h3 : ¬ ((p + 1) % 8 = 0) := by omega
        simp [bsrAt, h3, h1, h2]
      have hsh : ((2:Nat) ^ (p % 8) <<< 1) % 256 = 2 ^ (p % 8 + 1) := by
        rw [Nat.shiftLeft_eq]
        have he : (2:Nat) ^ (p % 8) * 2 = 2 ^ (p % 8 + 1) := by ring
        rw [he]
        apply Nat.mod_eq_of_lt
        calc (2:Nat) ^ (p % 8 + 1) ≤ 2 ^ 7 := Nat.pow_le_pow_right (by omega) (by omega)
          _ < 256 := by norm_num
      rw [e, hcs, hsb]
      cases htb : (src (p / 8)).testBit (p % 8) with
      | false =>
        have hz : ¬ (src (p / 8) % 256 &&& 2 ^ (p % 8) ≠ 0) := fun hc => by simp [hv.1 hc] at htb
        simp [readBit, hne, hz, hsh]
      | true =>
        have hz : src (p / 8) % 256 &&& 2 ^ (p % 8) ≠ 0 := by
          intro hcontra
          have := (not_iff_not.2 hv).1 (by simpa using hcontra)
          simp [htb] at this
        simp [readBit, hne, hz, hsh]

theorem pow_mod_65536_eq_zero (i : Nat) (h : 16 ≤ i) : (2:Nat) ^ i % 65536 = 0 := by
  have hd : (65536:Nat) = 2 ^ 16 := by norm_num
  have hsplit : (2:Nat) ^ i = 2 ^ 16 * 2 ^ (i - 16) := by
    rw [← pow_add]
    congr 1
    omega
  rw [hd, hsplit, Nat.mul_mod_right]

theorem readBitsAux_state (src : Nat → Nat) : ∀ n i p,
    (readBitsAux src n i (bsrAt src p)).2 = bsrAt src (p + n) := by
  intro n
  induction n with
  | zero => intro i p; rfl
  | succ n ih =>
    intro i p
    rw [readBitsAux, readBit_at]
    simp only
    rw [ih (i + 1) (p + 1)]
    congr 1
    omega

theorem readBitsAux_testBit (src : Nat → Nat) : ∀ n i p j,
    (readBitsAux src n i (bsrAt src p)).1.testBit j
      = (decide (i ≤ j) && decide (j - i < n) && decide (j < 16) && srcBit src (p + (j - i))) := by
  intro n
  induction n with
  | zero =>
    intro i p j
    simp [readBitsAux]
  | succ n ih =>
    intro i p j
    rw [readBitsAux, readBit_at]
    simp only
    rw [Nat.testBit_lor]
    rw [ih (i + 1) (p + 1) j]
    have hAf : j ≠ i →
        ((if (if srcBit src p then 1 else 0) ≠ 0 then (1 <<< i) % 65536 else 0) : Nat).testBit j
          = false := by
      intro hne
      cases hb : srcBit src p
      · simp
      · simp only [hb, if_pos, ne_eq, one_ne_zero, not_false_eq_true, if_true]
        by_cases hi16 : i < 16
        · rw [Nat.shiftLeft_eq, one_mul, Nat.mod_eq_of_lt (by
            calc (2:Nat) ^ i < 2 ^ 16 := Nat.pow_lt_pow_right (by omega) (by omega)
              _ = 65536 := by norm_num)]
          exact Nat.testBit_two_pow_of_ne (fun hh => hne hh.symm)
        · rw [Nat.shiftLeft_eq, one_mul, pow_mod_65536_eq_zero i (by omega)]
          simp
    by_cases hij : j = i
    · subst hij
      have hrest : (decide (j + 1 ≤ j) && decide (j - (j + 1) < n) && decide (j < 16)
          && srcBit src (p + 1 + (j - (j + 1)))) = false := by
        have : ¬ (j + 1 ≤ j) := by omega
        simp [this]
      rw [hrest, Bool.or_false]
      by_cases hj16 : j < 16
      · have hA : ((if (if srcBit src p then 1 else 0) ≠ 0 then (1 <<< j) % 65536 else 0) : Nat).testBit j
            = srcBit src p := by
          cases hb : srcBit src p
          · simp
          · simp only [hb, if_pos, ne_eq, one_ne_zero, not_false_eq_true, if_true]
            rw [Nat.shiftLeft_eq, one_mul, Nat.mod_eq_of_lt (by
              calc (2:Nat) ^ j < 2 ^ 16 := Nat.pow_lt_pow_right (by omega) (by omega)
                _ = 65536 := by norm_num)]
            simp [Nat.testBit_two_pow_self]
        rw [hA]
        have h1 : j ≤ j := le_refl j
        have h2 : j - j = 0 := by omega
        simp [h1, h2, hj16]
      · have hj16' : 16 ≤ j := by omega
        have hA : ((if (if srcBit src p then 1 else 0) ≠ 0 then (1 <<< j) % 65536 else 0) : Nat).testBit j
            = false := by
          cases hb : srcBit src p
          · simp
          · simp only [hb, if_pos, ne_eq, one_ne_zero, not_false_eq_true, if_true]
            rw [Nat.shiftLeft_eq, one_mul, pow_mod_65536_eq_zero j hj16']
            simp
        rw [hA]
        simp [hj16]
    · rw [hAf hij, Bool.false_or]
      by_cases hlt : j < i
      · have h1 : ¬ (i + 1 ≤ j) := by omega
        have h2 : ¬ (i ≤ j) := by omega
        simp [h1, h2]
      · have hgt : i < j := by omega
        have h1 : i + 1 ≤ j := by omega
        have h2 : i ≤ j := by omega
        have h3 : (j - (i + 1) < n) ↔ (j - i < n + 1) := by omega
        have h4 : p + 1 + (j - (i + 1)) = p + (j - i) := by omega
        rw [h4]
        simp [h1, h2, h3]

theorem readBits_at (src : Nat → Nat) (p n : Nat) :
    readBits src (bsrAt src p) n = (valAt (srcBit src) p n % 65536, bsrAt src (p + n)) := by
  unfold readBits
  have hst := readBitsAux_state src n 0 p
  have hval : (readBitsAux src n 0 (bsrAt src p)).1 = valAt (srcBit src) p n % 65536 := by
    apply Nat.eq_of_testBit_eq
    intro j
    rw [readBitsAux_testBit src n 0 p j]
    have h65536 : (65536:Nat) = 2 ^ 16 := by norm_num
    rw [h65536, Nat.testBit_mod_two_pow, valAt_testBit]
    have hz : (0 ≤ j) := by omega
    have hji : j - 0 = j := by omega
    simp only [hji, hz, decide_eq_true_eq]
    by_cases ha : j < n <;> by_cases hb : j < 16 <;> simp [ha, hb]
  rw [Prod.ext_iff]
  exact ⟨hval, hst⟩

/-- Generic form of the packing round trip: stream bit `q` of the bytes the
`putbit` machine emitted equals listed bit `q` (with `false` padding). -/
theorem putbitsFlush_srcBit (L : List Bool) (q : Nat) :
    srcBit (byteFun (putbitsFlush 0 1 L)) q = L.getD q false := by
  rw [srcBit_byteFun]
  have h := putbitsFlush_bit L 0 0 (by omega) (by norm_num) q
  rw [pow_zero] at h
  rw [h]
  simp

/-- The `uint16_t bitLength = 1; while (cs.readBits(1) == 0) bitLength += 2;`
loop of `Arduboy2Base::drawCompressed`.  The C loop is bounded by the first
one bit of the stream; `fuel` is an explicit bound on the zero bits read. -/
def dcBitLengthLoop (src : Nat → Nat) : Nat → BSR → Nat → Nat × BSR
  | 0, rdr, bl => (bl, rdr)
  | fuel + 1, rdr, bl =>
    let rb := readBits src rdr 1
    if rb.1 = 0 then dcBitLengthLoop src fuel rb.2 (bl + 2) else (bl, rb.2)

/-- One span length read of `drawCompressed`:
`uint16_t len = cs.readBits(bitLength) + 1;` (note the 16-bit truncation). -/
def readSpanLength (src : Nat → Nat) (fuel : Nat) (rdr : BSR) : Nat × BSR :=
  let blr := dcBitLengthLoop src fuel rdr 1
  let vr := readBits src blr.2 blr.1
  ((vr.1 + 1) % 65536, vr.2)

/-- The bytes cabi's `putsplen(L - 1)` leaves in the stream for a span of
length `L` (packed and zero padded on its own, for stating the framing
round trip). -/
def writeSpanLength (L : Nat) : List Nat := putbitsFlush 0 1 (putsplen (L - 1))

theorem readBits_one_at (src : Nat → Nat) (p : Nat) :
    readBits src (bsrAt src p) 1 = ((if srcBit src p then 1 else 0), bsrAt src (p + 1)) := by
  rw [readBits_at]
  congr 1
  cases h : srcBit src p <;> simp [valAt, h]

theorem dcBitLengthLoop_at (src : Nat → Nat) : ∀ k fuel p bl,
    k < fuel →
    (∀ i, i < k → srcBit src (p + i) = false) →
    srcBit src (p + k) = true →
    dcBitLengthLoop src fuel (bsrAt src p) bl = (bl + 2 * k, bsrAt src (p + k + 1)) := by
  intro k
  induction k with
  | zero =>
    intro fuel p bl hf _ hone
    match fuel, hf with
    | fuel + 1, _ =>
      rw [dcBitLengthLoop, readBits_one_at]
      simp only
      have h1 : srcBit src p = true := by simpa using hone
      simp [h1]
  | succ k ih =>
    intro fuel p bl hf hz hone
    match fuel, hf with
    | fuel + 1, hf =>
      rw [dcBitLengthLoop, readBits_one_at]
      simp only
      have h0 : srcBit src p = false := by simpa using hz 0 (by omega)
      rw [h0]
      simp only [if_pos rfl, Bool.false_eq_true, if_false]
      have hz2 : ∀ i, i < k → srcBit src (p + 1 + i) = false := by
        intro i hi
        have := hz (i + 1) (by omega)
        convert this using 2
        omega
      have hone2 : srcBit src (p + 1 + k) = true := by
        convert hone using 2
        omega
      rw [ih fuel (p + 1) (bl + 2) (by omega) hz2 hone2]
      have e1 : bl + 2 + 2 * k = bl + 2 * (k + 1) := by omega
      have e2 : p + 1 + k + 1 = p + (k + 1) + 1 := by omega
      simp only [if_pos trivial, e1, e2]

/-- Reading back a span length written by `putsplen`, through the real
`drawCompressed` reader: correct for every length up to `2^16 - 1` (the
length is stored in a `uint16_t`, so `2^16` itself wraps to `0`). -/
theorem readSpanLength_writeSpanLength (L fuel : Nat)
    (h1 : 1 ≤ L) (h2 : L ≤ 65535) (hf : 9 ≤ fuel) :
    (readSpanLength (byteFun (writeSpanLength L)) fuel ⟨0, 0, 0⟩).1 = L := by
  set v := L - 1 with hv
  set src2 := byteFun (writeSpanLength L) with hsrc2
  have hbits : ∀ q, srcBit src2 q = (putsplen v).getD q false := by
    intro q
    rw [hsrc2]
    unfold writeSpanLength
    rw [← hv]
    exact putbitsFlush_srcBit (putsplen v) q
  have hvlt : v < 2 ^ blenFor v := blenFor_gt v
  have hble : blenFor v ≤ 17 := by
    have hb18 : blenFor v ≤ 18 := blenFor_le_of_lt v 16 (by norm_num; omega)
    have hbodd := blenFor_odd v
    omega
  set k := (blenFor v - 1) / 2 with hk
  have hk8 : k ≤ 8 := by omega
  have hzeros : ∀ i, i < k → srcBit src2 (0 + i) = false := by
    intro i hi
    rw [Nat.zero_add, hbits i]
    exact putsplen_getD_prefix v i hi
  have hone : srcBit src2 (0 + k) = true := by
    rw [Nat.zero_add, hbits k]
    exact putsplen_getD_one v
  have hfresh : (⟨0, 0, 0⟩ : BSR) = bsrAt src2 0 := by simp [bsrAt]
  unfold readSpanLength
  rw [hfresh, dcBitLengthLoop_at src2 k fuel 0 1 (by omega) hzeros hone]
  dsimp only
  have hbl : 1 + 2 * k = blenFor v := by
    have := blenFor_odd v
    omega
  rw [Nat.zero_add, hbl, readBits_at]
  dsimp only
  have hvala : valAt (srcBit src2) (k + 1) (blenFor v) = v := by
    rw [valAt_eq_of_testBit (srcBit src2) v (blenFor v) (k + 1) (by
      intro i hi
      rw [hbits (k + 1 + i)]
      exact putsplen_getD_val v i hi)]
    exact Nat.mod_eq_of_lt hvlt
  rw [hvala]
  have hvm : v % 65536 = v := Nat.mod_eq_of_lt (by omega)
  rw [hvm]
  have : (v + 1) % 65536 = v + 1 := Nat.mod_eq_of_lt (by omega)
  rw [this]
  omega

/-! ### Arduboy2Base::drawCompressed (Arduboy2.cpp lines 901-995)

The display is 128x64: `WIDTH = 128`, `HEIGHT = 64`, 8 pages,
`sBuffer` is `WIDTH * HEIGHT / 8 = 1024` bytes.  The decoder state below
carries the running `(columnOffset, rowOffset)` cursor, the byte
accumulator and its walking bit, the framebuffer contents, plus two
observation logs: the `Int` index of every `sBuffer` write performed
(`writes`), and the `spanColour` used for each processed span
(`spanLog`) — ghost fields that record behaviour without altering it. -/

/-- Sub-page alignment derivation of `drawCompressed`: `yOffset = abs(sy)%8`,
`startRow = sy/8`, and when `sy < 0` (regardless of `yOffset`):
`startRow--; yOffset = 8 - yOffset`.  All in 16-bit `int`. -/
def dcAlign (sy : Int) : Int × Int :=
  let yOffset : Int := (sy.natAbs % 8 : Nat)
  let startRow := tdiv8 sy
  if sy < 0 then (startRow - 1, 8 - yOffset) else (startRow, yOffset)

/-- Off-screen rejection test of `drawCompressed` (sums computed in 16-bit
`int`, hence the `i16` wraps). -/
def dcReject (sx sy wdt hgt : Int) : Bool :=
  decide (i16 (sx + wdt) ≤ 0 ∨ sx > 127 ∨ i16 (sy + hgt) ≤ 0 ∨ sy > 63)

structure DCState where
  columnOffset : Int
  rowOffset : Int
  byte : Nat
  bit : Nat
  buf : Nat → Nat
  writes : List Int
  spanLog : List Nat

/-- A single `sBuffer[index] = v` store, with its index logged. -/
def dcWrite (st : DCState) (index : Int) (v : Nat) : DCState :=
  { st with buf := fun j => if j = index.toNat then v else st.buf j,
            writes := st.writes ++ [index] }

/-- The colour-dependent combine of `drawCompressed`:
`sBuffer[index] |= value` when `color != 0`, else `sBuffer[index] &= ~value`. -/
def dcStore (color : Nat) (st : DCState) (index : Int) (value : Nat) : DCState :=
  if color ≠ 0 then dcWrite st index ((st.buf index.toNat % 256) ||| value)
  else dcWrite st index ((st.buf index.toNat % 256) &&& (255 ^^^ value))

/-- The guarded byte flush of `drawCompressed` (the body of
`if (bit == 0)` up to and including the two page writes). -/
def dcDraw (sx startRow yOffset : Int) (color : Nat) (st : DCState) : DCState :=
  let bRow := startRow + st.rowOffset
  if bRow ≤ 7 ∧ bRow > -2 ∧ i16 (st.columnOffset + sx) ≤ 127 ∧ 0 ≤ i16 (st.columnOffset + sx) then
    let offset := i16 (bRow * 128 + sx + st.columnOffset)
    let st1 :=
      if 0 ≤ bRow then dcStore color st offset (((st.byte % 256) <<< yOffset.toNat) % 256)
      else st
    if yOffset ≠ 0 ∧ bRow < 7 then
      dcStore color st1 (i16 (offset + 128)) ((st1.byte % 256) >>> (8 - yOffset).toNat)
    else st1
  else st

/-- One decoded pixel: set the accumulator bit for an "on" span, advance the
walking bit, and on byte completion flush and advance the cursor. -/
def dcPixel (sx startRow yOffset : Int) (color : Nat) (width : Int) (spanColour : Nat)
    (st : DCState) : DCState :=
  let st := { st with byte := if spanColour ≠ 0 then st.byte ||| st.bit else st.byte }
  let st := { st with bit := (st.bit <<< 1) % 256 }
  if st.bit = 0 then
    let st := dcDraw sx startRow yOffset color st
    let st := { st with columnOffset := st.columnOffset + 1 }
    let st := if st.columnOffset ≥ width then
        { st with columnOffset := 0, rowOffset := st.rowOffset + 1 }
      else st
    { st with byte := 0, bit := 1 }
  else st

/-- The `for (i = 0; i < len; ++i)` span body. -/
def dcSpan (sx startRow yOffset : Int) (color : Nat) (width : Int) (spanColour : Nat) :
    Nat → DCState → DCState
  | 0, st => st
  | n + 1, st =>
    dcSpan sx startRow yOffset color width spanColour n
      (dcPixel sx startRow yOffset color width spanColour st)

/-- The `while (rowOffset < rows)` span loop, one unit of fuel per span
(the logged `spanColour` is appended before the span is drawn). -/
def dcLoop (src : Nat → Nat) (sx startRow yOffset : Int) (color : Nat) (width rows : Int) :
    Nat → BSR → Nat → DCState → DCState
  | 0, _, _, st => st
  | fuel + 1, rdr, spanColour, st =>
    if st.rowOffset < rows then
      let sl := readSpanLength src (fuel + 1) rdr
      let st1 := dcSpan sx startRow yOffset color width spanColour sl.1
        { st with spanLog := st.spanLog ++ [spanColour] }
      dcLoop src sx startRow yOffset color width rows fuel sl.2 (spanColour ^^^ 1) st1
    else st

/-- `Arduboy2Base::drawCompressed(sx, sy, bitmap, color)`, parameterised by
loop fuel (the C loop is bounded only by stream content). -/
def drawCompressed (sx0 sy0 : Int) (src : Nat → Nat) (color : Nat) (fuel : Nat)
    (buf : Nat → Nat) : DCState :=
  let sx := i16 sx0
  let sy := i16 sy0
  let rdr0 : BSR := ⟨0, 0, 0⟩
  let gw := readBits src rdr0 8
  let gh := readBits src gw.2 8
  let gc := readBits src gh.2 1
  let width : Int := gw.1 + 1
  let height : Int := gh.1 + 1
  let st0 : DCState := ⟨0, 0, 0, 1, buf, [], []⟩
  if dcReject sx sy width height then st0
  else
    let al := dcAlign sy
    let rows : Int := height / 8 + (if height % 8 ≠ 0 then 1 else 0)
    dcLoop src sx al.1 al.2 color width rows fuel gc.2 (gc.1 % 256) st0

theorem dcStore_writes (color : Nat) (st : DCState) (index : Int) (value : Nat) :
    (dcStore color st index value).writes = st.writes ++ [index] := by
  unfold dcStore dcWrite; split <;> rfl

theorem dcStore_columnOffset (color : Nat) (st : DCState) (index : Int) (value : Nat) :
    (dcStore color st index value).columnOffset = st.columnOffset := by
  unfold dcStore dcWrite; split <;> rfl

theorem dcStore_rowOffset (color : Nat) (st : DCState) (index : Int) (value : Nat) :
    (dcStore color st index value).rowOffset = st.rowOffset := by
  unfold dcStore dcWrite; split <;> rfl

theorem dcStore_byte (color : Nat) (st : DCState) (index : Int) (value : Nat) :
    (dcStore color st index value).byte = st.byte := by
  unfold dcStore dcWrite; split <;> rfl

theorem dcStore_bit (color : Nat) (st : DCState) (index : Int) (value : Nat) :
    (dcStore color st index value).bit = st.bit := by
  unfold dcStore dcWrite; split <;> rfl

theorem dcStore_spanLog (color : Nat) (st : DCState) (index : Int) (value : Nat) :
    (dcStore color st index value).spanLog = st.spanLog := by
  unfold dcStore dcWrite; split <;> rfl

/-- Every `sBuffer` index written by the byte flush is in `[0, 1024)`: the
bounds follow from the flush's own guard by 16-bit modular arithmetic, with
no assumption at all on the cursor or the draw position. -/
theorem dcDraw_writes_bound (sx startRow yOffset : Int) (color : Nat) (st : DCState) :
    ∀ e ∈ (dcDraw sx startRow yOffset color st).writes, e ∈ st.writes ∨ (0 ≤ e ∧ e < 1024) := by
  intro e he
  simp only [dcDraw] at he
  by_cases hg : (startRow + st.rowOffset ≤ 7 ∧ startRow + st.rowOffset > -2 ∧
      i16 (st.columnOffset + sx) ≤ 127 ∧ 0 ≤ i16 (st.columnOffset + sx))
  · rw [if_pos hg] at he
    obtain ⟨h7, hm2, hle, hge⟩ := hg
    have htb : -32768 ≤ i16 (st.columnOffset + sx) ∧ i16 (st.columnOffset + sx) < 32768 :=
      i16_bounds _
    have hcong : i16 ((startRow + st.rowOffset) * 128 + sx + st.columnOffset)
        = (startRow + st.rowOffset) * 128 + i16 (st.columnOffset + sx) := by
      rw [i16_congr ((startRow + st.rowOffset) * 128 + sx + st.columnOffset)
            ((startRow + st.rowOffset) * 128 + i16 (st.columnOffset + sx))
            (by unfold i16; omega)]
      exact i16_of_bounds _ (by nlinarith) (by nlinarith)
    have hcong2 : i16 (i16 ((startRow + st.rowOffset) * 128 + sx + st.columnOffset) + 128)
        = (startRow + st.rowOffset) * 128 + i16 (st.columnOffset + sx) + 128 := by
      rw [hcong]
      exact i16_of_bounds _ (by nlinarith) (by nlinarith)
    by_cases h0 : 0 ≤ startRow + st.rowOffset
    · rw [if_pos h0] at he
      by_cases hy : yOffset ≠ 0 ∧ startRow + st.rowOffset < 7
      · rw [if_pos hy] at he
        simp only [dcStore_writes, List.mem_append, List.mem_singleton] at he
        rcases he with (he | he) | he
        · exact Or.inl he
        · exact Or.inr (by subst he; rw [hcong]; constructor <;> nlinarith)
        · exact Or.inr (by subst he; rw [hcong2]; constructor <;> nlinarith)
      · rw [if_neg hy] at he
        simp only [dcStore_writes, List.mem_append, List.mem_singleton] at he
        rcases he with he | he
        · exact Or.inl he
        · exact Or.inr (by subst he; rw [hcong]; constructor <;> nlinarith)
    · rw [if_neg h0] at he
      by_cases hy : yOffset ≠ 0 ∧ startRow + st.rowOffset < 7
      · rw [if_pos hy] at he
        simp only [dcStore_writes, List.mem_append, List.mem_singleton] at he
        rcases he with he | he
        · exact Or.inl he
        · exact Or.inr (by subst he; rw [hcong2]; constructor <;> nlinarith)
      · rw [if_neg hy] at he
        exact Or.inl he
  · rw [if_neg hg] at he
    exact Or.inl he

/-- The byte flush only writes: cursor, accumulator and span log are untouched. -/
theorem dcDraw_cursor (sx startRow yOffset : Int) (color : Nat) (st : DCState) :
    (dcDraw sx startRow yOffset color st).columnOffset = st.columnOffset ∧
    (dcDraw sx startRow yOffset color st).rowOffset = st.rowOffset ∧
    (dcDraw sx startRow yOffset color st).byte = st.byte ∧
    (dcDraw sx startRow yOffset color st).bit = st.bit ∧
    (dcDraw sx startRow yOffset color st).spanLog = st.spanLog := by
  simp only [dcDraw]
  split
  · split <;> split <;>
      simp [dcStore_columnOffset, dcStore_rowOffset, dcStore_byte, dcStore_bit, dcStore_spanLog]
  · exact ⟨rfl, rfl, rfl, rfl, rfl⟩

/-- Every index written by one decoded pixel is in `[0, 1024)` or was
already logged. -/
theorem dcPixel_writes_bound (sx startRow yOffset : Int) (color : Nat) (width : Int)
    (spanColour : Nat) (st : DCState) :
    ∀ e ∈ (dcPixel sx startRow yOffset color width spanColour st).writes,
      e ∈ st.writes ∨ (0 ≤ e ∧ e < 1024) := by
  intro e he
  simp only [dcPixel] at he
  split at he
  · dsimp only at he
    rw [apply_ite DCState.writes, ite_self] at he
    dsimp only at he
    have h2 := dcDraw_writes_bound sx startRow yOffset color _ e he
    exact h2
  · exact Or.inl he

/-- Write bound for a whole span. -/
theorem dcSpan_writes_bound (sx startRow yOffset : Int) (color : Nat) (width : Int)
    (spanColour : Nat) :
    ∀ n st, ∀ e ∈ (dcSpan sx startRow yOffset color width spanColour n st).writes,
      e ∈ st.writes ∨ (0 ≤ e ∧ e < 1024)
  | 0, st => fun e he => Or.inl he
  | n + 1, st => by
    intro e he
    rw [dcSpan] at he
    rcases dcSpan_writes_bound sx startRow yOffset color width spanColour n _ e he with h | h
    · exact dcPixel_writes_bound sx startRow yOffset color width spanColour st e h
    · exact Or.inr h

/-- Write bound for the whole span loop. -/
theorem dcLoop_writes_bound (src : Nat → Nat) (sx startRow yOffset : Int) (color : Nat)
    (width rows : Int) :
    ∀ fuel rdr spanColour st,
      ∀ e ∈ (dcLoop src sx startRow yOffset color width rows fuel rdr spanColour st).writes,
        e ∈ st.writes ∨ (0 ≤ e ∧ e < 1024)
  | 0, _, _, st => fun e he => Or.inl he
  | fuel + 1, rdr, spanColour, st => by
    intro e he
    rw [dcLoop] at he
    split at he
    · rcases dcLoop_writes_bound src sx startRow yOffset color width rows fuel _ _ _ e he
        with h | h
      · rcases dcSpan_writes_bound sx startRow yOffset color width spanColour _ _ e h
          with h2 | h2
        · exact Or.inl h2
        · exact Or.inr h2
      · exact Or.inr h
    · exact Or.inl he

/-- `drawCompressed` never writes outside the 1024-byte `sBuffer`, for every
position (including wholly off-screen ones), source stream, colour and fuel. -/
theorem drawCompressed_writes_inbounds (sx0 sy0 : Int) (src : Nat → Nat) (color : Nat)
    (fuel : Nat) (buf : Nat → Nat) :
    ∀ e ∈ (drawCompressed sx0 sy0 src color fuel buf).writes, 0 ≤ e ∧ e < 1024 := by
  intro e he
  simp only [drawCompressed] at he
  split at he
  · simp at he
  · rcases dcLoop_writes_bound src (i16 sx0) _ _ color _ _ fuel _ _ _ e he with h | h
    · simp at h
    · exact h

/-- The decode cursor: column, page-row, byte accumulator and walking bit. -/
def dcCursor (st : DCState) : Int × Int × Nat × Nat :=
  (st.columnOffset, st.rowOffset, st.byte, st.bit)

/-- Pure cursor step: how one decoded pixel advances the cursor, as a function
of the sprite width and span colour alone — no dependence on the draw
position, the colour argument or the framebuffer. -/
def dcStep (width : Int) (spanColour : Nat) : Int × Int × Nat × Nat → Int × Int × Nat × Nat
  | (co, ro, bt, bi) =>
    let b2 := if spanColour ≠ 0 then bt ||| bi else bt
    let t := bi <<< 1 % 256
    if t = 0 then
      if co + 1 ≥ width then (0, ro + 1, 0, 1) else (co + 1, ro, 0, 1)
    else (co, ro, b2, t)

/-- One decoded pixel advances the cursor by exactly the pure step: clipping
(and everything else about the destination) cannot affect it. -/
theorem dcPixel_cursor (sx startRow yOffset : Int) (color : Nat) (width : Int)
    (spanColour : Nat) (st : DCState) :
    dcCursor (dcPixel sx startRow yOffset color width spanColour st)
      = dcStep width spanColour (dcCursor st) := by
  obtain ⟨e1, e2, e3, e4, e5⟩ := dcDraw_cursor sx startRow yOffset color
    { st with byte := if spanColour ≠ 0 then st.byte ||| st.bit else st.byte,
              bit := st.bit <<< 1 % 256 }
  simp only [dcPixel, dcStep, dcCursor]
  by_cases ht : st.bit <<< 1 % 256 = 0
  · rw [if_pos ht, if_pos ht]
    dsimp only
    rw [e1, e2]
    by_cases hw : st.columnOffset + 1 ≥ width
    · rw [if_pos hw, if_pos hw]
    · rw [if_neg hw, if_neg hw]
  · rw [if_neg ht, if_neg ht]

theorem dcPixel_spanLog (sx startRow yOffset : Int) (color : Nat) (width : Int)
    (spanColour : Nat) (st : DCState) :
    (dcPixel sx startRow yOffset color width spanColour st).spanLog = st.spanLog := by
  simp only [dcPixel]
  split
  · dsimp only
    rw [apply_ite DCState.spanLog, ite_self]
    dsimp only
    exact (dcDraw_cursor sx startRow yOffset color _).2.2.2.2
  · rfl

/-- Iterated pure cursor step. -/
def dcStepN (width : Int) (spanColour : Nat) : Nat → Int × Int × Nat × Nat → Int × Int × Nat × Nat
  | 0, cur => cur
  | n + 1, cur => dcStepN width spanColour n (dcStep width spanColour cur)

/-- A whole decoded span advances the cursor by the iterated pure step,
independently of position, colour and framebuffer: off-screen pixels are
still counted. -/
theorem dcSpan_cursor (sx startRow yOffset : Int) (color : Nat) (width : Int)
    (spanColour : Nat) :
    ∀ n st, dcCursor (dcSpan sx startRow yOffset color width spanColour n st)
      = dcStepN width spanColour n (dcCursor st)
  | 0, st => rfl
  | n + 1, st => by
    rw [dcSpan, dcStepN, dcSpan_cursor sx startRow yOffset color width spanColour n,
      dcPixel_cursor]

theorem dcSpan_spanLog (sx startRow yOffset : Int) (color : Nat) (width : Int)
    (spanColour : Nat) :
    ∀ n st, (dcSpan sx startRow yOffset color width spanColour n st).spanLog = st.spanLog
  | 0, _ => rfl
  | n + 1, st => by
    rw [dcSpan, dcSpan_spanLog sx startRow yOffset color width spanColour n, dcPixel_spanLog]

/-- The span loop logs strictly alternating span colours: the i-th processed
span uses colour `(c0 + i) % 2`, regardless of clipping (which the log cannot
even observe). -/
theorem dcLoop_spanLog (src : Nat → Nat) (sx startRow yOffset : Int) (color : Nat)
    (width rows : Int) :
    ∀ fuel rdr spanColour st, spanColour < 2 →
      ∃ k, (dcLoop src sx startRow yOffset color width rows fuel rdr spanColour st).spanLog
        = st.spanLog ++ (List.range k).map (fun i => (spanColour + i) % 2)
  | 0, _, spanColour, st => fun _ => ⟨0, by simp [dcLoop]⟩
  | fuel + 1, rdr, spanColour, st => by
    intro hsc
    rw [dcLoop]
    dsimp only
    split
    · have hsc' : spanColour ^^^ 1 < 2 := by
        have h01 : spanColour = 0 ∨ spanColour = 1 := by omega
        rcases h01 with h | h <;> subst h <;> decide
      obtain ⟨k', hk'⟩ := dcLoop_spanLog src sx startRow yOffset color width rows fuel
        (readSpanLength src (fuel + 1) rdr).2 (spanColour ^^^ 1)
        (dcSpan sx startRow yOffset color width spanColour (readSpanLength src (fuel + 1) rdr).1
          { st with spanLog := st.spanLog ++ [spanColour] }) hsc'
      refine ⟨k' + 1, ?_⟩
      rw [hk', dcSpan_spanLog]
      dsimp only
      rw [List.range_succ_eq_map, List.map_cons, List.map_map]
      have hf0 : (spanColour + 0) % 2 = spanColour := by omega
      have hfs : ((fun i => (spanColour + i) % 2) ∘ Nat.succ)
          = fun i => (spanColour ^^^ 1 + i) % 2 := by
        funext i
        simp only [Function.comp_apply]
        have h01 : spanColour = 0 ∨ spanColour = 1 := by omega
        rcases h01 with h | h <;> subst h <;> simp <;> omega
      rw [hf0, hfs, List.append_assoc]
      simp
      intro a _
      have h01 : spanColour = 0 ∨ spanColour = 1 := by omega
      rcases h01 with h | h <;> subst h <;> simp <;> omega
    · exact ⟨0, by simp⟩

/-! ### Sprites::drawBitmap and Sprites::draw (Sprites.cpp)

The blit engine.  `x, y` are `int16_t`, `w, h` are `uint8_t` (theorems carry
`w < 256`, `h < 256`), the framebuffer is the 1024-byte `sBuffer`.  The model
threads the C variables (`bofs`, `mask_ofs`, `ofs`, `sRow`) explicitly; the
returned `SBState` is the buffer plus the ordered log of written indices.
`ofs` is `uint16_t`, so all its arithmetic is mod 65536; `sRow` is `int8_t`
(`i8` wraps); the loop counters are `uint8_t`.  For `SPRITE_PLUS_MASK` the
inline asm is translated instruction by instruction: `X`/`Y` are the 16-bit
buffer pointers (as offsets into `sBuffer`), `Z` the sprite pointer, the
`dec/brne` loops are do-while loops (a zero initial counter runs 256 times),
and the row jumps add only the LOW byte of the 16-bit jump values, as the
`add %A..., adc __zero_reg__` instruction pairs do. -/

def SPRITE_MASKED : Nat := 1
def SPRITE_UNMASKED : Nat := 2
def SPRITE_OVERWRITE : Nat := 2
def SPRITE_PLUS_MASK : Nat := 3
def SPRITE_IS_MASK : Nat := 250
def SPRITE_IS_MASK_ERASE : Nat := 251
def SPRITE_AUTO_MODE : Nat := 255

/-- `Sprites::drawBitmap`'s off-screen rejection (line 75); the sums are
16-bit `int` additions. -/
def spritesReject (x y : Int) (w h : Nat) : Bool :=
  decide (i16 (x + w) ≤ 0 ∨ x > 127 ∨ i16 (y + h) ≤ 0 ∨ y > 63)

/-- Sub-page alignment of `drawBitmap` (lines 84-91): `yOffset = abs(y)%8`,
`sRow = y/8` (both `int8_t`), and when `y < 0 && yOffset > 0`:
`sRow--; yOffset = 8 - yOffset`. -/
def spritesAlign (y : Int) : Int × Int :=
  let yOffset : Int := (y.natAbs % 8 : Nat)
  let sRow := i8 (tdiv8 y)
  if y < 0 ∧ yOffset > 0 then (i8 (sRow - 1), 8 - yOffset) else (sRow, yOffset)

/-- `xOffset` (uint16_t): columns skipped on the left (lines 94-98). -/
def spritesXOffset (x : Int) : Nat := if x < 0 then x.natAbs else 0

/-- `rendered_width` (uint8_t, lines 101-105).  In `(WIDTH - x) - xOffset`
and `w - xOffset` the `int` operand converts to `unsigned int`, and the
result is truncated to `uint8_t`: both collapse to `u8` of the value. -/
def spritesRenderedWidth (x : Int) (w xOffset : Nat) : Nat :=
  if i16 (x + w) > 127 then u8 (128 - x - xOffset) else u8 ((w : Int) - xOffset)

/-- `start_h` (uint8_t): sprite byte-rows skipped above the screen
(lines 108-112). -/
def spritesStartH (sRow : Int) : Nat := if sRow < -1 then sRow.natAbs - 1 else 0

/-- `loop_h` before the `start_h` subtraction: `h/8` rounded up, clamped to
the bottom of the screen (lines 114-119). -/
def spritesLoopH (sRow : Int) (h : Nat) : Nat :=
  let lh := h / 8 + (if h % 8 > 0 then 1 else 0)
  if sRow + lh > 8 then u8 (8 - sRow) else lh

/-- Framebuffer with the ordered log of written byte indices. -/
structure SBState where
  buf : Nat → Nat
  writes : List Nat

def sbStore (st : SBState) (idx v : Nat) : SBState :=
  ⟨fun j => if j = idx then v else st.buf j, st.writes ++ [idx]⟩

/-- One source byte blitted by the C-coded modes (`SPRITE_UNMASKED`,
`SPRITE_IS_MASK`, `SPRITE_IS_MASK_ERASE`, `SPRITE_MASKED`): the shifted
16-bit `bitmap_data`/`mask_data`, the guarded first-page combine at `ofs`
and the guarded second-page combine at `ofs + WIDTH` (mod 65536). -/
def spritePixel (draw_mode : Nat) (yOffset sRow : Int) (mul_amt b m ofs : Nat)
    (st : SBState) : SBState :=
  let bitmap_data := ((b % 256) * mul_amt) % 65536
  let mask_data :=
    if draw_mode = 1 then 65535 ^^^ (((m % 256) * mul_amt) % 65536)
    else 65535 ^^^ ((255 * mul_amt) % 65536)
  let st1 :=
    if 0 ≤ sRow then
      let d := st.buf ofs % 256
      let v :=
        if draw_mode = 250 then d ||| bitmap_data % 256
        else if draw_mode = 251 then d &&& (255 ^^^ bitmap_data % 256)
        else (d &&& mask_data % 256) ||| bitmap_data % 256
      sbStore st ofs v
    else st
  if yOffset ≠ 0 ∧ sRow < 7 then
    let ofs2 := (ofs + 128) % 65536
    let d := st1.buf ofs2 % 256
    let v :=
      if draw_mode = 250 then d ||| bitmap_data / 256
      else if draw_mode = 251 then d &&& (255 ^^^ bitmap_data / 256)
      else (d &&& mask_data / 256) ||| bitmap_data / 256
    sbStore st1 ofs2 v
  else st1

/-- The inner `iCol` loop of the C-coded modes: `n` pixels, threading
`(bofs, mask_ofs, ofs)`. -/
def spriteRowLoop (draw_mode : Nat) (yOffset sRow : Int) (mul_amt : Nat)
    (bitmap msk : Nat → Nat) :
    Nat → Int → Int → Nat → SBState → Int × Int × Nat × SBState
  | 0, bofs, mofs, ofs, st => (bofs, mofs, ofs, st)
  | n + 1, bofs, mofs, ofs, st =>
    let st' := spritePixel draw_mode yOffset sRow mul_amt
      (bitmap bofs.toNat) (msk mofs.toNat) ofs st
    spriteRowLoop draw_mode yOffset sRow mul_amt bitmap msk n
      (bofs + 1) (mofs + 1) ((ofs + 1) % 65536) st'

/-- The outer `a` loop of the C-coded modes: after each row `sRow++` (int8),
`bofs += w - rendered_width`, `mask_ofs += w - rendered_width`,
`ofs += WIDTH - rendered_width` (uint16). -/
def spriteRowsLoop (draw_mode : Nat) (yOffset : Int) (mul_amt w rw : Nat)
    (bitmap msk : Nat → Nat) :
    Nat → Int → Int → Int → Nat → SBState → SBState
  | 0, _, _, _, _, st => st
  | a + 1, sRow, bofs, mofs, ofs, st =>
    let r := spriteRowLoop draw_mode yOffset sRow mul_amt bitmap msk rw bofs mofs ofs st
    spriteRowsLoop draw_mode yOffset mul_amt w rw bitmap msk a (i8 (sRow + 1))
      (r.1 + ((w : Int) - rw)) (r.2.1 + ((w : Int) - rw))
      ((r.2.2.1 + u16 ((128 : Int) - rw)) % 65536) r.2.2.2

/-- State of the `SPRITE_PLUS_MASK` asm: sprite pointer `Z`, first-page
buffer pointer `X` (an offset into `sBuffer`, 16-bit), second-page pointer
`Y`, and the buffer. -/
structure PMState where
  Z : Int
  X : Nat
  Y : Nat
  buf : Nat → Nat
  writes : List Nat

/-- One pixel of the `SPRITE_PLUS_MASK` asm loop: `lpm` bitmap and mask from
`Z`; multiply both by `mul_amt` only when `yOffset != 0`; second-page
store at `Y` (post-incrementing `Y`) when `yOffset != 0 && sRow < 7`;
first-page store at `X` when `sRow >= 0`, `X` incremented either way. -/
def pmPixel (yOffset sRow : Int) (mul_amt : Nat) (bitmap : Nat → Nat)
    (st : PMState) : PMState :=
  let b := bitmap st.Z.toNat % 256
  let m := bitmap (st.Z + 1).toNat % 256
  let bitmap_data := if yOffset ≠ 0 then (b * mul_amt) % 65536 else b
  let mask_data := if yOffset ≠ 0 then (m * mul_amt) % 65536 else m
  let st1 :=
    if yOffset ≠ 0 ∧ sRow < 7 then
      let d := st.buf st.Y % 256
      let v := (d &&& (255 ^^^ mask_data / 256)) ||| bitmap_data / 256
      { st with buf := fun j => if j = st.Y then v else st.buf j,
                writes := st.writes ++ [st.Y], Y := (st.Y + 1) % 65536 }
    else st
  let st2 :=
    if 0 ≤ sRow then
      let d := st1.buf st1.X % 256
      let v := (d &&& (255 ^^^ mask_data % 256)) ||| bitmap_data % 256
      { st1 with buf := fun j => if j = st1.X then v else st1.buf j,
                 writes := st1.writes ++ [st1.X], X := (st1.X + 1) % 65536 }
    else { st1 with X := (st1.X + 1) % 65536 }
  { st2 with Z := st.Z + 2 }

/-- The asm inner `loop_x`, `n` iterations (the `dec xi / brne` do-while runs
`rendered_width` times, or 256 when `rendered_width = 0`; the caller passes
that count). -/
def pmRowLoop (yOffset sRow : Int) (mul_amt : Nat) (bitmap : Nat → Nat) :
    Nat → PMState → PMState
  | 0, st => st
  | n + 1, st => pmRowLoop yOffset sRow mul_amt bitmap n (pmPixel yOffset sRow mul_amt bitmap st)

/-- The asm outer `loop_y`, `rows` iterations (`dec yi / breq` do-while:
`loop_h`, or 256 when `loop_h = 0`).  Between rows: `inc sRow` (int8),
`Z += lo8((w - rendered_width) * 2)`, `X += lo8(WIDTH - rendered_width)`,
`Y += lo8(WIDTH - rendered_width)` — only the low bytes of the 16-bit jump
values are added (`add %A..., adc __zero_reg__`). -/
def pmRowsLoop (yOffset : Int) (mul_amt w rw : Nat) (bitmap : Nat → Nat) :
    Nat → Int → PMState → PMState
  | 0, _, st => st
  | a + 1, sRow, st =>
    let st' := pmRowLoop yOffset sRow mul_amt bitmap (if rw = 0 then 256 else rw) st
    pmRowsLoop yOffset mul_amt w rw bitmap a (i8 (sRow + 1))
      { st' with Z := st'.Z + u8 (((w : Int) - rw) * 2),
                 X := (st'.X + u8 ((128 : Int) - rw)) % 65536,
                 Y := (st'.Y + u8 ((128 : Int) - rw)) % 65536 }

/-- `Sprites::drawBitmap(x, y, bitmap, mask, w, h, draw_mode)`.  The bitmap
and mask resources are byte functions (`none` models a NULL pointer; a NULL
mask read in `SPRITE_MASKED` mode is modelled as reading zeros). -/
def drawBitmap (x0 y0 : Int) (bitmap mask : Option (Nat → Nat))
    (w h draw_mode : Nat) (buf : Nat → Nat) : SBState :=
  let x := i16 x0
  let y := i16 y0
  let st0 : SBState := ⟨buf, []⟩
  if spritesReject x y w h then st0
  else
    match bitmap with
    | none => st0
    | some bmp =>
      let al := spritesAlign y
      let sRow0 := al.1
      let yOffset := al.2
      let xOffset := spritesXOffset x
      let rw := spritesRenderedWidth x w xOffset
      let start_h := spritesStartH sRow0
      let loop_h := u8 ((spritesLoopH sRow0 h : Int) - start_h)
      let sRow := i8 (sRow0 + start_h)
      let ofs := u16 (sRow * 128 + x + xOffset)
      let bofs0 : Int := start_h * w + xOffset
      let mul_amt := (1 <<< yOffset.toNat) % 256
      let msk : Nat → Nat := match mask with | some f => f | none => fun _ => 0
      if draw_mode = 2 ∨ draw_mode = 250 ∨ draw_mode = 251 then
        spriteRowsLoop draw_mode yOffset mul_amt w rw bmp msk loop_h sRow bofs0 0 ofs st0
      else if draw_mode = 1 then
        spriteRowsLoop draw_mode yOffset mul_amt w rw bmp msk loop_h sRow bofs0 bofs0 ofs st0
      else if draw_mode = 3 then
        let stp := pmRowsLoop yOffset mul_amt w rw bmp (if loop_h = 0 then 256 else loop_h)
          sRow ⟨bofs0 * 2, ofs, (ofs + 128) % 65536, buf, []⟩
        ⟨stp.buf, stp.writes⟩
      else st0

/-- `Sprites::draw(x, y, bitmap, frame, mask, sprite_frame, drawMode)`:
NULL bitmap check, header read, frame offsets (`unsigned int`, 16-bit),
`SPRITE_AUTO_MODE` resolution, then `drawBitmap`. -/
def spritesDraw (x y : Int) (bitmap : Option (Nat → Nat)) (frame : Nat)
    (mask : Option (Nat → Nat)) (sprite_frame : Nat) (drawMode : Nat)
    (buf : Nat → Nat) : SBState :=
  match bitmap with
  | none => ⟨buf, []⟩
  | some bmp0 =>
    let width := bmp0 0 % 256
    let height := bmp0 1 % 256
    let bmp1 : Nat → Nat := fun i => bmp0 (2 + i)
    let frame_offset := (width * (height / 8 + if height % 8 = 0 then 0 else 1)) % 65536
    let adjust : (Nat → Nat) × Option (Nat → Nat) :=
      if frame > 0 ∨ sprite_frame > 0 then
        if drawMode = 3 then
          ((fun i => bmp1 ((frame * ((frame_offset * 2) % 65536)) % 65536 + i)), mask)
        else
          ((fun i => bmp1 ((frame * frame_offset) % 65536 + i)),
           match mask with
           | none => none
           | some mf => some (fun i => mf ((sprite_frame * frame_offset) % 65536 + i)))
      else (bmp1, mask)
    let mode := if drawMode = 255 then (match mask with | none => 2 | some _ => 1)
      else drawMode
    drawBitmap x y (some adjust.1) adjust.2 width height mode buf

theorem sbStore_writes (st : SBState) (idx v : Nat) :
    (sbStore st idx v).writes = st.writes ++ [idx] := rfl

theorem sbStore_buf (st : SBState) (idx v j : Nat) (h : j ≠ idx) :
    (sbStore st idx v).buf j = st.buf j := by
  simp [sbStore, h]

/-- Indices written by one blitted source byte: the current page `ofs` (only
when `sRow >= 0`) and the next page `(ofs + WIDTH) % 2^16` (only when
`yOffset != 0 && sRow < 7`). -/
theorem spritePixel_writes (draw_mode : Nat) (yOffset sRow : Int) (mul_amt b m ofs : Nat)
    (st : SBState) :
    ∀ e ∈ (spritePixel draw_mode yOffset sRow mul_amt b m ofs st).writes,
      e ∈ st.writes ∨ (0 ≤ sRow ∧ e = ofs) ∨
        (yOffset ≠ 0 ∧ sRow < 7 ∧ e = (ofs + 128) % 65536) := by
  intro e he
  simp only [spritePixel] at he
  by_cases h0 : 0 ≤ sRow
  · rw [if_pos h0] at he
    by_cases h7 : yOffset ≠ 0 ∧ sRow < 7
    · rw [if_pos h7] at he
      simp only [sbStore_writes, List.mem_append, List.mem_singleton] at he
      rcases he with (he | he) | he
      · exact Or.inl he
      · exact Or.inr (Or.inl ⟨h0, he⟩)
      · exact Or.inr (Or.inr ⟨h7.1, h7.2, he⟩)
    · rw [if_neg h7] at he
      simp only [sbStore_writes, List.mem_append, List.mem_singleton] at he
      rcases he with he | he
      · exact Or.inl he
      · exact Or.inr (Or.inl ⟨h0, he⟩)
  · rw [if_neg h0] at he
    by_cases h7 : yOffset ≠ 0 ∧ sRow < 7
    · rw [if_pos h7] at he
      simp only [sbStore_writes, List.mem_append, List.mem_singleton] at he
      rcases he with he | he
      · exact Or.inl he
      · exact Or.inr (Or.inr ⟨h7.1, h7.2, he⟩)
    · rw [if_neg h7] at he
      exact Or.inl he

theorem spritePixel_writes_ext (draw_mode : Nat) (yOffset sRow : Int) (mul_amt b m ofs : Nat)
    (st : SBState) :
    ∃ L, (spritePixel draw_mode yOffset sRow mul_amt b m ofs st).writes = st.writes ++ L := by
  simp only [spritePixel]
  by_cases h0 : 0 ≤ sRow <;> by_cases h7 : yOffset ≠ 0 ∧ sRow < 7 <;>
    [rw [if_pos h0, if_pos h7]; rw [if_pos h0, if_neg h7];
     rw [if_neg h0, if_pos h7]; rw [if_neg h0, if_neg h7]]
  · exact ⟨[ofs] ++ [(ofs + 128) % 65536], by simp only [sbStore_writes, List.append_assoc]⟩
  · exact ⟨_, rfl⟩
  · exact ⟨_, rfl⟩
  · exact ⟨[], (List.append_nil _).symm⟩

theorem spritePixel_buf (draw_mode : Nat) (yOffset sRow : Int) (mul_amt b m ofs : Nat)
    (st : SBState) (j : Nat) :
    (spritePixel draw_mode yOffset sRow mul_amt b m ofs st).buf j = st.buf j ∨
      j ∈ (spritePixel draw_mode yOffset sRow mul_amt b m ofs st).writes := by
  simp only [spritePixel]
  by_cases h0 : 0 ≤ sRow <;> by_cases h7 : yOffset ≠ 0 ∧ sRow < 7 <;>
    [rw [if_pos h0, if_pos h7]; rw [if_pos h0, if_neg h7];
     rw [if_neg h0, if_pos h7]; rw [if_neg h0, if_neg h7]]
  · by_cases hj2 : j = (ofs + 128) % 65536
    · right
      simp [sbStore_writes, hj2]
    · by_cases hj1 : j = ofs
      · right
        simp [sbStore_writes, hj1]
      · left
        rw [sbStore_buf _ _ _ _ hj2, sbStore_buf _ _ _ _ hj1]
  · by_cases hj1 : j = ofs
    · right
      simp [sbStore_writes, hj1]
    · left
      exact sbStore_buf _ _ _ _ hj1
  · by_cases hj2 : j = (ofs + 128) % 65536
    · right
      simp [sbStore_writes, hj2]
    · left
      exact sbStore_buf _ _ _ _ hj2
  · left
    rfl

theorem spriteRowLoop_state (draw_mode : Nat) (yOffset sRow : Int) (mul_amt : Nat)
    (bitmap msk : Nat → Nat) :
    ∀ n bofs mofs ofs st, ofs < 65536 →
      (spriteRowLoop draw_mode yOffset sRow mul_amt bitmap msk n bofs mofs ofs st).1 = bofs + n ∧
      (spriteRowLoop draw_mode yOffset sRow mul_amt bitmap msk n bofs mofs ofs st).2.1 = mofs + n ∧
      (spriteRowLoop draw_mode yOffset sRow mul_amt bitmap msk n bofs mofs ofs st).2.2.1
        = (ofs + n) % 65536
  | 0, bofs, mofs, ofs, st => by
    intro hofs
    refine ⟨by simp [spriteRowLoop], by simp [spriteRowLoop], ?_⟩
    simp only [spriteRowLoop]
    omega
  | n + 1, bofs, mofs, ofs, st => by
    intro hofs
    rw [spriteRowLoop]
    obtain ⟨e1, e2, e3⟩ := spriteRowLoop_state draw_mode yOffset sRow mul_amt bitmap msk
      n (bofs + 1) (mofs + 1) ((ofs + 1) % 65536)
      (spritePixel draw_mode yOffset sRow mul_amt (bitmap bofs.toNat) (msk mofs.toNat) ofs st)
      (by omega)
    refine ⟨by rw [e1]; push_cast; ring, by rw [e2]; push_cast; ring, ?_⟩
    rw [e3]
    omega

theorem spriteRowLoop_writes (draw_mode : Nat) (yOffset sRow : Int) (mul_amt : Nat)
    (bitmap msk : Nat → Nat) :
    ∀ n bofs mofs ofs st, ofs < 65536 →
      ∀ e ∈ (spriteRowLoop draw_mode yOffset sRow mul_amt bitmap msk n bofs mofs ofs st).2.2.2.writes,
        e ∈ st.writes ∨ ∃ i, i < n ∧
          ((0 ≤ sRow ∧ e = (ofs + i) % 65536) ∨
           (yOffset ≠ 0 ∧ sRow < 7 ∧ e = (ofs + i + 128) % 65536))
  | 0, bofs, mofs, ofs, st => fun _ e he => Or.inl he
  | n + 1, bofs, mofs, ofs, st => by
    intro hofs e he
    rw [spriteRowLoop] at he
    rcases spriteRowLoop_writes draw_mode yOffset sRow mul_amt bitmap msk n
      (bofs + 1) (mofs + 1) ((ofs + 1) % 65536) _ (by omega) e he with h | ⟨i, hi, h⟩
    · rcases spritePixel_writes draw_mode yOffset sRow mul_amt
        (bitmap bofs.toNat) (msk mofs.toNat) ofs st e h with h2 | h2 | h2
      · exact Or.inl h2
      · exact Or.inr ⟨0, by omega, Or.inl ⟨h2.1, by omega⟩⟩
      · exact Or.inr ⟨0, by omega, Or.inr ⟨h2.1, h2.2.1, by omega⟩⟩
    · rcases h with h | h
      · exact Or.inr ⟨i + 1, by omega, Or.inl ⟨h.1, by omega⟩⟩
      · exact Or.inr ⟨i + 1, by omega, Or.inr ⟨h.1, h.2.1, by omega⟩⟩

theorem spriteRowLoop_writes_ext (draw_mode : Nat) (yOffset sRow : Int) (mul_amt : Nat)
    (bitmap msk : Nat → Nat) :
    ∀ n bofs mofs ofs st,
      ∃ L, (spriteRowLoop draw_mode yOffset sRow mul_amt bitmap msk n bofs mofs ofs st).2.2.2.writes
        = st.writes ++ L
  | 0, bofs, mofs, ofs, st => ⟨[], (List.append_nil _).symm⟩
  | n + 1, bofs, mofs, ofs, st => by
    rw [spriteRowLoop]
    obtain ⟨L1, h1⟩ := spritePixel_writes_ext draw_mode yOffset sRow mul_amt
      (bitmap bofs.toNat) (msk mofs.toNat) ofs st
    obtain ⟨L2, h2⟩ := spriteRowLoop_writes_ext draw_mode yOffset sRow mul_amt bitmap msk n
      (bofs + 1) (mofs + 1) ((ofs + 1) % 65536)
      (spritePixel draw_mode yOffset sRow mul_amt (bitmap bofs.toNat) (msk mofs.toNat) ofs st)
    exact ⟨L1 ++ L2, by rw [h2, h1, List.append_assoc]⟩

theorem spriteRowLoop_buf (draw_mode : Nat) (yOffset sRow : Int) (mul_amt : Nat)
    (bitmap msk : Nat → Nat) :
    ∀ n bofs mofs ofs st j,
      (spriteRowLoop draw_mode yOffset sRow mul_amt bitmap msk n bofs mofs ofs st).2.2.2.buf j
          = st.buf j ∨
        j ∈ (spriteRowLoop draw_mode yOffset sRow mul_amt bitmap msk n bofs mofs ofs st).2.2.2.writes
  | 0, bofs, mofs, ofs, st, j => Or.inl rfl
  | n + 1, bofs, mofs, ofs, st, j => by
    rw [spriteRowLoop]
    rcases spriteRowLoop_buf draw_mode yOffset sRow mul_amt bitmap msk n
      (bofs + 1) (mofs + 1) ((ofs + 1) % 65536)
      (spritePixel draw_mode yOffset sRow mul_amt (bitmap bofs.toNat) (msk mofs.toNat) ofs st) j
      with h | h
    · rcases spritePixel_buf draw_mode yOffset sRow mul_amt
        (bitmap bofs.toNat) (msk mofs.toNat) ofs st j with h2 | h2
      · exact Or.inl (h.trans h2)
      · obtain ⟨L, hL⟩ := spriteRowLoop_writes_ext draw_mode yOffset sRow mul_amt bitmap msk n
          (bofs + 1) (mofs + 1) ((ofs + 1) % 65536)
          (spritePixel draw_mode yOffset sRow mul_amt (bitmap bofs.toNat) (msk mofs.toNat) ofs st)
        exact Or.inr (by rw [hL]; exact List.mem_append_left _ h2)
    · exact Or.inr h

/-- `sRow` after `r` further `int8_t` increments. -/
def i8Rows : Int → Nat → Int
  | s, 0 => s
  | s, r + 1 => i8Rows (i8 (s + 1)) r

theorem i8Rows_eq (s : Int) : ∀ r : Nat, -128 ≤ s → s + r ≤ 127 → i8Rows s r = s + r
  | 0, _, _ => by simp [i8Rows]
  | r + 1, h1, h2 => by
    rw [i8Rows]
    have hi : i8 (s + 1) = s + 1 := by unfold i8; omega
    rw [hi, i8Rows_eq (s + 1) r (by omega) (by omega)]
    push_cast
    ring

/-- One row of the outer loop advances `ofs` by exactly `WIDTH` (mod 2^16):
`rendered_width` steps of `ofs++` plus `ofs += WIDTH - rendered_width`
(the latter added after conversion to `unsigned int`). -/
theorem ofsRowStep (ofs rw : Nat) :
    ((ofs + rw) % 65536 + u16 ((128 : Int) - rw)) % 65536 = (ofs + 128) % 65536 := by
  unfold u16
  omega

theorem spriteRowsLoop_writes (draw_mode : Nat) (yOffset : Int) (mul_amt w rw : Nat)
    (bitmap msk : Nat → Nat) :
    ∀ a sRow bofs mofs ofs st, ofs < 65536 →
      ∀ e ∈ (spriteRowsLoop draw_mode yOffset mul_amt w rw bitmap msk a sRow bofs mofs ofs st).writes,
        e ∈ st.writes ∨ ∃ r i, r < a ∧ i < rw ∧
          ((0 ≤ i8Rows sRow r ∧ e = (ofs + 128 * r + i) % 65536) ∨
           (yOffset ≠ 0 ∧ i8Rows sRow r < 7 ∧ e = (ofs + 128 * r + i + 128) % 65536))
  | 0, sRow, bofs, mofs, ofs, st => fun _ e he => Or.inl he
  | a + 1, sRow, bofs, mofs, ofs, st => by
    intro hofs e he
    rw [spriteRowsLoop] at he
    have hstate := (spriteRowLoop_state draw_mode yOffset sRow mul_amt bitmap msk
      rw bofs mofs ofs st hofs).2.2
    have hstep : ((spriteRowLoop draw_mode yOffset sRow mul_amt bitmap msk
        rw bofs mofs ofs st).2.2.1 + u16 ((128 : Int) - rw)) % 65536 = (ofs + 128) % 65536 := by
      rw [hstate]
      exact ofsRowStep ofs rw
    rcases spriteRowsLoop_writes draw_mode yOffset mul_amt w rw bitmap msk a
      (i8 (sRow + 1)) _ _ _ _ (by omega) e he with h | ⟨r, i, hr, hi, h⟩
    · rcases spriteRowLoop_writes draw_mode yOffset sRow mul_amt bitmap msk
        rw bofs mofs ofs st hofs e h with h2 | ⟨i, hi, h2⟩
      · exact Or.inl h2
      · refine Or.inr ⟨0, i, by omega, hi, ?_⟩
        simpa [i8Rows] using h2
    · have hrows : i8Rows (i8 (sRow + 1)) r = i8Rows sRow (r + 1) := rfl
      rcases h with h | h
      · refine Or.inr ⟨r + 1, i, by omega, hi, Or.inl ⟨by rw [← hrows]; exact h.1, ?_⟩⟩
        have := h.2
        omega
      · refine Or.inr ⟨r + 1, i, by omega, hi,
          Or.inr ⟨h.1, by rw [← hrows]; exact h.2.1, ?_⟩⟩
        have := h.2.2
        omega

theorem spriteRowsLoop_writes_ext (draw_mode : Nat) (yOffset : Int) (mul_amt w rw : Nat)
    (bitmap msk : Nat → Nat) :
    ∀ a sRow bofs mofs ofs st,
      ∃ L, (spriteRowsLoop draw_mode yOffset mul_amt w rw bitmap msk a sRow bofs mofs ofs st).writes
        = st.writes ++ L
  | 0, sRow, bofs, mofs, ofs, st => ⟨[], (List.append_nil _).symm⟩
  | a + 1, sRow, bofs, mofs, ofs, st => by
    rw [spriteRowsLoop]
    obtain ⟨L1, h1⟩ := spriteRowLoop_writes_ext draw_mode yOffset sRow mul_amt bitmap msk
      rw bofs mofs ofs st
    obtain ⟨L2, h2⟩ := spriteRowsLoop_writes_ext draw_mode yOffset mul_amt w rw bitmap msk a
      (i8 (sRow + 1))
      ((spriteRowLoop draw_mode yOffset sRow mul_amt bitmap msk rw bofs mofs ofs st).1
        + ((w : Int) - rw))
      ((spriteRowLoop draw_mode yOffset sRow mul_amt bitmap msk rw bofs mofs ofs st).2.1
        + ((w : Int) - rw))
      (((spriteRowLoop draw_mode yOffset sRow mul_amt bitmap msk rw bofs mofs ofs st).2.2.1
        + u16 ((128 : Int) - rw)) % 65536)
      (spriteRowLoop draw_mode yOffset sRow mul_amt bitmap msk rw bofs mofs ofs st).2.2.2
    exact ⟨L1 ++ L2, by rw [h2, h1, List.append_assoc]⟩

theorem spriteRowsLoop_buf (draw_mode : Nat) (yOffset : Int) (mul_amt w rw : Nat)
    (bitmap msk : Nat → Nat) :
    ∀ a sRow bofs mofs ofs st j,
      (spriteRowsLoop draw_mode yOffset mul_amt w rw bitmap msk a sRow bofs mofs ofs st).buf j
          = st.buf j ∨
        j ∈ (spriteRowsLoop draw_mode yOffset mul_amt w rw bitmap msk a sRow bofs mofs ofs st).writes
  | 0, sRow, bofs, mofs, ofs, st, j => Or.inl rfl
  | a + 1, sRow, bofs, mofs, ofs, st, j => by
    rw [spriteRowsLoop]
    rcases spriteRowsLoop_buf draw_mode yOffset mul_amt w rw bitmap msk a
      (i8 (sRow + 1)) _ _ _
      (spriteRowLoop draw_mode yOffset sRow mul_amt bitmap msk rw bofs mofs ofs st).2.2.2 j
      with h | h
    · rcases spriteRowLoop_buf draw_mode yOffset sRow mul_amt bitmap msk
        rw bofs mofs ofs st j with h2 | h2
      · exact Or.inl (h.trans h2)
      · obtain ⟨L, hL⟩ := spriteRowsLoop_writes_ext draw_mode yOffset mul_amt w rw bitmap msk a
          (i8 (sRow + 1))
          ((spriteRowLoop draw_mode yOffset sRow mul_amt bitmap msk rw bofs mofs ofs st).1
            + ((w : Int) - rw))
          ((spriteRowLoop draw_mode yOffset sRow mul_amt bitmap msk rw bofs mofs ofs st).2.1
            + ((w : Int) - rw))
          (((spriteRowLoop draw_mode yOffset sRow mul_amt bitmap msk rw bofs mofs ofs st).2.2.1
            + u16 ((128 : Int) - rw)) % 65536)
          (spriteRowLoop draw_mode yOffset sRow mul_amt bitmap msk rw bofs mofs ofs st).2.2.2
        exact Or.inr (by rw [hL]; exact List.mem_append_left _ h2)
    · exact Or.inr h

/-- Shape of every index the C-coded mode loops write, started at
`ofs = u16(sRow*128 + c0)`: byte `128*p + (c0 + i)` of page `p`, with
`i < rendered_width`, `p` in `[sRow, sRow+a)` for first-page writes and in
`[sRow+1, sRow+a]` (only when `yOffset != 0`) for second-page writes. -/
theorem spriteRowsLoop_writes_shape (draw_mode : Nat) (yOffset : Int) (mul_amt w rw : Nat)
    (bitmap msk : Nat → Nat) (c0 : Int) (a : Nat) (sRow : Int) (bofs mofs : Int) (st : SBState)
    (h1 : -1 ≤ sRow) (h2 : sRow + a ≤ 8) (h3 : 0 ≤ c0) (h4 : c0 + rw ≤ 128) :
    ∀ e ∈ (spriteRowsLoop draw_mode yOffset mul_amt w rw bitmap msk a sRow bofs mofs
        (u16 (sRow * 128 + c0)) st).writes,
      e ∈ st.writes ∨ ∃ p : Int, ∃ i : Nat, i < rw ∧ 0 ≤ p ∧ p ≤ 7 ∧
        ((sRow ≤ p ∧ p < sRow + a) ∨ (yOffset ≠ 0 ∧ sRow + 1 ≤ p ∧ p ≤ sRow + a)) ∧
        (e : Int) = 128 * p + c0 + i := by
  intro e he
  have hU : (u16 (sRow * 128 + c0) : Int) = (sRow * 128 + c0) % 65536 := u16_emod _
  have hult : u16 (sRow * 128 + c0) < 65536 := by unfold u16; omega
  rcases spriteRowsLoop_writes draw_mode yOffset mul_amt w rw bitmap msk a sRow bofs mofs
    (u16 (sRow * 128 + c0)) st hult e he with h | ⟨r, i, hr, hi, h⟩
  · exact Or.inl h
  · have hrows : i8Rows sRow r = sRow + r := i8Rows_eq sRow r (by omega) (by omega)
    rw [hrows] at h
    rcases h with ⟨hp0, he'⟩ | ⟨hy, hp7, he'⟩
    · refine Or.inr ⟨sRow + r, i, hi, hp0, by omega, Or.inl ⟨by omega, by omega⟩, ?_⟩
      omega
    · refine Or.inr ⟨sRow + r + 1, i, hi, by omega, by omega,
        Or.inr ⟨hy, by omega, by omega⟩, ?_⟩
      omega

theorem pmPixel_writes (yOffset sRow : Int) (mul_amt : Nat) (bitmap : Nat → Nat) (st : PMState) :
    ∀ e ∈ (pmPixel yOffset sRow mul_amt bitmap st).writes,
      e ∈ st.writes ∨ (yOffset ≠ 0 ∧ sRow < 7 ∧ e = st.Y) ∨ (0 ≤ sRow ∧ e = st.X) := by
  intro e he
  simp only [pmPixel] at he
  by_cases h7 : yOffset ≠ 0 ∧ sRow < 7 <;> by_cases h0 : 0 ≤ sRow <;>
    [rw [if_pos h7] at he; rw [if_pos h7] at he; rw [if_neg h7] at he; rw [if_neg h7] at he] <;>
    [rw [if_pos h0] at he; rw [if_neg h0] at he; rw [if_pos h0] at he; rw [if_neg h0] at he] <;>
    simp only [List.mem_append, List.mem_singleton] at he
  · rcases he with (he | he) | he
    · exact Or.inl he
    · exact Or.inr (Or.inl ⟨h7.1, h7.2, he⟩)
    · exact Or.inr (Or.inr ⟨h0, he⟩)
  · rcases he with he | he
    · exact Or.inl he
    · exact Or.inr (Or.inl ⟨h7.1, h7.2, he⟩)
  · rcases he with he | he
    · exact Or.inl he
    · exact Or.inr (Or.inr ⟨h0, he⟩)
  · exact Or.inl he

theorem pmPixel_X (yOffset sRow : Int) (mul_amt : Nat) (bitmap : Nat → Nat) (st : PMState) :
    (pmPixel yOffset sRow mul_amt bitmap st).X = (st.X + 1) % 65536 := by
  simp only [pmPixel]
  by_cases h7 : yOffset ≠ 0 ∧ sRow < 7 <;> by_cases h0 : 0 ≤ sRow <;>
    [rw [if_pos h7]; rw [if_pos h7]; rw [if_neg h7]; rw [if_neg h7]] <;>
    [rw [if_pos h0]; rw [if_neg h0]; rw [if_pos h0]; rw [if_neg h0]]

theorem pmPixel_Y (yOffset sRow : Int) (mul_amt : Nat) (bitmap : Nat → Nat) (st : PMState) :
    (pmPixel yOffset sRow mul_amt bitmap st).Y
      = if yOffset ≠ 0 ∧ sRow < 7 then (st.Y + 1) % 65536 else st.Y := by
  simp only [pmPixel]
  by_cases h7 : yOffset ≠ 0 ∧ sRow < 7 <;> by_cases h0 : 0 ≤ sRow <;>
    [rw [if_pos h7, if_pos h7]; rw [if_pos h7, if_pos h7];
     rw [if_neg h7, if_neg h7]; rw [if_neg h7, if_neg h7]] <;>
    [rw [if_pos h0]; rw [if_neg h0]; rw [if_pos h0]; rw [if_neg h0]]

theorem pmPixel_writes_ext (yOffset sRow : Int) (mul_amt : Nat) (bitmap : Nat → Nat)
    (st : PMState) :
    ∃ L, (pmPixel yOffset sRow mul_amt bitmap st).writes = st.writes ++ L := by
  simp only [pmPixel]
  by_cases h7 : yOffset ≠ 0 ∧ sRow < 7 <;> by_cases h0 : 0 ≤ sRow <;>
    [rw [if_pos h7]; rw [if_pos h7]; rw [if_neg h7]; rw [if_neg h7]] <;>
    [rw [if_pos h0]; rw [if_neg h0]; rw [if_pos h0]; rw [if_neg h0]]
  · exact ⟨[st.Y] ++ [st.X], by simp only [List.append_assoc]⟩
  · exact ⟨[st.Y], rfl⟩
  · exact ⟨[st.X], rfl⟩
  · exact ⟨[], (List.append_nil _).symm⟩

theorem pmPixel_buf (yOffset sRow : Int) (mul_amt : Nat) (bitmap : Nat → Nat) (st : PMState)
    (j : Nat) :
    (pmPixel yOffset sRow mul_amt bitmap st).buf j = st.buf j ∨
      j ∈ (pmPixel yOffset sRow mul_amt bitmap st).writes := by
  simp only [pmPixel]
  by_cases h7 : yOffset ≠ 0 ∧ sRow < 7 <;> by_cases h0 : 0 ≤ sRow <;>
    [rw [if_pos h7]; rw [if_pos h7]; rw [if_neg h7]; rw [if_neg h7]] <;>
    [rw [if_pos h0]; rw [if_neg h0]; rw [if_pos h0]; rw [if_neg h0]]
  · by_cases hj1 : j = st.X
    · right; simp [hj1]
    · by_cases hj2 : j = st.Y
      · right; simp [hj2]
      · left; simp [hj1, hj2]
  · by_cases hj2 : j = st.Y
    · right; simp [hj2]
    · left; simp [hj2]
  · by_cases hj1 : j = st.X
    · right; simp [hj1]
    · left; simp [hj1]
  · left; rfl

theorem pmRowLoop_writes (yOffset sRow : Int) (mul_amt : Nat) (bitmap : Nat → Nat) :
    ∀ n st, st.X < 65536 → st.Y < 65536 →
      ∀ e ∈ (pmRowLoop yOffset sRow mul_amt bitmap n st).writes,
        e ∈ st.writes ∨ ∃ i, i < n ∧
          ((yOffset ≠ 0 ∧ sRow < 7 ∧ e = (st.Y + i) % 65536) ∨
           (0 ≤ sRow ∧ e = (st.X + i) % 65536))
  | 0, st => fun _ _ e he => Or.inl he
  | n + 1, st => by
    intro hX hY e he
    rw [pmRowLoop] at he
    have hX' := pmPixel_X yOffset sRow mul_amt bitmap st
    have hY' := pmPixel_Y yOffset sRow mul_amt bitmap st
    rcases pmRowLoop_writes yOffset sRow mul_amt bitmap n
      (pmPixel yOffset sRow mul_amt bitmap st) (by rw [hX']; omega)
      (by rw [hY']; split <;> omega) e he with h | ⟨i, hi, h⟩
    · rcases pmPixel_writes yOffset sRow mul_amt bitmap st e h with h2 | h2 | h2
      · exact Or.inl h2
      · exact Or.inr ⟨0, by omega, Or.inl ⟨h2.1, h2.2.1, by omega⟩⟩
      · exact Or.inr ⟨0, by omega, Or.inr ⟨h2.1, by omega⟩⟩
    · rcases h with ⟨hy7, hs7, he'⟩ | ⟨hs0, he'⟩
      · rw [hY'] at he'
        rw [if_pos ⟨hy7, hs7⟩] at he'
        exact Or.inr ⟨i + 1, by omega, Or.inl ⟨hy7, hs7, by omega⟩⟩
      · rw [hX'] at he'
        exact Or.inr ⟨i + 1, by omega, Or.inr ⟨hs0, by omega⟩⟩

theorem pmRowLoop_X (yOffset sRow : Int) (mul_amt : Nat) (bitmap : Nat → Nat) :
    ∀ n st, st.X < 65536 → (pmRowLoop yOffset sRow mul_amt bitmap n st).X = (st.X + n) % 65536
  | 0, st => fun h => by rw [pmRowLoop]; omega
  | n + 1, st => by
    intro hX
    rw [pmRowLoop]
    rw [pmRowLoop_X yOffset sRow mul_amt bitmap n _ (by rw [pmPixel_X]; omega),
      pmPixel_X]
    omega

theorem pmRowLoop_Y (yOffset sRow : Int) (mul_amt : Nat) (bitmap : Nat → Nat) :
    ∀ n st, st.Y < 65536 →
      (pmRowLoop yOffset sRow mul_amt bitmap n st).Y
        = if yOffset ≠ 0 ∧ sRow < 7 then (st.Y + n) % 65536 else st.Y
  | 0, st => fun h => by rw [pmRowLoop]; split <;> omega
  | n + 1, st => by
    intro hY
    rw [pmRowLoop]
    rw [pmRowLoop_Y yOffset sRow mul_amt bitmap n _ (by rw [pmPixel_Y]; split <;> omega),
      pmPixel_Y]
    split
    · omega
    · rfl

theorem pmRowLoop_writes_ext (yOffset sRow : Int) (mul_amt : Nat) (bitmap : Nat → Nat) :
    ∀ n st, ∃ L, (pmRowLoop yOffset sRow mul_amt bitmap n st).writes = st.writes ++ L
  | 0, st => ⟨[], (List.append_nil _).symm⟩
  | n + 1, st => by
    rw [pmRowLoop]
    obtain ⟨L1, h1⟩ := pmPixel_writes_ext yOffset sRow mul_amt bitmap st
    obtain ⟨L2, h2⟩ := pmRowLoop_writes_ext yOffset sRow mul_amt bitmap n
      (pmPixel yOffset sRow mul_amt bitmap st)
    exact ⟨L1 ++ L2, by rw [h2, h1, List.append_assoc]⟩

theorem pmRowLoop_buf (yOffset sRow : Int) (mul_amt : Nat) (bitmap : Nat → Nat) :
    ∀ n st j,
      (pmRowLoop yOffset sRow mul_amt bitmap n st).buf j = st.buf j ∨
        j ∈ (pmRowLoop yOffset sRow mul_amt bitmap n st).writes
  | 0, st, j => Or.inl rfl
  | n + 1, st, j => by
    rw [pmRowLoop]
    rcases pmRowLoop_buf yOffset sRow mul_amt bitmap n
      (pmPixel yOffset sRow mul_amt bitmap st) j with h | h
    · rcases pmPixel_buf yOffset sRow mul_amt bitmap st j with h2 | h2
      · exact Or.inl (h.trans h2)
      · obtain ⟨L, hL⟩ := pmRowLoop_writes_ext yOffset sRow mul_amt bitmap n
          (pmPixel yOffset sRow mul_amt bitmap st)
        exact Or.inr (by rw [hL]; exact List.mem_append_left _ h2)
    · exact Or.inr h

/-- Shape of every index the `SPRITE_PLUS_MASK` asm loop writes, for a
non-degenerate rendered width (`1 ≤ rw`): the same two-page footprint as the
C-coded modes.  The invariant carried across rows is that the second-page
pointer `Y` stays exactly `WIDTH` bytes ahead of `X` as long as second-page
stores can still happen (`sRow < 7` and `yOffset != 0`). -/
theorem pmRowsLoop_writes_shape (yOffset : Int) (mul_amt w rw : Nat) (bitmap : Nat → Nat)
    (c0 : Int) :
    ∀ (a : Nat) (sRow : Int) (st : PMState), -1 ≤ sRow → sRow + a ≤ 8 → 0 ≤ c0 →
      c0 + rw ≤ 128 → 1 ≤ rw →
      st.X = u16 (sRow * 128 + c0) → st.Y < 65536 →
      (st.Y = (st.X + 128) % 65536 ∨ 7 ≤ sRow ∨ yOffset = 0) →
      ∀ e ∈ (pmRowsLoop yOffset mul_amt w rw bitmap a sRow st).writes,
        e ∈ st.writes ∨ ∃ p : Int, ∃ i : Nat, i < rw ∧ 0 ≤ p ∧ p ≤ 7 ∧
          ((sRow ≤ p ∧ p < sRow + a) ∨ (yOffset ≠ 0 ∧ sRow + 1 ≤ p ∧ p ≤ sRow + a)) ∧
          (e : Int) = 128 * p + c0 + i
  | 0, sRow, st => fun _ _ _ _ _ _ _ _ e he => Or.inl he
  | a + 1, sRow, st => by
    intro h1 h2 h3 h4 h5 hX hYlt hinv e he
    rw [pmRowsLoop] at he
    rw [if_neg (by omega : ¬ rw = 0)] at he
    have hXlt : st.X < 65536 := by rw [hX]; unfold u16; omega
    have hXe : (st.X : Int) = (sRow * 128 + c0) % 65536 := by rw [hX]; exact u16_emod _
    have hrw128 : rw ≤ 128 := by omega
    have hu8 : u8 ((128 : Int) - rw) = 128 - rw := by unfold u8; omega
    have hXrow := pmRowLoop_X yOffset sRow mul_amt bitmap rw st hXlt
    have hYrow := pmRowLoop_Y yOffset sRow mul_amt bitmap rw st hYlt
    have hi8 : i8 (sRow + 1) = sRow + 1 := by unfold i8; omega
    have harg : sRow * 128 + c0 + 128 = (sRow + 1) * 128 + c0 := by ring
    have hXnext : ((pmRowLoop yOffset sRow mul_amt bitmap rw st).X + u8 ((128 : Int) - rw))
        % 65536 = u16 ((sRow + 1) * 128 + c0) := by
      rw [hXrow, hu8, hX, ← harg]
      unfold u16
      omega
    have hYnext : ((pmRowLoop yOffset sRow mul_amt bitmap rw st).Y + u8 ((128 : Int) - rw))
          % 65536 = (((pmRowLoop yOffset sRow mul_amt bitmap rw st).X
            + u8 ((128 : Int) - rw)) % 65536 + 128) % 65536
        ∨ 7 ≤ sRow + 1 ∨ yOffset = 0 := by
      rcases hinv with hY | h7 | hy0
      · by_cases hc : yOffset ≠ 0 ∧ sRow < 7
        · left
          rw [hYrow, if_pos hc, hY, hXrow, hu8]
          omega
        · rcases not_and_or.mp hc with hy | hs
          · right; right
            omega
          · right; left
            omega
      · right; left
        omega
      · right; right
        exact hy0
    rcases pmRowsLoop_writes_shape yOffset mul_amt w rw bitmap c0 a (i8 (sRow + 1))
      { pmRowLoop yOffset sRow mul_amt bitmap rw st with
          Z := (pmRowLoop yOffset sRow mul_amt bitmap rw st).Z + u8 (((w : Int) - rw) * 2),
          X := ((pmRowLoop yOffset sRow mul_amt bitmap rw st).X + u8 ((128 : Int) - rw)) % 65536,
          Y := ((pmRowLoop yOffset sRow mul_amt bitmap rw st).Y + u8 ((128 : Int) - rw)) % 65536 }
      (by omega) (by rw [hi8]; omega) h3 h4 h5
      (by dsimp only; rw [hi8]; exact hXnext)
      (by dsimp only; omega)
      (by dsimp only; rw [hi8]; exact hYnext)
      e he with h | ⟨p, i, hi, hp0, hp7, hpr, hpe⟩
    · dsimp only at h
      rcases pmRowLoop_writes yOffset sRow mul_amt bitmap rw st hXlt hYlt e h
        with h2' | ⟨i, hi, hh⟩
      · exact Or.inl h2'
      · rcases hh with ⟨hy, hs7, he'⟩ | ⟨hs0, he'⟩
        · have hY : st.Y = (st.X + 128) % 65536 := by
            rcases hinv with hY | h7 | hy0
            · exact hY
            · omega
            · exact absurd hy0 hy
          refine Or.inr ⟨sRow + 1, i, hi, by omega, by omega,
            Or.inr ⟨hy, by omega, by omega⟩, ?_⟩
          rw [he', hY]
          push_cast
          omega
        · refine Or.inr ⟨sRow, i, hi, hs0, by omega, Or.inl ⟨by omega, by omega⟩, ?_⟩
          rw [he']
          push_cast
          omega
    · rw [hi8] at hpr
      rcases hpr with hpr | hpr
      · exact Or.inr ⟨p, i, hi, hp0, hp7, Or.inl ⟨by omega, by omega⟩, hpe⟩
      · exact Or.inr ⟨p, i, hi, hp0, hp7, Or.inr ⟨hpr.1, by omega, by omega⟩, hpe⟩

theorem pmRowsLoop_writes_ext (yOffset : Int) (mul_amt w rw : Nat) (bitmap : Nat → Nat) :
    ∀ (a : Nat) (sRow : Int) (st : PMState),
      ∃ L, (pmRowsLoop yOffset mul_amt w rw bitmap a sRow st).writes = st.writes ++ L
  | 0, sRow, st => ⟨[], (List.append_nil _).symm⟩
  | a + 1, sRow, st => by
    rw [pmRowsLoop]
    obtain ⟨L1, h1⟩ := pmRowLoop_writes_ext yOffset sRow mul_amt bitmap
      (if rw = 0 then 256 else rw) st
    obtain ⟨L2, h2⟩ := pmRowsLoop_writes_ext yOffset mul_amt w rw bitmap a (i8 (sRow + 1))
      { pmRowLoop yOffset sRow mul_amt bitmap (if rw = 0 then 256 else rw) st with
          Z := (pmRowLoop yOffset sRow mul_amt bitmap (if rw = 0 then 256 else rw) st).Z
            + u8 (((w : Int) - rw) * 2),
          X := ((pmRowLoop yOffset sRow mul_amt bitmap (if rw = 0 then 256 else rw) st).X
            + u8 ((128 : Int) - rw)) % 65536,
          Y := ((pmRowLoop yOffset sRow mul_amt bitmap (if rw = 0 then 256 else rw) st).Y
            + u8 ((128 : Int) - rw)) % 65536 }
    exact ⟨L1 ++ L2, by rw [h2]; dsimp only; rw [h1, List.append_assoc]⟩

theorem pmRowsLoop_buf (yOffset : Int) (mul_amt w rw : Nat) (bitmap : Nat → Nat) :
    ∀ (a : Nat) (sRow : Int) (st : PMState) (j : Nat),
      (pmRowsLoop yOffset mul_amt w rw bitmap a sRow st).buf j = st.buf j ∨
        j ∈ (pmRowsLoop yOffset mul_amt w rw bitmap a sRow st).writes
  | 0, sRow, st, j => Or.inl rfl
  | a + 1, sRow, st, j => by
    rw [pmRowsLoop]
    rcases pmRowsLoop_buf yOffset mul_amt w rw bitmap a (i8 (sRow + 1))
      { pmRowLoop yOffset sRow mul_amt bitmap (if rw = 0 then 256 else rw) st with
          Z := (pmRowLoop yOffset sRow mul_amt bitmap (if rw = 0 then 256 else rw) st).Z
            + u8 (((w : Int) - rw) * 2),
          X := ((pmRowLoop yOffset sRow mul_amt bitmap (if rw = 0 then 256 else rw) st).X
            + u8 ((128 : Int) - rw)) % 65536,
          Y := ((pmRowLoop yOffset sRow mul_amt bitmap (if rw = 0 then 256 else rw) st).Y
            + u8 ((128 : Int) - rw)) % 65536 } j with h | h
    · dsimp only at h
      rcases pmRowLoop_buf yOffset sRow mul_amt bitmap (if rw = 0 then 256 else rw) st j
        with h2 | h2
      · exact Or.inl (h.trans h2)
      · obtain ⟨L, hL⟩ := pmRowsLoop_writes_ext yOffset mul_amt w rw bitmap a (i8 (sRow + 1))
          { pmRowLoop yOffset sRow mul_amt bitmap (if rw = 0 then 256 else rw) st with
              Z := (pmRowLoop yOffset sRow mul_amt bitmap (if rw = 0 then 256 else rw) st).Z
                + u8 (((w : Int) - rw) * 2),
              X := ((pmRowLoop yOffset sRow mul_amt bitmap (if rw = 0 then 256 else rw) st).X
                + u8 ((128 : Int) - rw)) % 65536,
              Y := ((pmRowLoop yOffset sRow mul_amt bitmap (if rw = 0 then 256 else rw) st).Y
                + u8 ((128 : Int) - rw)) % 65536 }
        refine Or.inr ?_
        rw [hL]
        dsimp only
        exact List.mem_append_left _ h2
    · exact Or.inr h

/-- Alignment facts for `Sprites::drawBitmap` in the range the rejection test
admits (`-254 ≤ y ≤ 63`): `8 * sRow + yOffset = y` with `0 ≤ yOffset ≤ 7`
and `-32 ≤ sRow ≤ 7`. -/
theorem spritesAlign_facts (y : Int) (hy1 : -254 ≤ y) (hy2 : y ≤ 63) :
    8 * (spritesAlign y).1 + (spritesAlign y).2 = y ∧
    0 ≤ (spritesAlign y).2 ∧ (spritesAlign y).2 ≤ 7 ∧
    -32 ≤ (spritesAlign y).1 ∧ (spritesAlign y).1 ≤ 7 := by
  simp only [spritesAlign]
  by_cases hc : y < 0 ∧ (((y.natAbs % 8 : Nat)) : Int) > 0
  · rw [if_pos hc]
    dsimp only
    unfold i8 tdiv8
    split_ifs <;> omega
  · rw [if_neg hc]
    dsimp only
    unfold i8 tdiv8
    split_ifs <;> omega

/-- The components of a failed rejection test. -/
theorem spritesReject_facts (x y : Int) (w h : Nat)
    (hx1 : -32768 ≤ x) (hx2 : x ≤ 32767) (hy1 : -32768 ≤ y) (hy2 : y ≤ 32767)
    (hw : w ≤ 255) (hh : h ≤ 255)
    (hrej : spritesReject x y w h = false) :
    1 ≤ x + w ∧ x ≤ 127 ∧ 1 ≤ y + h ∧ y ≤ 63 := by
  unfold spritesReject at hrej
  simp only [decide_eq_false_iff_not, not_or, not_le, not_lt] at hrej
  obtain ⟨h1, h2, h3, h4⟩ := hrej
  unfold i16 at h1 h3
  omega

/-- Horizontal clip facts: the first rendered column is `max x 0`, one past
the last is `min (x + w) 128`, and `rendered_width` is positive for a
positive-width sprite. -/
theorem spritesClipX_facts (x : Int) (w : Nat)
    (hx1 : -32768 ≤ x) (hx2 : x ≤ 127) (hw : w ≤ 255) (hxw : 1 ≤ x + w) :
    (x + spritesXOffset x : Int) = max x 0 ∧
    (x + spritesXOffset x + spritesRenderedWidth x w (spritesXOffset x) : Int)
      = min (x + w) 128 ∧
    spritesRenderedWidth x w (spritesXOffset x) ≤ 128 ∧
    (1 ≤ w → 1 ≤ spritesRenderedWidth x w (spritesXOffset x)) := by
  unfold spritesRenderedWidth spritesXOffset u8 i16
  split_ifs <;> omega

/-- Vertical clip facts: writing `sRow` for the post-`start_h` row and
`loop_h` for the final count, `sRow = sRow0 + start_h`, `-1 ≤ sRow`,
`sRow + loop_h ≤ 8`, `loop_h ≥ 1`, and for a height that is a multiple of 8
the loop never leaves the sprite's own pages. -/
theorem spritesClipY_facts (S : Int) (h : Nat)
    (hS1 : -32 ≤ S) (hS2 : S ≤ 7) (hh1 : 1 ≤ h) (hh2 : h ≤ 255) (hS6 : -7 ≤ 8 * S + h) :
    i8 (S + spritesStartH S) = S + spritesStartH S ∧
    -1 ≤ S + spritesStartH S ∧
    S + spritesStartH S + u8 ((spritesLoopH S h : Int) - spritesStartH S) ≤ 8 ∧
    1 ≤ u8 ((spritesLoopH S h : Int) - spritesStartH S) ∧
    (h % 8 = 0 →
      8 * (S + spritesStartH S + u8 ((spritesLoopH S h : Int) - spritesStartH S))
        ≤ 8 * S + h) := by
  simp only [spritesStartH, spritesLoopH]
  have h8 : h / 8 + (if h % 8 > 0 then 1 else 0) = (h + 7) / 8 := by
    by_cases hm : h % 8 > 0 <;> [rw [if_pos hm]; rw [if_neg hm]] <;> omega
  rw [h8]
  by_cases c1 : S < -1 <;> [rw [if_pos c1]; rw [if_neg c1]] <;>
    by_cases c2 : S + (((h + 7) / 8 : Nat) : Int) > 8 <;>
    [rw [if_pos c2]; rw [if_neg c2]; rw [if_pos c2]; rw [if_neg c2]] <;>
    unfold u8 i8 <;> omega

/-- Footprint of `Sprites::drawBitmap` for a non-degenerate sprite
(`1 ≤ w, h ≤ 255`), every draw mode: each written index is byte
`128*p + c` with page `0 ≤ p ≤ 7` (inside `sBuffer`), column
`max x 0 ≤ c < min (x + w) 128` (inside the clipped horizontal range),
page bottom `y < 8p + 8`, and — when the height is a whole number of
pages — page top `8p < y + h`. -/
theorem drawBitmap_writes_shape (x0 y0 : Int) (bmp : Nat → Nat) (mask : Option (Nat → Nat))
    (w h draw_mode : Nat) (buf : Nat → Nat)
    (hw1 : 1 ≤ w) (hw2 : w ≤ 255) (hh1 : 1 ≤ h) (hh2 : h ≤ 255) :
    ∀ e ∈ (drawBitmap x0 y0 (some bmp) mask w h draw_mode buf).writes,
      ∃ p c : Int, (e : Int) = 128 * p + c ∧ 0 ≤ p ∧ p ≤ 7 ∧
        max (i16 x0) 0 ≤ c ∧ c < min (i16 x0 + w) 128 ∧
        i16 y0 < 8 * p + 8 ∧ (h % 8 = 0 → 8 * p < i16 y0 + h) := by
  intro e he
  simp only [drawBitmap] at he
  by_cases hrej : spritesReject (i16 x0) (i16 y0) w h = true
  · rw [if_pos hrej] at he
    simp at he
  · rw [if_neg hrej] at he
    have hxb := i16_bounds x0
    have hyb := i16_bounds y0
    obtain ⟨hxw, hx127, hyh, hy63⟩ := spritesReject_facts (i16 x0) (i16 y0) w h
      (by omega) (by omega) (by omega) (by omega) hw2 hh2 (by simpa using hrej)
    obtain ⟨hSA, hyO0, hyO7, hS0a, hS0b⟩ := spritesAlign_facts (i16 y0)
      (by omega) (by omega)
    obtain ⟨hcx1, hcx2, hrw128, hrw1⟩ := spritesClipX_facts (i16 x0) w
      (by omega) (by omega) hw2 hxw
    obtain ⟨hi8r, hsr1, hsr8, hlp1, hdiv⟩ := spritesClipY_facts (spritesAlign (i16 y0)).1 h
      hS0a hS0b hh1 hh2 (by omega)
    have hargeq : i8 ((spritesAlign (i16 y0)).1 + (spritesStartH (spritesAlign (i16 y0)).1 : Nat))
          * 128 + i16 x0 + (spritesXOffset (i16 x0) : Nat)
        = i8 ((spritesAlign (i16 y0)).1 + (spritesStartH (spritesAlign (i16 y0)).1 : Nat)) * 128
          + (i16 x0 + (spritesXOffset (i16 x0) : Nat)) := by ring
    have hshape : ∀ p : Int, ∀ i : Nat,
        i < spritesRenderedWidth (i16 x0) w (spritesXOffset (i16 x0)) → 0 ≤ p → p ≤ 7 →
        ((i8 ((spritesAlign (i16 y0)).1 + (spritesStartH (spritesAlign (i16 y0)).1 : Nat)) ≤ p ∧
          p < i8 ((spritesAlign (i16 y0)).1 + (spritesStartH (spritesAlign (i16 y0)).1 : Nat))
            + u8 ((spritesLoopH (spritesAlign (i16 y0)).1 h : Int)
              - spritesStartH (spritesAlign (i16 y0)).1)) ∨
         ((spritesAlign (i16 y0)).2 ≠ 0 ∧
          i8 ((spritesAlign (i16 y0)).1 + (spritesStartH (spritesAlign (i16 y0)).1 : Nat)) + 1 ≤ p ∧
          p ≤ i8 ((spritesAlign (i16 y0)).1 + (spritesStartH (spritesAlign (i16 y0)).1 : Nat))
            + u8 ((spritesLoopH (spritesAlign (i16 y0)).1 h : Int)
              - spritesStartH (spritesAlign (i16 y0)).1))) →
        (e : Int) = 128 * p + (i16 x0 + (spritesXOffset (i16 x0) : Nat)) + i →
        ∃ p' c : Int, (e : Int) = 128 * p' + c ∧ 0 ≤ p' ∧ p' ≤ 7 ∧
          max (i16 x0) 0 ≤ c ∧ c < min (i16 x0 + w) 128 ∧
          i16 y0 < 8 * p' + 8 ∧ (h % 8 = 0 → 8 * p' < i16 y0 + h) := by
      intro p i hi hp0 hp7 hpr hpe
      refine ⟨p, i16 x0 + (spritesXOffset (i16 x0) : Nat) + i, by omega, hp0, hp7,
        by omega, by omega, ?_, ?_⟩
      · rw [hi8r] at hpr
        omega
      · intro h8
        have := hdiv h8
        rw [hi8r] at hpr
        omega
    by_cases hm1 : draw_mode = 2 ∨ draw_mode = 250 ∨ draw_mode = 251
    · rw [if_pos hm1] at he
      rw [hargeq] at he
      rcases spriteRowsLoop_writes_shape draw_mode (spritesAlign (i16 y0)).2
        ((1 <<< (spritesAlign (i16 y0)).2.toNat) % 256) w
        (spritesRenderedWidth (i16 x0) w (spritesXOffset (i16 x0))) bmp _
        (i16 x0 + (spritesXOffset (i16 x0) : Nat))
        (u8 ((spritesLoopH (spritesAlign (i16 y0)).1 h : Int)
          - spritesStartH (spritesAlign (i16 y0)).1))
        (i8 ((spritesAlign (i16 y0)).1 + (spritesStartH (spritesAlign (i16 y0)).1 : Nat)))
        ((spritesStartH (spritesAlign (i16 y0)).1 : Nat) * w + (spritesXOffset (i16 x0) : Nat))
        0 ⟨buf, []⟩ (by omega) (by rw [hi8r]; omega) (by omega)
        (by omega) e he with hnil | ⟨p, i, hi, hp0, hp7, hpr, hpe⟩
      · simp at hnil
      · exact hshape p i hi hp0 hp7 hpr hpe
    · rw [if_neg hm1] at he
      by_cases hm2 : draw_mode = 1
      · rw [if_pos hm2] at he
        rw [hargeq] at he
        rcases spriteRowsLoop_writes_shape draw_mode (spritesAlign (i16 y0)).2
          ((1 <<< (spritesAlign (i16 y0)).2.toNat) % 256) w
          (spritesRenderedWidth (i16 x0) w (spritesXOffset (i16 x0))) bmp _
          (i16 x0 + (spritesXOffset (i16 x0) : Nat))
          (u8 ((spritesLoopH (spritesAlign (i16 y0)).1 h : Int)
            - spritesStartH (spritesAlign (i16 y0)).1))
          (i8 ((spritesAlign (i16 y0)).1 + (spritesStartH (spritesAlign (i16 y0)).1 : Nat)))
          ((spritesStartH (spritesAlign (i16 y0)).1 : Nat) * w + (spritesXOffset (i16 x0) : Nat))
          ((spritesStartH (spritesAlign (i16 y0)).1 : Nat) * w + (spritesXOffset (i16 x0) : Nat))
          ⟨buf, []⟩ (by omega) (by rw [hi8r]; omega) (by omega)
          (by omega) e he with hnil | ⟨p, i, hi, hp0, hp7, hpr, hpe⟩
        · simp at hnil
        · exact hshape p i hi hp0 hp7 hpr hpe
      · rw [if_neg hm2] at he
        by_cases hm3 : draw_mode = 3
        · rw [if_pos hm3] at he
          dsimp only at he
          rw [if_neg (by omega : ¬ u8 ((spritesLoopH (spritesAlign (i16 y0)).1 h : Int)
            - spritesStartH (spritesAlign (i16 y0)).1) = 0), hargeq] at he
          rcases pmRowsLoop_writes_shape (spritesAlign (i16 y0)).2
            ((1 <<< (spritesAlign (i16 y0)).2.toNat) % 256) w
            (spritesRenderedWidth (i16 x0) w (spritesXOffset (i16 x0))) bmp
            (i16 x0 + (spritesXOffset (i16 x0) : Nat))
            (u8 ((spritesLoopH (spritesAlign (i16 y0)).1 h : Int)
              - spritesStartH (spritesAlign (i16 y0)).1))
            (i8 ((spritesAlign (i16 y0)).1 + (spritesStartH (spritesAlign (i16 y0)).1 : Nat)))
            ⟨(((spritesStartH (spritesAlign (i16 y0)).1 : Nat) * w
                + (spritesXOffset (i16 x0) : Nat)) : Int) * 2,
              u16 (i8 ((spritesAlign (i16 y0)).1
                  + (spritesStartH (spritesAlign (i16 y0)).1 : Nat)) * 128
                + (i16 x0 + (spritesXOffset (i16 x0) : Nat))),
              (u16 (i8 ((spritesAlign (i16 y0)).1
                  + (spritesStartH (spritesAlign (i16 y0)).1 : Nat)) * 128
                + (i16 x0 + (spritesXOffset (i16 x0) : Nat))) + 128) % 65536,
              buf, []⟩
            (by omega) (by rw [hi8r]; omega) (by omega)
            (by omega) (hrw1 hw1) rfl
            (by dsimp only; omega) (by dsimp only; left; rfl)
            e he with hnil | ⟨p, i, hi, hp0, hp7, hpr, hpe⟩
          · simp at hnil
          · exact hshape p i hi hp0 hp7 hpr hpe
        · rw [if_neg hm3] at he
          simp at he

/-- A byte `drawBitmap` does not log as written keeps its value. -/
theorem drawBitmap_buf (x0 y0 : Int) (bitmap mask : Option (Nat → Nat))
    (w h draw_mode : Nat) (buf : Nat → Nat) (j : Nat) :
    (drawBitmap x0 y0 bitmap mask w h draw_mode buf).buf j = buf j ∨
      j ∈ (drawBitmap x0 y0 bitmap mask w h draw_mode buf).writes := by
  simp only [drawBitmap]
  by_cases hrej : spritesReject (i16 x0) (i16 y0) w h = true
  · rw [if_pos hrej]
    exact Or.inl rfl
  · rw [if_neg hrej]
    match bitmap with
    | none => exact Or.inl rfl
    | some bmp =>
      dsimp only
      by_cases hm1 : draw_mode = 2 ∨ draw_mode = 250 ∨ draw_mode = 251
      · rw [if_pos hm1]
        exact spriteRowsLoop_buf _ _ _ _ _ _ _ _ _ _ _ _ _ j
      · rw [if_neg hm1]
        by_cases hm2 : draw_mode = 1
        · rw [if_pos hm2]
          exact spriteRowsLoop_buf _ _ _ _ _ _ _ _ _ _ _ _ _ j
        · rw [if_neg hm2]
          by_cases hm3 : draw_mode = 3
          · rw [if_pos hm3]
            exact pmRowsLoop_buf _ _ _ _ _ _ _ _ j
          · rw [if_neg hm3]
            exact Or.inl rfl

theorem readBits_one_lt (src : Nat → Nat) (s : BSR) : (readBits src s 1).1 < 2 := by
  simp only [readBits, readBitsAux]
  split <;> simp

/-- The span colours `drawCompressed` processes strictly alternate starting
from the header's colour bit: the `i`-th span is drawn with colour
`(c0 + i) % 2`. -/
theorem drawCompressed_spanLog (sx0 sy0 : Int) (src : Nat → Nat) (color : Nat) (fuel : Nat)
    (buf : Nat → Nat) :
    ∃ c0 k, c0 < 2 ∧
      (drawCompressed sx0 sy0 src color fuel buf).spanLog
        = (List.range k).map (fun i => (c0 + i) % 2) := by
  simp only [drawCompressed]
  split
  · exact ⟨0, 0, by omega, by simp⟩
  · have hsc : (readBits src (readBits src (readBits src ⟨0, 0, 0⟩ 8).2 8).2 1).1 % 256 < 2 := by
      have := readBits_one_lt src (readBits src (readBits src ⟨0, 0, 0⟩ 8).2 8).2
      omega
    obtain ⟨k, hk⟩ := dcLoop_spanLog src (i16 sx0)
      (dcAlign (i16 sy0)).1 (dcAlign (i16 sy0)).2 color
      (((readBits src ⟨0, 0, 0⟩ 8).1 : Int) + 1)
      ((((readBits src (readBits src ⟨0, 0, 0⟩ 8).2 8).1 : Int) + 1) / 8
        + if (((readBits src (readBits src ⟨0, 0, 0⟩ 8).2 8).1 : Int) + 1) % 8 ≠ 0
          then 1 else 0)
      fuel (readBits src (readBits src (readBits src ⟨0, 0, 0⟩ 8).2 8).2 1).2
      ((readBits src (readBits src (readBits src ⟨0, 0, 0⟩ 8).2 8).2 1).1 % 256)
      ⟨0, 0, 0, 1, buf, [], []⟩ hsc
    rw [List.nil_append] at hk
    exact ⟨_, k, hsc, hk⟩

/-- One `SPRITE_MASKED` pixel whose mask byte is `0xFF` performs exactly the
`SPRITE_UNMASKED` combine. -/
theorem spritePixel_mask_ones (yOffset sRow : Int) (mul_amt b m ofs : Nat) (st : SBState) :
    spritePixel 1 yOffset sRow mul_amt b 255 ofs st
      = spritePixel 2 yOffset sRow mul_amt b m ofs st := by
  simp [spritePixel]

theorem spriteRowLoop_mask_ones (yOffset sRow : Int) (mul_amt : Nat)
    (bitmap msk : Nat → Nat) :
    ∀ n bofs mofs mofs' ofs st,
      (spriteRowLoop 1 yOffset sRow mul_amt bitmap (fun _ => 255) n bofs mofs ofs st).1
        = (spriteRowLoop 2 yOffset sRow mul_amt bitmap msk n bofs mofs' ofs st).1 ∧
      (spriteRowLoop 1 yOffset sRow mul_amt bitmap (fun _ => 255) n bofs mofs ofs st).2.2.1
        = (spriteRowLoop 2 yOffset sRow mul_amt bitmap msk n bofs mofs' ofs st).2.2.1 ∧
      (spriteRowLoop 1 yOffset sRow mul_amt bitmap (fun _ => 255) n bofs mofs ofs st).2.2.2
        = (spriteRowLoop 2 yOffset sRow mul_amt bitmap msk n bofs mofs' ofs st).2.2.2
  | 0, bofs, mofs, mofs', ofs, st => ⟨rfl, rfl, rfl⟩
  | n + 1, bofs, mofs, mofs', ofs, st => by
    rw [spriteRowLoop, spriteRowLoop]
    have hpix := spritePixel_mask_ones yOffset sRow mul_amt (bitmap bofs.toNat)
      (msk mofs'.toNat) ofs st
    rw [hpix]
    exact spriteRowLoop_mask_ones yOffset sRow mul_amt bitmap msk n
      (bofs + 1) (mofs + 1) (mofs' + 1) ((ofs + 1) % 65536) _

/-- The whole `SPRITE_MASKED` loop with an all-ones mask resource equals the
`SPRITE_UNMASKED` loop. -/
theorem spriteRowsLoop_mask_ones (yOffset : Int) (mul_amt w rw : Nat)
    (bitmap msk : Nat → Nat) :
    ∀ a sRow bofs mofs mofs' ofs st,
      spriteRowsLoop 1 yOffset mul_amt w rw bitmap (fun _ => 255) a sRow bofs mofs ofs st
        = spriteRowsLoop 2 yOffset mul_amt w rw bitmap msk a sRow bofs mofs' ofs st
  | 0, sRow, bofs, mofs, mofs', ofs, st => rfl
  | a + 1, sRow, bofs, mofs, mofs', ofs, st => by
    rw [spriteRowsLoop, spriteRowsLoop]
    obtain ⟨e1, e2, e3⟩ := spriteRowLoop_mask_ones yOffset sRow mul_amt bitmap msk
      rw bofs mofs mofs' ofs st
    rw [e1, e2, e3]
    exact spriteRowsLoop_mask_ones yOffset mul_amt w rw bitmap msk a (i8 (sRow + 1)) _ _ _ _ _

/-- Xor against an all-ones value is subtraction (two's-complement style
bitwise complement within `k` bits). -/
theorem xor_ones_pow (k : Nat) : ∀ X, X < 2 ^ k → (2 ^ k - 1) ^^^ X = 2 ^ k - 1 - X := by
  induction k with
  | zero =>
    intro X h
    interval_cases X
    decide
  | succ k ih =>
    intro X h
    have hb : (2 ^ (k + 1) - 1) = Nat.bit true (2 ^ k - 1) := by
      simp [Nat.bit]
      omega
    have hX : X = Nat.bit (X % 2 = 1) (X / 2) := by
      simp only [Nat.bit]
      rcases Nat.mod_two_eq_zero_or_one X with hm | hm <;> simp [hm] <;> omega
    rw [hb, hX, Nat.xor_bit]
    have h1 : X / 2 < 2 ^ k := by
      have h2 : 2 ^ (k + 1) = 2 * 2 ^ k := by ring
      omega
    rw [ih (X / 2) h1]
    have h2 : 2 ^ (k + 1) = 2 * 2 ^ k := by ring
    simp only [Nat.bit]
    rcases Nat.mod_two_eq_zero_or_one X with hm | hm <;> simp [hm] <;> omega

theorem xor_ffff (X : Nat) (h : X < 65536) : 65535 ^^^ X = 65535 - X := by
  have := xor_ones_pow 16 X (by norm_num; omega)
  norm_num at this
  exact this

theorem xor_ff (v : Nat) (h : v < 256) : 255 ^^^ v = 255 - v := by
  have := xor_ones_pow 8 v (by norm_num; omega)
  norm_num at this
  exact this

/-- Low byte of the code's 16-bit product `b * (1 << yOffset)` is the spec's
`(b << yOffset)` truncated to 8 bits. -/
theorem byte_split_lo (b yO : Nat) (hy : yO ≤ 7) :
    ((b * ((1 <<< yO) % 256)) % 65536) % 256 = (b <<< yO) % 256 := by
  interval_cases yO <;>
    simp only [Nat.shiftLeft_eq, Nat.shiftRight_eq_div_pow] <;> norm_num

/-- High byte of the code's 16-bit product is the spec's `b >> (8 - yOffset)`. -/
theorem byte_split_hi (b yO : Nat) (hb : b < 256) (hy : yO ≤ 7) :
    ((b * ((1 <<< yO) % 256)) % 65536) / 256 = b >>> (8 - yO) := by
  interval_cases yO <;>
    simp only [Nat.shiftLeft_eq, Nat.shiftRight_eq_div_pow] <;> norm_num <;> omega

theorem sbStore_buf_self (st : SBState) (idx v : Nat) : (sbStore st idx v).buf idx = v := by
  simp [sbStore]

/-- The `SPRITE_UNMASKED` combine in spec form: with `yOffset = yO` the byte
written to the current page is `(d & ~(0xFF << yO)) | ((b << yO) & 0xFF)` and
the byte written to the next page (only when `yO != 0` and `sRow < 7`) is
`(d & ~(0xFF >> (8-yO))) | (b >> (8-yO))`. -/
theorem spritePixel_unmasked_buf (yO : Nat) (sRow : Int) (b m ofs : Nat) (st : SBState)
    (hb : b < 256) (hy : yO ≤ 7) (h0 : 0 ≤ sRow) (hofs : ofs < 65536) :
    (spritePixel 2 (yO : Int) sRow ((1 <<< yO) % 256) b m ofs st).buf ofs
      = ((st.buf ofs % 256) &&& (255 ^^^ ((255 <<< yO) % 256))) ||| ((b <<< yO) % 256) ∧
    (yO ≠ 0 → sRow < 7 →
      (spritePixel 2 (yO : Int) sRow ((1 <<< yO) % 256) b m ofs st).buf ((ofs + 128) % 65536)
        = ((st.buf ((ofs + 128) % 65536) % 256) &&& (255 ^^^ (255 >>> (8 - yO))))
          ||| (b >>> (8 - yO))) := by
  have hXlt : (255 * ((1 <<< yO) % 256)) % 65536 < 65536 := by omega
  have hlo255 := byte_split_lo 255 yO hy
  have hhi255 := byte_split_hi 255 yO (by norm_num) hy
  have hshlt : (255 <<< yO) % 256 < 256 := by omega
  have hshrlt : 255 >>> (8 - yO) < 256 := by
    interval_cases yO <;> decide
  have hmask_lo : (65535 ^^^ ((255 * ((1 <<< yO) % 256)) % 65536)) % 256
      = 255 ^^^ ((255 <<< yO) % 256) := by
    rw [xor_ffff _ hXlt, xor_ff _ hshlt]
    omega
  have hmask_hi : (65535 ^^^ ((255 * ((1 <<< yO) % 256)) % 65536)) / 256
      = 255 ^^^ (255 >>> (8 - yO)) := by
    rw [xor_ffff _ hXlt, xor_ff _ hshrlt]
    omega
  have hblo : ((b % 256) * ((1 <<< yO) % 256)) % 65536 % 256 = (b <<< yO) % 256 := by
    rw [Nat.mod_eq_of_lt hb]
    exact byte_split_lo b yO hy
  have hbhi : ((b % 256) * ((1 <<< yO) % 256)) % 65536 / 256 = b >>> (8 - yO) := by
    rw [Nat.mod_eq_of_lt hb]
    exact byte_split_hi b yO hb hy
  have hne : ofs ≠ (ofs + 128) % 65536 := by omega
  simp only [spritePixel]
  rw [if_pos h0]
  have hm2a : ¬ (2 = 250) := by norm_num
  have hm2b : ¬ (2 = 251) := by norm_num
  have hm2c : ¬ (2 = 1) := by norm_num
  rw [if_neg hm2c, if_neg hm2a, if_neg hm2b, if_neg hm2a, if_neg hm2b]
  by_cases h7 : (yO : Int) ≠ 0 ∧ sRow < 7
  · rw [if_pos h7]
    constructor
    · rw [sbStore_buf _ _ _ _ hne, sbStore_buf_self, hmask_lo, hblo]
    · intro _ _
      rw [sbStore_buf_self, sbStore_buf _ _ _ _ hne.symm, hmask_hi, hbhi]
  · rw [if_neg h7]
    constructor
    · rw [sbStore_buf_self, hmask_lo, hblo]
    · intro hy0 hs7
      exact absurd ⟨by exact_mod_cast hy0, hs7⟩ h7

/-- The `SPRITE_MASKED` combine in spec form, current page: the byte written
is `(d & ~((m << yO) & 0xFF)) | ((b << yO) & 0xFF)` — the source contribution
is NOT masked by `m`. -/
theorem spritePixel_masked_buf (yO : Nat) (sRow : Int) (b m ofs : Nat) (st : SBState)
    (hb : b < 256) (hm : m < 256) (hy : yO ≤ 7) (h0 : 0 ≤ sRow) (hofs : ofs < 65536) :
    (spritePixel 1 (yO : Int) sRow ((1 <<< yO) % 256) b m ofs st).buf ofs
      = ((st.buf ofs % 256) &&& (255 ^^^ ((m <<< yO) % 256))) ||| ((b <<< yO) % 256) := by
  have hXlt : ((m % 256) * ((1 <<< yO) % 256)) % 65536 < 65536 := by omega
  have hshlt : (m <<< yO) % 256 < 256 := by omega
  have hmask_lo : (65535 ^^^ (((m % 256) * ((1 <<< yO) % 256)) % 65536)) % 256
      = 255 ^^^ ((m <<< yO) % 256) := by
    rw [xor_ffff _ hXlt, xor_ff _ hshlt, Nat.mod_eq_of_lt hm]
    have := byte_split_lo m yO hy
    omega
  have hblo : ((b % 256) * ((1 <<< yO) % 256)) % 65536 % 256 = (b <<< yO) % 256 := by
    rw [Nat.mod_eq_of_lt hb]
    exact byte_split_lo b yO hy
  have hne : ofs ≠ (ofs + 128) % 65536 := by omega
  simp only [spritePixel]
  rw [if_pos h0]
  simp only [show (((1:Nat) = 1)) = True from by norm_num,
    show (((1:Nat) = 250)) = False from by norm_num,
    show (((1:Nat) = 251)) = False from by norm_num, if_true, if_false]
  by_cases h7 : (yO : Int) ≠ 0 ∧ sRow < 7
  · rw [if_pos h7, sbStore_buf _ _ _ _ hne, sbStore_buf_self, hmask_lo, hblo]
  · rw [if_neg h7, sbStore_buf_self, hmask_lo, hblo]

/-- The `SPRITE_UNMASKED` combine in spec form, next page only (no assumption
on `sRow`, so it also covers the top-clipped row `sRow = -1`): the byte
written is `(d & ~(0xFF >> (8-yO))) | (b >> (8-yO))`. -/
theorem spritePixel_unmasked_buf2 (yO : Nat) (sRow : Int) (b m ofs : Nat) (st : SBState)
    (hb : b < 256) (hy : yO ≤ 7) (hofs : ofs < 65536) :
    yO ≠ 0 → sRow < 7 →
    (spritePixel 2 (yO : Int) sRow ((1 <<< yO) % 256) b m ofs st).buf ((ofs + 128) % 65536)
      = ((st.buf ((ofs + 128) % 65536) % 256) &&& (255 ^^^ (255 >>> (8 - yO))))
        ||| (b >>> (8 - yO)) := by
  intro hy0 hs7
  have hXlt : (255 * ((1 <<< yO) % 256)) % 65536 < 65536 := by omega
  have hshrlt : 255 >>> (8 - yO) < 256 := by
    interval_cases yO <;> decide
  have hmask_hi : (65535 ^^^ ((255 * ((1 <<< yO) % 256)) % 65536)) / 256
      = 255 ^^^ (255 >>> (8 - yO)) := by
    rw [xor_ffff _ hXlt, xor_ff _ hshrlt]
    have := byte_split_hi 255 yO (by norm_num) hy
    omega
  have hbhi : ((b % 256) * ((1 <<< yO) % 256)) % 65536 / 256 = b >>> (8 - yO) := by
    rw [Nat.mod_eq_of_lt hb]
    exact byte_split_hi b yO hb hy
  have hne : ofs ≠ (ofs + 128) % 65536 := by omega
  simp only [spritePixel]
  simp only [show (((2:Nat) = 1)) = False from by norm_num,
    show (((2:Nat) = 250)) = False from by norm_num,
    show (((2:Nat) = 251)) = False from by norm_num, if_false]
  have h7 : (yO : Int) ≠ 0 ∧ sRow < 7 := ⟨by exact_mod_cast hy0, hs7⟩
  rw [if_pos h7]
  by_cases h0 : 0 ≤ sRow
  · rw [if_pos h0, sbStore_buf_self, sbStore_buf _ _ _ _ hne.symm, hmask_hi, hbhi]
  · rw [if_neg h0, sbStore_buf_self, hmask_hi, hbhi]

/-- The `SPRITE_MASKED` combine in spec form, next page only: the byte
written is `(d & ~(m >> (8-yO))) | (b >> (8-yO))`. -/
theorem spritePixel_masked_buf2 (yO : Nat) (sRow : Int) (b m ofs : Nat) (st : SBState)
    (hb : b < 256) (hm : m < 256) (hy : yO ≤ 7) (hofs : ofs < 65536) :
    yO ≠ 0 → sRow < 7 →
    (spritePixel 1 (yO : Int) sRow ((1 <<< yO) % 256) b m ofs st).buf ((ofs + 128) % 65536)
      = ((st.buf ((ofs + 128) % 65536) % 256) &&& (255 ^^^ (m >>> (8 - yO))))
        ||| (b >>> (8 - yO)) := by
  intro hy0 hs7
  have hXlt : ((m % 256) * ((1 <<< yO) % 256)) % 65536 < 65536 := by omega
  have hshrlt : m >>> (8 - yO) < 256 := by
    rw [Nat.shiftRight_eq_div_pow]
    have := Nat.div_le_self m (2 ^ (8 - yO))
    omega
  have hmask_hi : (65535 ^^^ (((m % 256) * ((1 <<< yO) % 256)) % 65536)) / 256
      = 255 ^^^ (m >>> (8 - yO)) := by
    rw [xor_ffff _ hXlt, xor_ff _ hshrlt, Nat.mod_eq_of_lt hm]
    have := byte_split_hi m yO hm hy
    omega
  have hbhi : ((b % 256) * ((1 <<< yO) % 256)) % 65536 / 256 = b >>> (8 - yO) := by
    rw [Nat.mod_eq_of_lt hb]
    exact byte_split_hi b yO hb hy
  have hne : ofs ≠ (ofs + 128) % 65536 := by omega
  simp only [spritePixel]
  simp only [show (((1:Nat) = 1)) = True from by norm_num,
    show (((1:Nat) = 250)) = False from by norm_num,
    show (((1:Nat) = 251)) = False from by norm_num, if_true, if_false]
  have h7 : (yO : Int) ≠ 0 ∧ sRow < 7 := ⟨by exact_mod_cast hy0, hs7⟩
  rw [if_pos h7]
  by_cases h0 : 0 ≤ sRow
  · rw [if_pos h0, sbStore_buf_self, sbStore_buf _ _ _ _ hne.symm, hmask_hi, hbhi]
  · rw [if_neg h0, sbStore_buf_self, hmask_hi, hbhi]

/-- The `SPRITE_IS_MASK` combine in spec form: the current page gets
`d | ((b << yO) & 0xFF)` and the next page (only when `yO != 0` and
`sRow < 7`) gets `d | (b >> (8-yO))`. -/
theorem spritePixel_selfmask_buf (yO : Nat) (sRow : Int) (b m ofs : Nat) (st : SBState)
    (hb : b < 256) (hy : yO ≤ 7) (hofs : ofs < 65536) :
    (0 ≤ sRow →
      (spritePixel 250 (yO : Int) sRow ((1 <<< yO) % 256) b m ofs st).buf ofs
        = (st.buf ofs % 256) ||| ((b <<< yO) % 256)) ∧
    (yO ≠ 0 → sRow < 7 →
      (spritePixel 250 (yO : Int) sRow ((1 <<< yO) % 256) b m ofs st).buf ((ofs + 128) % 65536)
        = (st.buf ((ofs + 128) % 65536) % 256) ||| (b >>> (8 - yO))) := by
  have hblo : ((b % 256) * ((1 <<< yO) % 256)) % 65536 % 256 = (b <<< yO) % 256 := by
    rw [Nat.mod_eq_of_lt hb]
    exact byte_split_lo b yO hy
  have hbhi : ((b % 256) * ((1 <<< yO) % 256)) % 65536 / 256 = b >>> (8 - yO) := by
    rw [Nat.mod_eq_of_lt hb]
    exact byte_split_hi b yO hb hy
  have hne : ofs ≠ (ofs + 128) % 65536 := by omega
  simp only [spritePixel]
  simp only [show (((250:Nat) = 1)) = False from by norm_num,
    show (((250:Nat) = 250)) = True from by norm_num, if_true, if_false]
  constructor
  · intro h0
    rw [if_pos h0]
    by_cases h7 : (yO : Int) ≠ 0 ∧ sRow < 7
    · rw [if_pos h7, sbStore_buf _ _ _ _ hne, sbStore_buf_self, hblo]
    · rw [if_neg h7, sbStore_buf_self, hblo]
  · intro hy0 hs7
    have h7 : (yO : Int) ≠ 0 ∧ sRow < 7 := ⟨by exact_mod_cast hy0, hs7⟩
    rw [if_pos h7]
    by_cases h0 : 0 ≤ sRow
    · rw [if_pos h0, sbStore_buf_self, sbStore_buf _ _ _ _ hne.symm, hbhi]
    · rw [if_neg h0, sbStore_buf_self, hbhi]

/-- The `SPRITE_IS_MASK_ERASE` combine in spec form: the current page gets
`d & ~((b << yO) & 0xFF)` and the next page (only when `yO != 0` and
`sRow < 7`) gets `d & ~(b >> (8-yO))`. -/
theorem spritePixel_erase_buf (yO : Nat) (sRow : Int) (b m ofs : Nat) (st : SBState)
    (hb : b < 256) (hy : yO ≤ 7) (hofs : ofs < 65536) :
    (0 ≤ sRow →
      (spritePixel 251 (yO : Int) sRow ((1 <<< yO) % 256) b m ofs st).buf ofs
        = (st.buf ofs % 256) &&& (255 ^^^ ((b <<< yO) % 256))) ∧
    (yO ≠ 0 → sRow < 7 →
      (spritePixel 251 (yO : Int) sRow ((1 <<< yO) % 256) b m ofs st).buf ((ofs + 128) % 65536)
        = (st.buf ((ofs + 128) % 65536) % 256) &&& (255 ^^^ (b >>> (8 - yO)))) := by
  have hblo : ((b % 256) * ((1 <<< yO) % 256)) % 65536 % 256 = (b <<< yO) % 256 := by
    rw [Nat.mod_eq_of_lt hb]
    exact byte_split_lo b yO hy
  have hbhi : ((b % 256) * ((1 <<< yO) % 256)) % 65536 / 256 = b >>> (8 - yO) := by
    rw [Nat.mod_eq_of_lt hb]
    exact byte_split_hi b yO hb hy
  have hne : ofs ≠ (ofs + 128) % 65536 := by omega
  simp only [spritePixel]
  simp only [show (((251:Nat) = 1)) = False from by norm_num,
    show (((251:Nat) = 250)) = False from by norm_num,
    show (((251:Nat) = 251)) = True from by norm_num, if_true, if_false]
  constructor
  · intro h0
    rw [if_pos h0]
    by_cases h7 : (yO : Int) ≠ 0 ∧ sRow < 7
    · rw [if_pos h7, sbStore_buf _ _ _ _ hne, sbStore_buf_self, hblo]
    · rw [if_neg h7, sbStore_buf_self, hblo]
  · intro hy0 hs7
    have h7 : (yO : Int) ≠ 0 ∧ sRow < 7 := ⟨by exact_mod_cast hy0, hs7⟩
    rw [if_pos h7]
    by_cases h0 : 0 ≤ sRow
    · rw [if_pos h0, sbStore_buf_self, sbStore_buf _ _ _ _ hne.symm, hbhi]
    · rw [if_neg h0, sbStore_buf_self, hbhi]

/-- The `SPRITE_PLUS_MASK` asm combine in spec form: with sprite byte `b` and
interleaved mask byte `m` (both read at `Z`), the current page at `X` gets
`(d & ~((m << yO) & 0xFF)) | ((b << yO) & 0xFF)` and the next page at `Y`
(only when `yO != 0` and `sRow < 7`) gets
`(d & ~(m >> (8-yO))) | (b >> (8-yO))`. -/
theorem pmPixel_buf_pages (yO : Nat) (sRow : Int) (bitmap : Nat → Nat) (st : PMState)
    (hy : yO ≤ 7) (hX : st.X < 65536) (hY : st.Y = (st.X + 128) % 65536) :
    (0 ≤ sRow →
      (pmPixel (yO : Int) sRow ((1 <<< yO) % 256) bitmap st).buf st.X
        = ((st.buf st.X % 256)
            &&& (255 ^^^ (((bitmap (st.Z + 1).toNat % 256) <<< yO) % 256)))
          ||| (((bitmap st.Z.toNat % 256) <<< yO) % 256)) ∧
    (yO ≠ 0 → sRow < 7 →
      (pmPixel (yO : Int) sRow ((1 <<< yO) % 256) bitmap st).buf st.Y
        = ((st.buf st.Y % 256)
            &&& (255 ^^^ ((bitmap (st.Z + 1).toNat % 256) >>> (8 - yO))))
          ||| ((bitmap st.Z.toNat % 256) >>> (8 - yO))) := by
  have hXY : st.X ≠ st.Y := by omega
  by_cases hy0 : yO = 0
  · subst hy0
    have hyF : ¬ ((((0:Nat) : Int)) ≠ 0) := by simp
    constructor
    · intro h0
      simp only [pmPixel]
      rw [if_neg hyF, if_neg hyF,
        if_neg (by simp : ¬ (((((0:Nat) : Int)) ≠ 0) ∧ sRow < 7)), if_pos h0]
      dsimp only
      rw [if_pos (Eq.refl st.X)]
      simp only [Nat.shiftLeft_zero]
    · intro hy0' _
      exact absurd rfl hy0'
  · have hyI : (((yO : Nat) : Int)) ≠ 0 := by exact_mod_cast hy0
    have hblo := byte_split_lo (bitmap st.Z.toNat % 256) yO hy
    have hmlo := byte_split_lo (bitmap (st.Z + 1).toNat % 256) yO hy
    have hbhi := byte_split_hi (bitmap st.Z.toNat % 256) yO (Nat.mod_lt _ (by norm_num)) hy
    have hmhi := byte_split_hi (bitmap (st.Z + 1).toNat % 256) yO (Nat.mod_lt _ (by norm_num)) hy
    constructor
    · intro h0
      simp only [pmPixel]
      rw [if_pos hyI, if_pos hyI]
      by_cases h7 : (((yO : Nat) : Int)) ≠ 0 ∧ sRow < 7
      · rw [if_pos h7, if_pos h0]
        dsimp only
        rw [if_pos (Eq.refl st.X), if_neg hXY, hmlo, hblo]
      · rw [if_neg h7, if_pos h0]
        dsimp only
        rw [if_pos (Eq.refl st.X), hmlo, hblo]
    · intro _ hs7
      have h7 : (((yO : Nat) : Int)) ≠ 0 ∧ sRow < 7 := ⟨hyI, hs7⟩
      simp only [pmPixel]
      rw [if_pos hyI, if_pos hyI, if_pos h7]
      by_cases h0 : 0 ≤ sRow
      · rw [if_pos h0]
        dsimp only
        rw [if_neg (Ne.symm hXY), if_pos (Eq.refl st.Y), hmhi, hbhi]
      · rw [if_neg h0]
        dsimp only
        rw [if_pos (Eq.refl st.Y), hmhi, hbhi]

/-- `drawCompressed`'s colour-dependent store at its own index: OR of the
value for `color != 0`, AND of its complement for `color = 0`. -/
theorem dcStore_buf_self (color : Nat) (st : DCState) (index : Int) (value : Nat) :
    (dcStore color st index value).buf index.toNat
      = if color ≠ 0 then (st.buf index.toNat % 256) ||| value
        else (st.buf index.toNat % 256) &&& (255 ^^^ value) := by
  simp only [dcStore]
  by_cases hc : color ≠ 0
  · rw [if_pos hc, if_pos hc]
    simp [dcWrite]
  · rw [if_neg hc, if_neg hc]
    simp [dcWrite]

/-- `drawCompressed`'s store leaves every other buffer byte unchanged. -/
theorem dcStore_buf_ne (color : Nat) (st : DCState) (index : Int) (value : Nat) (j : Nat)
    (h : j ≠ index.toNat) :
    (dcStore color st index value).buf j = st.buf j := by
  simp only [dcStore, dcWrite]
  split <;> simp [h]

/-- The byte flush of `drawCompressed` in spec form: when the flushed byte
row is fully on screen the current page receives the combine of
`(byte << yOffset) & 0xFF` and, only when `yOffset != 0` and the next page
exists (`bRow < 7`), the next page receives the combine of
`byte >> (8 - yOffset)` — by OR for `color != 0`, by AND-NOT for `color = 0`. -/
theorem dcDraw_combine (sx startRow yOffset : Int) (color : Nat) (st : DCState)
    (hg1 : startRow + st.rowOffset ≤ 7) (hg2 : 0 ≤ startRow + st.rowOffset)
    (hg3 : i16 (st.columnOffset + sx) ≤ 127) (hg4 : 0 ≤ i16 (st.columnOffset + sx)) :
    ((dcDraw sx startRow yOffset color st).buf
        (i16 ((startRow + st.rowOffset) * 128 + sx + st.columnOffset)).toNat
      = if color ≠ 0 then
          (st.buf (i16 ((startRow + st.rowOffset) * 128 + sx + st.columnOffset)).toNat % 256)
            ||| ((st.byte % 256) <<< yOffset.toNat) % 256
        else
          (st.buf (i16 ((startRow + st.rowOffset) * 128 + sx + st.columnOffset)).toNat % 256)
            &&& (255 ^^^ ((st.byte % 256) <<< yOffset.toNat) % 256)) ∧
    (yOffset ≠ 0 → startRow + st.rowOffset < 7 →
      (dcDraw sx startRow yOffset color st).buf
          (i16 (i16 ((startRow + st.rowOffset) * 128 + sx + st.columnOffset) + 128)).toNat
        = if color ≠ 0 then
            (st.buf (i16 (i16 ((startRow + st.rowOffset) * 128 + sx + st.columnOffset)
                + 128)).toNat % 256)
              ||| (st.byte % 256) >>> (8 - yOffset).toNat
          else
            (st.buf (i16 (i16 ((startRow + st.rowOffset) * 128 + sx + st.columnOffset)
                + 128)).toNat % 256)
              &&& (255 ^^^ (st.byte % 256) >>> (8 - yOffset).toNat)) := by
  have hg : startRow + st.rowOffset ≤ 7 ∧ startRow + st.rowOffset > -2 ∧
      i16 (st.columnOffset + sx) ≤ 127 ∧ 0 ≤ i16 (st.columnOffset + sx) :=
    ⟨hg1, by omega, hg3, hg4⟩
  have hcong : i16 ((startRow + st.rowOffset) * 128 + sx + st.columnOffset)
      = (startRow + st.rowOffset) * 128 + i16 (st.columnOffset + sx) := by
    rw [i16_congr ((startRow + st.rowOffset) * 128 + sx + st.columnOffset)
          ((startRow + st.rowOffset) * 128 + i16 (st.columnOffset + sx))
          (by unfold i16; omega)]
    exact i16_of_bounds _ (by nlinarith) (by nlinarith)
  have hO1n : 0 ≤ i16 ((startRow + st.rowOffset) * 128 + sx + st.columnOffset) := by
    rw [hcong]
    nlinarith
  simp only [dcDraw]
  rw [if_pos hg, if_pos hg2]
  by_cases h7 : yOffset ≠ 0 ∧ startRow + st.rowOffset < 7
  · have hcong2 : i16 (i16 ((startRow + st.rowOffset) * 128 + sx + st.columnOffset) + 128)
        = i16 ((startRow + st.rowOffset) * 128 + sx + st.columnOffset) + 128 := by
      rw [hcong]
      exact i16_of_bounds _ (by nlinarith) (by nlinarith [h7.2])
    have hne12 : (i16 ((startRow + st.rowOffset) * 128 + sx + st.columnOffset)).toNat
        ≠ (i16 (i16 ((startRow + st.rowOffset) * 128 + sx + st.columnOffset) + 128)).toNat := by
      rw [hcong2]
      omega
    rw [if_pos h7]
    constructor
    · rw [dcStore_buf_ne _ _ _ _ _ hne12, dcStore_buf_self]
    · intro _ _
      rw [dcStore_buf_self, dcStore_byte, dcStore_buf_ne _ _ _ _ _ (Ne.symm hne12)]
  · rw [if_neg h7]
    constructor
    · rw [dcStore_buf_self]
    · intro hy0 hlt
      exact absurd ⟨hy0, hlt⟩ h7

/-- `drawCompressed`'s `yOffset` is always congruent to `sy` mod 8: at the
divergence points (`sy < 0` a multiple of 8) it is 8, not 0. -/
theorem dcAlign_mod8 (sy : Int) : (dcAlign sy).2 % 8 = sy % 8 := by
  simp only [dcAlign]
  by_cases hc : sy < 0
  · rw [if_pos hc]
    dsimp only
    omega
  · rw [if_neg hc]
    dsimp only
    omega

/-- `drawCompressed` and `Sprites::drawBitmap` run the exact same rejection
test. -/
theorem spritesReject_eq_dcReject (x y : Int) (w h : Nat) :
    spritesReject x y w h = dcReject x y w h := rfl

/-- `drawCompressed`'s alignment always satisfies `8 * startRow + yOffset
= sy` — even where it diverges from the blit engine's. -/
theorem dcAlign_sum (sy : Int) : 8 * (dcAlign sy).1 + (dcAlign sy).2 = sy := by
  simp only [dcAlign]
  by_cases hc : sy < 0
  · rw [if_pos hc]
    dsimp only
    unfold tdiv8
    split_ifs <;> omega
  · rw [if_neg hc]
    dsimp only
    unfold tdiv8
    split_ifs <;> omega

/-- Away from the divergence set (`sy < 0` with `sy` a multiple of 8, where
`drawCompressed` produces `yOffset = 8` and the extra `startRow` decrement),
the two alignment computations agree. -/
theorem dcAlign_eq_spritesAlign (sy : Int) (h1 : -254 ≤ sy) (h2 : sy ≤ 63)
    (hnd : ¬ (sy < 0 ∧ sy % 8 = 0)) : dcAlign sy = spritesAlign sy := by
  simp only [dcAlign, spritesAlign]
  by_cases hc : sy < 0
  · have hmod : ((sy.natAbs % 8 : Nat) : Int) > 0 := by omega
    rw [if_pos hc, if_pos ⟨hc, hmod⟩, Prod.mk.injEq]
    constructor
    · unfold i8 tdiv8
      split_ifs <;> omega
    · rfl
  · have hnc : ¬ (sy < 0 ∧ ((sy.natAbs % 8 : Nat) : Int) > 0) := fun hAnd => hc hAnd.1
    rw [if_neg hc, if_neg hnc, Prod.mk.injEq]
    constructor
    · unfold i8 tdiv8
      split_ifs <;> omega
    · rfl

/-- Pixel `(pos % w, pos / w)` of the packed image read row-major — the
reading order C1's property text asserts (modelled from the claim's words,
for comparison with the encoder's actual `getcol` order). -/
def getcolRowMajor (src : Nat → Nat) (w pos : Nat) : Bool :=
  (src ((pos / w / 8) * w + pos % w) &&& (1 <<< (pos / w % 8))) != 0

/-! ### The claims -/

/-- C1 (amended): for every binary image handed to the encoder as a packed
byte resource, decoding `compress_rle`'s stream with the cabi ascii decoder
returns the exact dimensions, the colour of pixel 0, and every pixel in the
encoder's own enumeration order — bit `pos % 8` of byte `pos / 8` (the
packed column-stick order of `getcol` with `reading_order = 0`), not
row-major order. -/
theorem C1_roundtrip_stick_order (src : Nat → Nat) (w h fuel : Nat)
    (hw1 : 1 ≤ w) (hw2 : w ≤ 256) (hh1 : 1 ≤ h) (hh2 : h ≤ 256) (hfuel : w * h ≤ fuel) :
    draw_compressed_sprite_ascii (byteFun (compress_rle src w h)) fuel
      = (w, h, (if getcol src 0 then 1 else 0), (List.range (w * h)).map (getcol src)) :=
  compress_rle_decode_ascii src w h fuel hw1 hw2 hh1 hh2 hfuel

/-- Witness for C1 at the concrete 2x8 image with packed bytes `[2, 0]`. -/
theorem C1_roundtrip_witness :
    1 ≤ 2 ∧ 2 ≤ 256 ∧ 1 ≤ 8 ∧ 8 ≤ 256 ∧ 2 * 8 ≤ 16 ∧
    draw_compressed_sprite_ascii (byteFun (compress_rle (byteFun [2, 0]) 2 8)) 16
      = (2, 8, (if getcol (byteFun [2, 0]) 0 then 1 else 0),
         (List.range (2 * 8)).map (getcol (byteFun [2, 0]))) :=
  ⟨by norm_num, by norm_num, by norm_num, by norm_num, by norm_num,
   C1_roundtrip_stick_order (byteFun [2, 0]) 2 8 16 (by norm_num) (by norm_num)
     (by norm_num) (by norm_num) (by norm_num)⟩

/-- Counterexample to C1 as stated: the decoded pixel sequence of the 2x8
image `[2, 0]` is not its row-major pixel sequence (they differ at pixel 1:
the encoder enumerates bit `pos % 8` of byte `pos / 8`, not rows). -/
theorem C1_not_row_major :
    (draw_compressed_sprite_ascii (byteFun (compress_rle (byteFun [2, 0]) 2 8)) 16).2.2.2
      ≠ (List.range (2 * 8)).map (getcolRowMajor (byteFun [2, 0]) 2) := by decide

/-- C5 (amended): the span-length framing round-trips exactly for
`1 ≤ L ≤ 65535`; at `L = 2^16` the decoder's `uint16_t len` wraps (see the
counterexample). -/
theorem C5_span_length_roundtrip (L fuel : Nat)
    (h1 : 1 ≤ L) (h2 : L ≤ 65535) (hf : 9 ≤ fuel) :
    (readSpanLength (byteFun (writeSpanLength L)) fuel ⟨0, 0, 0⟩).1 = L :=
  readSpanLength_writeSpanLength L fuel h1 h2 hf

/-- Witness for C5 at `L = 300`. -/
theorem C5_span_length_witness :
    1 ≤ 300 ∧ 300 ≤ 65535 ∧ 9 ≤ 9 ∧
    (readSpanLength (byteFun (writeSpanLength 300)) 9 ⟨0, 0, 0⟩).1 = 300 :=
  ⟨by norm_num, by norm_num, by norm_num,
   C5_span_length_roundtrip 300 9 (by norm_num) (by norm_num) (by norm_num)⟩

/-- Counterexample to C5 at the claimed upper end `L = 2^16`: the decoder
reads the 17-bit payload back as `65535`, adds 1 in `uint16_t`, and returns
0, not 65536. -/
theorem C5_wrap_at_65536 :
    (readSpanLength (byteFun (writeSpanLength 65536)) 20 ⟨0, 0, 0⟩).1 ≠ 65536 := by decide

/-- C6 (amended): both paths run the identical off-screen rejection test;
`drawCompressed`'s alignment always satisfies `8 * startRow + yOffset = sy`
(as does the blit engine's on its admissible range), and the two alignments
coincide except when `sy` is negative and a multiple of 8 — there
`drawCompressed` applies the correction unconditionally and produces
`yOffset = 8` with an extra `startRow` decrement (see the counterexample),
while still addressing the same pixels. -/
theorem C6_alignment_refinement :
    (∀ (x y : Int) (w h : Nat), spritesReject x y w h = dcReject x y w h) ∧
    (∀ sy : Int, 8 * (dcAlign sy).1 + (dcAlign sy).2 = sy) ∧
    (∀ y : Int, -254 ≤ y → y ≤ 63 → 8 * (spritesAlign y).1 + (spritesAlign y).2 = y) ∧
    (∀ sy : Int, -254 ≤ sy → sy ≤ 63 → ¬ (sy < 0 ∧ sy % 8 = 0) →
      dcAlign sy = spritesAlign sy) :=
  ⟨spritesReject_eq_dcReject, dcAlign_sum,
   fun y h1 h2 => (spritesAlign_facts y h1 h2).1,
   dcAlign_eq_spritesAlign⟩

/-- Witness for C6 at `sy = -3`. -/
theorem C6_alignment_witness :
    (-254 ≤ (-3 : Int) ∧ (-3 : Int) ≤ 63 ∧ ¬ ((-3 : Int) < 0 ∧ (-3 : Int) % 8 = 0)) ∧
    dcAlign (-3) = spritesAlign (-3) :=
  ⟨⟨by norm_num, by norm_num, by decide⟩,
   C6_alignment_refinement.2.2.2 (-3) (by norm_num) (by norm_num) (by decide)⟩

/-- Counterexample to C6 as stated: at `sy = -8` (negative, `yOffset = 0`)
the two paths derive different alignment values — `drawCompressed` gives
`(startRow, yOffset) = (-2, 8)`, the blit engine `(-1, 0)`. -/
theorem C6_divergence_at_minus8 : dcAlign (-8) ≠ spritesAlign (-8) := by decide

/-- C7 (amended): the 1x16 all-lit Overwrite blit at `destY = 3` into a zero
buffer actually produces page 0 = 0xF8, page 1 = 0xFF (not 0x07: rows 8..15
are all lit by the sprite's second byte-row) and page 2 = 0x07. -/
theorem C7_overwrite_straddle_actual :
    (drawBitmap 0 3 (some fun _ => 255) none 1 16 2 (fun _ => 0)).buf 0 = 0xF8 ∧
    (drawBitmap 0 3 (some fun _ => 255) none 1 16 2 (fun _ => 0)).buf 128 = 0xFF ∧
    (drawBitmap 0 3 (some fun _ => 255) none 1 16 2 (fun _ => 0)).buf 256 = 0x07 := by
  decide

/-- Counterexample to C7's expected value for page 1. -/
theorem C7_page1_not_07 :
    (drawBitmap 0 3 (some fun _ => 255) none 1 16 2 (fun _ => 0)).buf 128 ≠ 0x07 := by
  decide

/-- C8: a NULL bitmap is a complete no-op for both `Sprites::draw` and
`Sprites::drawBitmap`: no write is performed and the framebuffer is
returned unchanged, for every position, frame, mask and mode. -/
theorem C8_null_bitmap_noop :
    (∀ (x y : Int) (frame : Nat) (mask : Option (Nat → Nat)) (sprite_frame drawMode : Nat)
      (buf : Nat → Nat),
      spritesDraw x y none frame mask sprite_frame drawMode buf = ⟨buf, []⟩) ∧
    (∀ (x0 y0 : Int) (mask : Option (Nat → Nat)) (w h draw_mode : Nat) (buf : Nat → Nat),
      drawBitmap x0 y0 none mask w h draw_mode buf = ⟨buf, []⟩) := by
  constructor
  · intro x y frame mask sprite_frame drawMode buf
    rfl
  · intro x0 y0 mask w h draw_mode buf
    simp only [drawBitmap]
    split <;> rfl

/-- C9: the decoder's span colour strictly alternates from the header bit
(one toggle per span, clipping invisible to the log), and the cursor
`(columnOffset, rowOffset, byte, bit)` advances through a span as a pure
function of the sprite width and span colour alone — the draw position, the
draw colour and the framebuffer cannot shift which source pixels land
where. -/
theorem C9_span_alternation_and_cursor :
    (∀ (sx0 sy0 : Int) (src : Nat → Nat) (color fuel : Nat) (buf : Nat → Nat),
      ∃ c0 k, c0 < 2 ∧ (drawCompressed sx0 sy0 src color fuel buf).spanLog
        = (List.range k).map (fun i => (c0 + i) % 2)) ∧
    (∀ (sx startRow yOffset : Int) (color : Nat) (width : Int) (spanColour n : Nat)
      (st : DCState),
      dcCursor (dcSpan sx startRow yOffset color width spanColour n st)
        = dcStepN width spanColour n (dcCursor st)) :=
  ⟨drawCompressed_spanLog,
   fun sx startRow yOffset color width spanColour n st =>
     dcSpan_cursor sx startRow yOffset color width spanColour n st⟩

/-- C2 (amended): every framebuffer write of an RLE decode lies inside the
1024-byte `sBuffer` for every position (however far off-screen), stream,
colour and fuel; every write of a blit does so in every draw mode provided
the sprite is non-degenerate (`1 ≤ w, h ≤ 255`).  For `w = 0` or `h = 0`
the `SPRITE_PLUS_MASK` do-while loops run 256 times and write out of
bounds — see the counterexample. -/
theorem C2_blit_decode_writes_inbounds :
    (∀ (sx0 sy0 : Int) (src : Nat → Nat) (color fuel : Nat) (buf : Nat → Nat),
      ∀ e ∈ (drawCompressed sx0 sy0 src color fuel buf).writes, 0 ≤ e ∧ e < 1024) ∧
    (∀ (x0 y0 : Int) (bmp : Nat → Nat) (mask : Option (Nat → Nat)) (w h draw_mode : Nat)
      (buf : Nat → Nat), 1 ≤ w → w ≤ 255 → 1 ≤ h → h ≤ 255 →
      ∀ e ∈ (drawBitmap x0 y0 (some bmp) mask w h draw_mode buf).writes, e < 1024) := by
  constructor
  · exact drawCompressed_writes_inbounds
  · intro x0 y0 bmp mask w h draw_mode buf hw1 hw2 hh1 hh2 e he
    obtain ⟨p, c, hpe, hp0, hp7, hc1, hc2, _, _⟩ :=
      drawBitmap_writes_shape x0 y0 bmp mask w h draw_mode buf hw1 hw2 hh1 hh2 e he
    have hc0 : (0 : Int) ≤ c := le_trans (le_max_right _ _) hc1
    have hc128 : c < 128 := lt_of_lt_of_le hc2 (min_le_right _ _)
    omega

/-- Witness for C2 at a concrete 1x8 Overwrite blit whose single write is
index 0. -/
theorem C2_writes_inbounds_witness :
    (1 ≤ 1 ∧ 1 ≤ 255 ∧ 1 ≤ 8 ∧ 8 ≤ 255 ∧
      0 ∈ (drawBitmap 0 0 (some fun _ => 255) none 1 8 2 (fun _ => 0)).writes) ∧
    (0 : Nat) < 1024 :=
  ⟨⟨by norm_num, by norm_num, by norm_num, by norm_num, by decide⟩,
   C2_blit_decode_writes_inbounds.2 0 0 (fun _ => 255) none 1 8 2 (fun _ => 0)
     (by norm_num) (by norm_num) (by norm_num) (by norm_num) 0 (by decide)⟩

set_option maxRecDepth 100000 in
set_option maxHeartbeats 1000000 in
/-- Counterexample to C2 as stated: the `SPRITE_PLUS_MASK` blit of a
zero-width sprite at `(127, 56)` writes index 1024, one past the end of
`sBuffer` (the asm `dec/brne` do-whiles run their counters from 0 through
256). -/
theorem C2_plus_mask_out_of_bounds :
    1024 ∈ (drawBitmap 127 56 (some fun _ => 0) none 0 8 3 (fun _ => 0)).writes := by
  decide

/-- C3 (amended): the Masked combine writes `d' = (d & ~m) | s` — the
shifted source byte is NOT additionally masked by `m` (so an all-zero mask
does not leave the buffer unchanged: it ORs the source in, see the
counterexample); an all-ones mask still behaves exactly as Overwrite mode,
whatever mask resource the Overwrite call carries. -/
theorem C3_masked_combine :
    (∀ (yO : Nat) (sRow : Int) (b m ofs : Nat) (st : SBState),
      b < 256 → m < 256 → yO ≤ 7 → 0 ≤ sRow → ofs < 65536 →
      (spritePixel 1 (yO : Int) sRow ((1 <<< yO) % 256) b m ofs st).buf ofs
        = ((st.buf ofs % 256) &&& (255 ^^^ ((m <<< yO) % 256))) ||| ((b <<< yO) % 256)) ∧
    (∀ (x0 y0 : Int) (bmp : Nat → Nat) (msk : Option (Nat → Nat)) (w h : Nat)
      (buf : Nat → Nat),
      drawBitmap x0 y0 (some bmp) (some fun _ => 255) w h 1 buf
        = drawBitmap x0 y0 (some bmp) msk w h 2 buf) := by
  constructor
  · intro yO sRow b m ofs st hb hm hy h0 hofs
    exact spritePixel_masked_buf yO sRow b m ofs st hb hm hy h0 hofs
  · intro x0 y0 bmp msk w h buf
    simp only [drawBitmap]
    split
    · rfl
    · simp only [show (((1:Nat) = 2 ∨ (1:Nat) = 250 ∨ (1:Nat) = 251)) = False from by norm_num,
        show (((1:Nat) = 1)) = True from by norm_num,
        show (((2:Nat) = 2 ∨ (2:Nat) = 250 ∨ (2:Nat) = 251)) = True from by norm_num,
        if_true, if_false]
      exact spriteRowsLoop_mask_ones _ _ _ _ _ _ _ _ _ _ _ _ _

/-- Witness for C3's combine formula at `yO = 3`, `b = 255`, `m = 15`,
`d = 170`. -/
theorem C3_masked_combine_witness :
    (255 < 256 ∧ 15 < 256 ∧ 3 ≤ 7 ∧ (0 : Int) ≤ 0 ∧ 0 < 65536) ∧
    (spritePixel 1 ((3 : Nat) : Int) 0 ((1 <<< 3) % 256) 255 15 0
        ⟨fun _ => 170, []⟩).buf 0
      = ((((fun _ => 170) 0 : Nat) % 256) &&& (255 ^^^ ((15 <<< 3) % 256)))
          ||| ((255 <<< 3) % 256) :=
  ⟨⟨by norm_num, by norm_num, by norm_num, by norm_num, by norm_num⟩,
   C3_masked_combine.1 3 0 255 15 0 ⟨fun _ => 170, []⟩ (by norm_num) (by norm_num)
     (by norm_num) (by norm_num) (by norm_num)⟩

/-- Counterexample to C3 as stated: a Masked blit with an all-zero mask
does change the destination buffer (byte 5 of an all-0xAA buffer becomes
0xEA, since the combine ORs the unmasked source in). -/
theorem C3_zero_mask_changes_buffer :
    (drawBitmap 5 5 (some fun _ => 255) (some fun _ => 0) 2 8 1 (fun _ => 170)).buf 5
      ≠ 170 := by decide

/-- C4 (amended): in the blit engine `yOffset` is `destY mod 8` (normalized
to `[0, 8)`) for every `destY`, and for every source byte `b` every draw
mode's combine step — Overwrite/Unmasked (2), Masked (1), SelfMasked (250),
Erase (251) and PlusMask (the asm) — applies `(b << yOffset) & 0xFF` to the
current page and, only when `yOffset != 0` and the next page exists,
`b >> (8 - yOffset)` to the next page; `drawCompressed`'s byte flush applies
the same two shifted values, by OR for `color != 0` and AND-NOT for
`color = 0`.  The decode path's `yOffset`, however, matches `destY mod 8`
only up to congruence mod 8: it always satisfies
`8*startRow + yOffset = destY`, but at `destY < 0` with `8 | destY` it is 8,
not 0 (see the counterexample). -/
theorem C4_shift_straddle :
    (∀ y : Int, (spritesAlign y).2 = y % 8) ∧
    (∀ sy : Int, 8 * (dcAlign sy).1 + (dcAlign sy).2 = sy ∧
      (dcAlign sy).2 % 8 = sy % 8 ∧
      (¬ (sy < 0 ∧ sy % 8 = 0) → (dcAlign sy).2 = sy % 8)) ∧
    (∀ (yO : Nat) (sRow : Int) (b m ofs : Nat) (st : SBState),
      b < 256 → m < 256 → yO ≤ 7 → ofs < 65536 →
      (0 ≤ sRow →
        (spritePixel 2 (yO : Int) sRow ((1 <<< yO) % 256) b m ofs st).buf ofs
          = ((st.buf ofs % 256) &&& (255 ^^^ ((255 <<< yO) % 256))) ||| ((b <<< yO) % 256) ∧
        (spritePixel 1 (yO : Int) sRow ((1 <<< yO) % 256) b m ofs st).buf ofs
          = ((st.buf ofs % 256) &&& (255 ^^^ ((m <<< yO) % 256))) ||| ((b <<< yO) % 256) ∧
        (spritePixel 250 (yO : Int) sRow ((1 <<< yO) % 256) b m ofs st).buf ofs
          = (st.buf ofs % 256) ||| ((b <<< yO) % 256) ∧
        (spritePixel 251 (yO : Int) sRow ((1 <<< yO) % 256) b m ofs st).buf ofs
          = (st.buf ofs % 256) &&& (255 ^^^ ((b <<< yO) % 256))) ∧
      (yO ≠ 0 → sRow < 7 →
        (spritePixel 2 (yO : Int) sRow ((1 <<< yO) % 256) b m ofs st).buf
            ((ofs + 128) % 65536)
          = ((st.buf ((ofs + 128) % 65536) % 256) &&& (255 ^^^ (255 >>> (8 - yO))))
            ||| (b >>> (8 - yO)) ∧
        (spritePixel 1 (yO : Int) sRow ((1 <<< yO) % 256) b m ofs st).buf
            ((ofs + 128) % 65536)
          = ((st.buf ((ofs + 128) % 65536) % 256) &&& (255 ^^^ (m >>> (8 - yO))))
            ||| (b >>> (8 - yO)) ∧
        (spritePixel 250 (yO : Int) sRow ((1 <<< yO) % 256) b m ofs st).buf
            ((ofs + 128) % 65536)
          = (st.buf ((ofs + 128) % 65536) % 256) ||| (b >>> (8 - yO)) ∧
        (spritePixel 251 (yO : Int) sRow ((1 <<< yO) % 256) b m ofs st).buf
            ((ofs + 128) % 65536)
          = (st.buf ((ofs + 128) % 65536) % 256) &&& (255 ^^^ (b >>> (8 - yO))))) ∧
    (∀ (yO : Nat) (sRow : Int) (bitmap : Nat → Nat) (st : PMState),
      yO ≤ 7 → st.X < 65536 → st.Y = (st.X + 128) % 65536 →
      (0 ≤ sRow →
        (pmPixel (yO : Int) sRow ((1 <<< yO) % 256) bitmap st).buf st.X
          = ((st.buf st.X % 256)
              &&& (255 ^^^ (((bitmap (st.Z + 1).toNat % 256) <<< yO) % 256)))
            ||| (((bitmap st.Z.toNat % 256) <<< yO) % 256)) ∧
      (yO ≠ 0 → sRow < 7 →
        (pmPixel (yO : Int) sRow ((1 <<< yO) % 256) bitmap st).buf st.Y
          = ((st.buf st.Y % 256)
              &&& (255 ^^^ ((bitmap (st.Z + 1).toNat % 256) >>> (8 - yO))))
            ||| ((bitmap st.Z.toNat % 256) >>> (8 - yO)))) ∧
    (∀ (sx startRow yOffset : Int) (color : Nat) (st : DCState),
      startRow + st.rowOffset ≤ 7 → 0 ≤ startRow + st.rowOffset →
      i16 (st.columnOffset + sx) ≤ 127 → 0 ≤ i16 (st.columnOffset + sx) →
      ((dcDraw sx startRow yOffset color st).buf
          (i16 ((startRow + st.rowOffset) * 128 + sx + st.columnOffset)).toNat
        = if color ≠ 0 then
            (st.buf (i16 ((startRow + st.rowOffset) * 128 + sx + st.columnOffset)).toNat % 256)
              ||| ((st.byte % 256) <<< yOffset.toNat) % 256
          else
            (st.buf (i16 ((startRow + st.rowOffset) * 128 + sx + st.columnOffset)).toNat % 256)
              &&& (255 ^^^ ((st.byte % 256) <<< yOffset.toNat) % 256)) ∧
      (yOffset ≠ 0 → startRow + st.rowOffset < 7 →
        (dcDraw sx startRow yOffset color st).buf
            (i16 (i16 ((startRow + st.rowOffset) * 128 + sx + st.columnOffset) + 128)).toNat
          = if color ≠ 0 then
              (st.buf (i16 (i16 ((startRow + st.rowOffset) * 128 + sx + st.columnOffset)
                  + 128)).toNat % 256)
                ||| (st.byte % 256) >>> (8 - yOffset).toNat
            else
              (st.buf (i16 (i16 ((startRow + st.rowOffset) * 128 + sx + st.columnOffset)
                  + 128)).toNat % 256)
                &&& (255 ^^^ (st.byte % 256) >>> (8 - yOffset).toNat))) ∧
    (∀ (color : Nat) (st : DCState) (index : Int) (value : Nat),
      (color ≠ 0 → (dcStore color st index value).buf index.toNat
        = (st.buf index.toNat % 256) ||| value) ∧
      (color = 0 → (dcStore color st index value).buf index.toNat
        = (st.buf index.toNat % 256) &&& (255 ^^^ value))) := by
  refine ⟨?_, ?_, ?_, ?_, ?_, ?_⟩
  · intro y
    simp only [spritesAlign]
    by_cases hc : y < 0 ∧ (((y.natAbs % 8 : Nat)) : Int) > 0
    · rw [if_pos hc]
      omega
    · rw [if_neg hc]
      omega
  · intro sy
    refine ⟨dcAlign_sum sy, dcAlign_mod8 sy, fun hnd => ?_⟩
    simp only [dcAlign]
    by_cases hc : sy < 0
    · rw [if_pos hc]
      dsimp only
      omega
    · rw [if_neg hc]
      dsimp only
      omega
  · intro yO sRow b m ofs st hb hm hy hofs
    refine ⟨fun h0 => ⟨?_, ?_, ?_, ?_⟩, fun hy0 hs7 => ⟨?_, ?_, ?_, ?_⟩⟩
    · exact (spritePixel_unmasked_buf yO sRow b m ofs st hb hy h0 hofs).1
    · exact spritePixel_masked_buf yO sRow b m ofs st hb hm hy h0 hofs
    · exact (spritePixel_selfmask_buf yO sRow b m ofs st hb hy hofs).1 h0
    · exact (spritePixel_erase_buf yO sRow b m ofs st hb hy hofs).1 h0
    · exact spritePixel_unmasked_buf2 yO sRow b m ofs st hb hy hofs hy0 hs7
    · exact spritePixel_masked_buf2 yO sRow b m ofs st hb hm hy hofs hy0 hs7
    · exact (spritePixel_selfmask_buf yO sRow b m ofs st hb hy hofs).2 hy0 hs7
    · exact (spritePixel_erase_buf yO sRow b m ofs st hb hy hofs).2 hy0 hs7
  · intro yO sRow bitmap st hy hX hY
    exact pmPixel_buf_pages yO sRow bitmap st hy hX hY
  · intro sx startRow yOffset color st hg1 hg2 hg3 hg4
    exact dcDraw_combine sx startRow yOffset color st hg1 hg2 hg3 hg4
  · intro color st index value
    constructor
    · intro hc
      simp [dcStore, dcWrite, hc]
    · intro hc
      simp [dcStore, dcWrite, hc]

/-- Witness for C4 at a concrete pixel: `yO = 3`, `sRow = 0`, `b = 255`,
`m = 15`, an all-0xAA buffer — the Masked-mode current-page conjunct — plus
the PlusMask next-page conjunct at `X = 0`, `Y = 128`, `Z = 0`. -/
theorem C4_shift_straddle_witness :
    ((255:Nat) < 256 ∧ (15:Nat) < 256 ∧ (3:Nat) ≤ 7 ∧ (0:Nat) < 65536 ∧ (0:Int) ≤ 0) ∧
    (spritePixel 1 ((3 : Nat) : Int) 0 ((1 <<< 3) % 256) 255 15 0
        ⟨fun _ => 170, []⟩).buf 0
      = ((((fun _ => 170) 0 : Nat) % 256) &&& (255 ^^^ ((15 <<< 3) % 256)))
          ||| ((255 <<< 3) % 256) ∧
    ((3:Nat) ≠ 0 ∧ (0:Int) < 7 ∧ (0:Nat) < 65536 ∧ (128:Nat) = (0 + 128) % 65536) ∧
    (pmPixel ((3 : Nat) : Int) 0 ((1 <<< 3) % 256) (fun z => if z = 0 then 255 else 15)
        ⟨0, 0, 128, fun _ => 170, []⟩).buf 128
      = ((((fun _ => 170) 128 : Nat) % 256)
          &&& (255 ^^^ (((fun z => if z = 0 then 255 else 15) ((0:Int) + 1).toNat % 256)
            >>> (8 - 3))))
        ||| (((fun z => if z = 0 then 255 else 15) ((0:Int)).toNat % 256) >>> (8 - 3)) :=
  ⟨⟨by norm_num, by norm_num, by norm_num, by norm_num, by norm_num⟩,
   ((C4_shift_straddle.2.2.1 3 0 255 15 0 ⟨fun _ => 170, []⟩ (by norm_num) (by norm_num)
       (by norm_num) (by norm_num)).1 (by norm_num)).2.1,
   ⟨by norm_num, by norm_num, by norm_num, by norm_num⟩,
   (C4_shift_straddle.2.2.2.1 3 0 (fun z => if z = 0 then 255 else 15)
       ⟨0, 0, 128, fun _ => 170, []⟩ (by norm_num) (by norm_num) (by norm_num)).2
     (by norm_num) (by norm_num)⟩

/-- Counterexample to C4 as stated: at `destY = -8` the decode path derives
`yOffset = 8`, not `destY mod 8 = 0` — `drawCompressed` applies its
negative-`y` correction (`startRow--; yOffset = 8 - yOffset`) whenever
`sy < 0`, so at negative multiples of 8 its combine shifts by 8 (the whole
byte goes to the "next" page of the decremented `startRow`). -/
theorem C4_dc_yoffset_eight : (dcAlign (-8)).2 ≠ (-8 : Int) % 8 := by decide

/-- C10 (amended): for a non-degenerate sprite whose height is a whole
number of pages (`8 | h`), every framebuffer byte outside the clipped
destination region — column outside `[max(x,0), min(x+w, 128))` or page not
overlapped by pixel rows `[y, y+h)` — keeps its prior value, in every draw
mode.  Without `8 | h` the blit also writes the page holding the padding
rows `[y+h, y+8*ceil(h/8))`, see the counterexample. -/
theorem C10_frame_outside_clip (x0 y0 : Int) (bmp : Nat → Nat) (mask : Option (Nat → Nat))
    (w h draw_mode : Nat) (buf : Nat → Nat) (j : Nat)
    (hw1 : 1 ≤ w) (hw2 : w ≤ 255) (hh1 : 1 ≤ h) (hh2 : h ≤ 255) (h8 : h % 8 = 0)
    (hout : (j : Int) % 128 < max (i16 x0) 0 ∨ min (i16 x0 + w) 128 ≤ (j : Int) % 128 ∨
      8 * ((j : Int) / 128) + 8 ≤ i16 y0 ∨ i16 y0 + h ≤ 8 * ((j : Int) / 128)) :
    (drawBitmap x0 y0 (some bmp) mask w h draw_mode buf).buf j = buf j := by
  rcases drawBitmap_buf x0 y0 (some bmp) mask w h draw_mode buf j with hb | hb
  · exact hb
  · exfalso
    obtain ⟨p, c, hpe, hp0, hp7, hc1, hc2, hyb, hyt⟩ :=
      drawBitmap_writes_shape x0 y0 bmp mask w h draw_mode buf hw1 hw2 hh1 hh2 j hb
    have hyt2 := hyt h8
    have hc0 : (0 : Int) ≤ c := le_trans (le_max_right _ _) hc1
    have hc128 : c < 128 := lt_of_lt_of_le hc2 (min_le_right _ _)
    have hjc : (j : Int) % 128 = c := by omega
    have hjp : (j : Int) / 128 = p := by omega
    rcases hout with ho | ho | ho | ho
    · rw [hjc] at ho
      exact absurd hc1 (not_le.mpr ho)
    · rw [hjc] at ho
      exact absurd ho (not_le.mpr hc2)
    · rw [hjp] at ho
      omega
    · rw [hjp] at ho
      omega

/-- Witness for C10: the 1x8 Overwrite blit at the origin leaves byte 1
(the column just right of the sprite) untouched. -/
theorem C10_frame_witness :
    (1 ≤ 1 ∧ 1 ≤ 255 ∧ 1 ≤ 8 ∧ 8 ≤ 255 ∧ 8 % 8 = 0 ∧
      min (i16 0 + (1 : Nat)) 128 ≤ ((1 : Nat) : Int) % 128) ∧
    (drawBitmap 0 0 (some fun _ => 255) none 1 8 2 (fun _ => 0)).buf 1 = 0 :=
  ⟨⟨by norm_num, by norm_num, by norm_num, by norm_num, by norm_num, by decide⟩,
   C10_frame_outside_clip 0 0 (fun _ => 255) none 1 8 2 (fun _ => 0) 1
     (by norm_num) (by norm_num) (by norm_num) (by norm_num) (by norm_num)
     (Or.inr (Or.inl (by decide)))⟩

/-- Counterexample to C10 as stated: a 1x9 Overwrite blit at `(0, 7)`
covers pixel rows `[7, 16)` — pages 0 and 1 only — yet writes page 2
(byte 256) with the shifted padding rows of the sprite's second byte-row. -/
theorem C10_height9_leaks :
    (drawBitmap 0 7 (some fun _ => 255) none 1 9 2 (fun _ => 0)).buf 256 ≠ 0 := by decide
